import Mathlib

/-!
# The OSC codec of lubyk/osc

A shallow embedding of `src/osc.cpp`: the encoder (`osc::pack`, `pack_lua`, `pack_table`,
`pack_array`, `pack_hash`, `pack_string`) and the decoder (`osc::unpack`, `unpack_packet`,
`unpack_bundle`, `parse_osc_array`, `parse_osc_hash`, `parse_osc_value`).

The Lua stack is a list of values with the top of the stack at the head, tables are association
lists in iteration order, a C string pointer is a buffer with an offset, and the argument iterator
of a received message is an index into its argument list. Loops and recursion that the code does
not bound are given a step budget (`fuel`); running out of it is reported as its own fault, never
as a result.
-/

namespace Osc

/-! ## Constants of `osc.cpp` -/

/-- The constant `#define MAX_DEPTH 10000`. -/
def MAX_DEPTH : Nat := 10000

/-- The constant `#define MAX_BUFF_SIZE 8196`. -/
def MAX_BUFF_SIZE : Nat := 8196

/-! ## Type tags -/

/-- Modelled from the spec: the type tag constants of the OSC element library (`osc::*_TYPE_TAG`,
declared in a header that is not part of the sources at hand); the letters are those of the
tag grammar, true is `T`. -/
def TRUE_TYPE_TAG : Char := 'T'
/-- Modelled from the spec: tag of the boolean false, `F`. -/
def FALSE_TYPE_TAG : Char := 'F'
/-- Modelled from the spec: tag of nil, `N`. -/
def NIL_TYPE_TAG : Char := 'N'
/-- Modelled from the spec: begin-array tag, an opening square bracket. -/
def ARRAY_BEGIN_TYPE_TAG : Char := Char.ofNat 91
/-- Modelled from the spec: end-array tag, a closing square bracket. -/
def ARRAY_END_TYPE_TAG : Char := Char.ofNat 93
/-- Modelled from the spec: begin-hash tag, an opening curly bracket. -/
def HASH_BEGIN_TYPE_TAG : Char := Char.ofNat 123
/-- Modelled from the spec: end-hash tag, a closing curly bracket. -/
def HASH_END_TYPE_TAG : Char := Char.ofNat 125
/-- Modelled from the spec: tag of a 32-bit integer, `i`. -/
def INT32_TYPE_TAG : Char := 'i'
/-- Modelled from the spec: tag of a 32-bit float, `f`. -/
def FLOAT_TYPE_TAG : Char := 'f'
/-- Modelled from the spec: tag of a character, `c`. -/
def CHAR_TYPE_TAG : Char := 'c'
/-- Modelled from the spec: tag of a 64-bit double, `d`. -/
def DOUBLE_TYPE_TAG : Char := 'd'
/-- Modelled from the spec: tag of a string, `s`. -/
def STRING_TYPE_TAG : Char := 's'
/-- Modelled from the spec: tag of a MIDI message, `m`. -/
def MIDI_MESSAGE_TYPE_TAG : Char := 'm'
/-- Modelled from the spec: tag of an RGBA colour, `r`. -/
def RGBA_COLOR_TYPE_TAG : Char := 'r'
/-- Modelled from the spec: tag of a 64-bit integer, `h`. -/
def INT64_TYPE_TAG : Char := 'h'
/-- Modelled from the spec: tag of a time tag, `t`. -/
def TIME_TAG_TYPE_TAG : Char := 't'
/-- Modelled from the spec: tag of a symbol, `S`. -/
def SYMBOL_TYPE_TAG : Char := 'S'
/-- Modelled from the spec: tag of a blob, `b`. -/
def BLOB_TYPE_TAG : Char := 'b'

/-- The zero byte that ends a C string. -/
def NUL : Char := Char.ofNat 0

/-! ## Lua values -/

/-- A Lua number (a C `double`). Floating point arithmetic is not computed here: a double with an
integral value is kept exactly (`int`), any other double is kept by its bit pattern (`real`), and
the casts between doubles and wire floats are fields of `Host`. -/
inductive LuaNumber where
  | int (i : Int)
  | real (bits : Nat)
  deriving DecidableEq, Repr

/-- A Lua value. A table is the list of its key/value pairs, in the order `lua_next` walks them.
The kinds that have no wire form carry an identity only. -/
inductive LuaValue where
  | nil
  | boolean (b : Bool)
  | number (x : LuaNumber)
  | string (s : String)
  | table (entries : List (LuaValue × LuaValue))
  | function (id : Nat)
  | userdata (id : Nat)
  | thread (id : Nat)
  | lightuserdata (id : Nat)
  deriving Repr

/-- The pairs of a table. -/
abbrev LuaTable := List (LuaValue × LuaValue)

/-- The Lua stack; the head of the list is the top of the stack, so the absolute index `i` of
the Lua API is the `i`-th element counted from the end of the list. -/
abbrev LuaState := List LuaValue

/-- What the host supplies and the embedding does not compute: floating point casts, the
formatting of a number, the signedness of `char`, and the length of a table. -/
structure Host where
  /-- The cast `(float)x` of a Lua number, as the 32 bits of the resulting single. -/
  toFloat32 : LuaNumber → Nat
  /-- The Lua number equal to the single with these 32 bits. -/
  ofFloat32 : Nat → LuaNumber
  /-- The Lua number with these 64 bits. -/
  ofFloat64 : Nat → LuaNumber
  /-- The string a number converts to (`lua_tolstring` on a number). -/
  number2str : LuaNumber → String
  /-- Whether `char` is a signed type. -/
  charSigned : Bool
  /-- The value of `luaL_getn` / `luaL_len` on a table: a border of the table. -/
  getn : LuaTable → Nat

/-- Raw equality of two table keys. Numbers, strings and booleans compare by value, the opaque
kinds by identity; a table used as a key is a reference and never meets an equal key here. -/
def keyEq : LuaValue → LuaValue → Bool
  | .boolean a, .boolean b => a == b
  | .number a, .number b => a == b
  | .string a, .string b => a == b
  | .function a, .function b => a == b
  | .userdata a, .userdata b => a == b
  | .thread a, .thread b => a == b
  | .lightuserdata a, .lightuserdata b => a == b
  | _, _ => false

/-- Whether a value is nil. -/
def LuaValue.isNil : LuaValue → Bool
  | .nil => true
  | _ => false

/-- The raw read `t[k]`; an absent key reads as nil. -/
def rawget : LuaTable → LuaValue → LuaValue
  | [], _ => .nil
  | (k1, v1) :: rest, k => if keyEq k1 k then v1 else rawget rest k

/-- The table without the key `k`. -/
def rawerase : LuaTable → LuaValue → LuaTable
  | [], _ => []
  | (k1, v1) :: rest, k => if keyEq k1 k then rawerase rest k else (k1, v1) :: rawerase rest k

/-- The raw write `t[k] = v` with a value that is not nil: an existing key keeps its place,
a new key goes last. -/
def rawput : LuaTable → LuaValue → LuaValue → LuaTable
  | [], k, v => [(k, v)]
  | (k1, v1) :: rest, k, v => if keyEq k1 k then (k1, v) :: rest else (k1, v1) :: rawput rest k v

/-- The raw write `t[k] = v`; writing nil removes the key. -/
def tableSet (t : LuaTable) (k v : LuaValue) : LuaTable :=
  if v.isNil then rawerase t k else rawput t k v

/-- The key of the integer index `n`. -/
def intKey (n : Nat) : LuaValue := .number (.int n)

/-! ## C strings and tag cursors -/

/-- The bytes a `const char*` denotes: those before the first zero byte. -/
def cstr (s : String) : String := String.mk (s.data.takeWhile (fun c => c != NUL))

/-- A `const char*` into a tag string: null, or a buffer and an offset into it. The buffer is the
text of the C string; its terminator sits at offset `buf.length`. -/
inductive TagPtr where
  | null
  | ptr (buf : List Char) (pos : Nat)
  deriving DecidableEq, Repr

/-- Ways in which a run of the decoder leaves defined behaviour, and the exhaustion of the step
budget. -/
inductive Fault where
  /-- The step budget of the model is used up: the run did not finish within it. -/
  | outOfFuel
  /-- A tag was read through a null pointer or past the terminator of its string. -/
  | tagOutOfBounds
  /-- An argument was read that the message does not hold, or as a type it does not have. -/
  | badArgument
  /-- A Lua API call addressed a stack slot that does not exist or is not a table. -/
  | badStack
  /-- Lua raised an error (a nil table key). -/
  | luaError
  deriving DecidableEq, Repr

/-- The read `*type_tags`. -/
def TagPtr.deref : TagPtr → Except Fault Char
  | .null => .error .tagOutOfBounds
  | .ptr buf pos =>
    if pos < buf.length then .ok (buf.getD pos NUL)
    else if pos = buf.length then .ok NUL
    else .error .tagOutOfBounds

/-- The step `++type_tags`. -/
def TagPtr.next : TagPtr → TagPtr
  | .null => .null
  | .ptr buf pos => .ptr buf (pos + 1)

/-- The string literal `""` that `parse_osc_hash` returns for a malformed hash. -/
def emptyLiteral : TagPtr := .ptr [] 0

/-! ## Received packets -/

/-- Modelled from the spec: the payload of one argument of a received message, as the element
library hands it out (its classes are not part of the sources at hand). Every tag of the tag
string has one argument slot, so that tags and arguments are walked in lock-step; the tags that
carry no bytes have the slot `none`. -/
inductive ArgData where
  | none
  | word32 (w : Nat)
  | word64 (w : Nat)
  | str (s : String)
  | blob (bytes : List Nat)
  deriving DecidableEq, Repr

/-- Modelled from the spec: a received message (`osc::ReceivedMessage`): address pattern, tag
string (absent when the message has none) and the argument slots. -/
structure ReceivedMessage where
  addressPattern : String
  typeTags : Option (List Char)
  arguments : List ArgData
  deriving DecidableEq, Repr

/-- Modelled from the spec: a received packet (`osc::ReceivedPacket`), a message or a bundle of
elements in wire order. -/
inductive ReceivedPacket where
  | message (m : ReceivedMessage)
  | bundle (elements : List ReceivedPacket)
  deriving Repr

/-- Modelled from the spec: `IsBundle()`. -/
def ReceivedPacket.IsBundle : ReceivedPacket → Bool
  | .message _ => false
  | .bundle _ => true

/-- Modelled from the spec: `m.TypeTags()`, null when the message has no tag string. -/
def ReceivedMessage.TypeTags (m : ReceivedMessage) : TagPtr :=
  match m.typeTags with
  | some tags => .ptr tags 0
  | Option.none => .null

/-- Modelled from the spec: the argument the iterator stands on; reading behind the last
argument is a fault. -/
def argAt (args : List ArgData) (arg : Nat) : Except Fault ArgData :=
  match args.get? arg with
  | some a => .ok a
  | Option.none => .error .badArgument

/-- Modelled from the spec: `arg->AsInt32Unchecked()`, the four bytes as a signed integer. -/
def AsInt32Unchecked (args : List ArgData) (arg : Nat) : Except Fault Int := do
  match ← argAt args arg with
  | .word32 w => pure (if w % 2 ^ 32 < 2 ^ 31 then (w % 2 ^ 32 : Nat) else (w % 2 ^ 32 : Nat) - 2 ^ 32)
  | _ => throw .badArgument

/-- Modelled from the spec: `arg->AsFloatUnchecked()`, the four bytes of a single. -/
def AsFloatUnchecked (args : List ArgData) (arg : Nat) : Except Fault Nat := do
  match ← argAt args arg with
  | .word32 w => pure w
  | _ => throw .badArgument

/-- Modelled from the spec: `arg->AsCharUnchecked()`, the low byte of the integer as a `char`. -/
def AsCharUnchecked (h : Host) (args : List ArgData) (arg : Nat) : Except Fault Int := do
  match ← argAt args arg with
  | .word32 w =>
    pure (if h.charSigned && 128 ≤ w % 256 then (w % 256 : Nat) - 256 else (w % 256 : Nat))
  | _ => throw .badArgument

/-- Modelled from the spec: `arg->AsDoubleUnchecked()`, the eight bytes of a double. -/
def AsDoubleUnchecked (args : List ArgData) (arg : Nat) : Except Fault Nat := do
  match ← argAt args arg with
  | .word64 w => pure w
  | _ => throw .badArgument

/-- Modelled from the spec: `arg->AsStringUnchecked()`, a pointer to the string bytes. -/
def AsStringUnchecked (args : List ArgData) (arg : Nat) : Except Fault String := do
  match ← argAt args arg with
  | .str s => pure s
  | _ => throw .badArgument

/-- Modelled from the spec: `arg->AsMidiMessageUnchecked()`, the four bytes as one 32-bit word,
first byte highest. -/
def AsMidiMessageUnchecked (args : List ArgData) (arg : Nat) : Except Fault Nat := do
  match ← argAt args arg with
  | .word32 w => pure (w % 2 ^ 32)
  | _ => throw .badArgument

/-! ## The Lua API calls of the decoder -/

/-- Embedding of `lua_gettop`. -/
def lua_gettop (L : LuaState) : Nat := L.length

/-- The value at the absolute index `idx`, if the slot exists. -/
def index2adr (L : LuaState) (idx : Nat) : Option LuaValue :=
  if 1 ≤ idx ∧ idx ≤ L.length then L.get? (L.length - idx) else Option.none

/-- Embedding of `lua_pushboolean`. -/
def lua_pushboolean (L : LuaState) (b : Bool) : LuaState := .boolean b :: L

/-- Embedding of `lua_pushnil`. -/
def lua_pushnil (L : LuaState) : LuaState := .nil :: L

/-- Embedding of `lua_pushnumber`. -/
def lua_pushnumber (L : LuaState) (x : LuaNumber) : LuaState := .number x :: L

/-- Embedding of `lua_pushstring` of a `const char*`: the bytes up to the first zero byte. -/
def lua_pushstring (L : LuaState) (s : String) : LuaState := .string (cstr s) :: L

/-- Embedding of `lua_newtable`. -/
def lua_newtable (L : LuaState) : LuaState := .table [] :: L

/-- Apply `f` to the table in the slot `idx`; a fault when the slot does not exist or does not
hold a table. -/
def updateTable (L : LuaState) (idx : Nat) (f : LuaTable → LuaTable) : Except Fault LuaState :=
  match index2adr L idx with
  | some (.table t) => .ok (L.set (L.length - idx) (.table (f t)))
  | _ => .error .badStack

/-- Embedding of `lua_rawseti(L, idx, n)`: `t[n] = v` for the table `t` in slot `idx` and the value `v` on top
of the stack, which is popped. When `idx` is the top slot itself the table is stored into itself
and popped: nothing on the stack refers to it any more. -/
def lua_rawseti (L : LuaState) (idx : Nat) (n : Nat) : Except Fault LuaState :=
  match L with
  | [] => .error .badStack
  | v :: rest =>
    if idx = rest.length + 1 then
      match v with
      | .table _ => .ok rest
      | _ => .error .badStack
    else updateTable rest idx (fun t => tableSet t (intKey n) v)

/-- Embedding of `lua_rawset(L, idx)`: `t[k] = v` for the table `t` in slot `idx`, the value `v` on top of the
stack and the key `k` below it; both are popped. When `idx` is one of the two popped slots the
table leaves the stack with them. A nil key is a Lua error. -/
def lua_rawset (L : LuaState) (idx : Nat) : Except Fault LuaState :=
  match L with
  | v :: k :: rest =>
    if idx = rest.length + 1 then
      match k with
      | .table _ => .ok rest
      | _ => .error .badStack
    else if idx = rest.length + 2 then
      match v with
      | .table _ => if k.isNil then .error .luaError else .ok rest
      | _ => .error .badStack
    else if k.isNil then .error .luaError
    else updateTable rest idx (fun t => tableSet t k v)
  | _ => .error .badStack

/-! ## The decoder -/

/-- What a parse function leaves behind: the tag cursor it returns, the Lua stack, and the
argument iterator it was given by reference. -/
structure Parsed where
  type_tags : TagPtr
  L : LuaState
  arg : Nat
  deriving Repr

mutual

/-- Embedding of `parse_osc_value`: parse a single value and advance `arg` and the type tags. -/
def parse_osc_value (h : Host) (args : List ArgData) :
    Nat → LuaState → TagPtr → Nat → Except Fault Parsed
  | 0, _, _, _ => .error .outOfFuel
  | fuel + 1, L, start_type_tags, arg => do
    let c ← start_type_tags.deref
    if c = TRUE_TYPE_TAG then
      pure ⟨start_type_tags.next, lua_pushboolean L true, arg + 1⟩
    else if c = FALSE_TYPE_TAG then
      pure ⟨start_type_tags.next, lua_pushboolean L false, arg + 1⟩
    else if c = NIL_TYPE_TAG then
      pure ⟨start_type_tags.next, lua_pushnil L, arg + 1⟩
    else if c = ARRAY_BEGIN_TYPE_TAG then do
      -- eat opening bracket
      let r ← parse_osc_array_table h args fuel L start_type_tags.next (arg + 1)
      pure ⟨r.type_tags.next, r.L, r.arg + 1⟩
    else if c = ARRAY_END_TYPE_TAG then
      -- return before type_tags increment
      pure ⟨start_type_tags, L, arg⟩
    else if c = HASH_BEGIN_TYPE_TAG then do
      -- eat opening bracket
      let r ← parse_osc_hash h args fuel L start_type_tags.next (arg + 1)
      pure ⟨r.type_tags.next, r.L, r.arg + 1⟩
    else if c = HASH_END_TYPE_TAG then
      -- return before type_tags increment
      pure ⟨start_type_tags, L, arg⟩
    else if c = INT32_TYPE_TAG then do
      let v ← AsInt32Unchecked args arg
      pure ⟨start_type_tags.next, lua_pushnumber L (.int v), arg + 1⟩
    else if c = FLOAT_TYPE_TAG then do
      let v ← AsFloatUnchecked args arg
      pure ⟨start_type_tags.next, lua_pushnumber L (h.ofFloat32 v), arg + 1⟩
    else if c = CHAR_TYPE_TAG then do
      let v ← AsCharUnchecked h args arg
      pure ⟨start_type_tags.next, lua_pushnumber L (.int v), arg + 1⟩
    else if c = DOUBLE_TYPE_TAG then do
      let v ← AsDoubleUnchecked args arg
      pure ⟨start_type_tags.next, lua_pushnumber L (h.ofFloat64 v), arg + 1⟩
    else if c = STRING_TYPE_TAG then do
      let v ← AsStringUnchecked args arg
      pure ⟨start_type_tags.next, lua_pushstring L v, arg + 1⟩
    else if c = MIDI_MESSAGE_TYPE_TAG then do
      let L := lua_newtable L
      let tablepos := lua_gettop L
      let m ← AsMidiMessageUnchecked args arg
      -- 3 byte midi message
      let L := lua_pushnumber L (.int ((m >>> 16) &&& 0xFF : Nat))
      let L ← lua_rawseti L tablepos 1
      let L := lua_pushnumber L (.int ((m >>> 8) &&& 0xFF : Nat))
      let L ← lua_rawseti L tablepos 2
      let L := lua_pushnumber L (.int (m &&& 0xFF : Nat))
      let L ← lua_rawseti L tablepos 3
      pure ⟨start_type_tags.next, L, arg + 1⟩
    else
      -- RGBA colour, int64, time tag, symbol, blob and any other character: nothing is pushed
      pure ⟨start_type_tags.next, L, arg + 1⟩
termination_by structural fuel => fuel

/-- The loop of `parse_osc_array` when `sz` is given: the values are pushed on the stack and
counted in `i`. -/
def parse_osc_array_args (h : Host) (args : List ArgData) :
    Nat → LuaState → TagPtr → Nat → Nat → Except Fault (Parsed × Nat)
  | 0, _, _, _, _ => .error .outOfFuel
  | fuel + 1, L, type_tags, arg, i => do
    let c ← type_tags.deref
    if c = NUL then pure (⟨type_tags, L, arg⟩, i)
    else do
      let i := i + 1
      let r ← parse_osc_value h args fuel L type_tags arg
      -- do not eat the ending bracket
      let c ← r.type_tags.deref
      if c = ARRAY_END_TYPE_TAG then pure (r, i)
      else parse_osc_array_args h args fuel r.L r.type_tags r.arg i
termination_by structural fuel => fuel

/-- The loop of `parse_osc_array` when `sz` is null: each value is stored at index `i` of the
table in slot `tbl_pos`. -/
def parse_osc_array_loop (h : Host) (args : List ArgData) (tbl_pos : Nat) :
    Nat → LuaState → TagPtr → Nat → Nat → Except Fault Parsed
  | 0, _, _, _, _ => .error .outOfFuel
  | fuel + 1, L, type_tags, arg, i => do
    let c ← type_tags.deref
    if c = NUL then pure ⟨type_tags, L, arg⟩
    else do
      let i := i + 1
      let r ← parse_osc_value h args fuel L type_tags arg
      let L ← lua_rawseti r.L tbl_pos i
      -- do not eat the ending bracket
      let c ← r.type_tags.deref
      if c = ARRAY_END_TYPE_TAG then pure ⟨r.type_tags, L, r.arg⟩
      else parse_osc_array_loop h args tbl_pos fuel L r.type_tags r.arg i
termination_by structural fuel => fuel

/-- Embedding of `parse_osc_array` without `sz`: a new table receives the elements. -/
def parse_osc_array_table (h : Host) (args : List ArgData) :
    Nat → LuaState → TagPtr → Nat → Except Fault Parsed
  | 0, _, _, _ => .error .outOfFuel
  | fuel + 1, L, start_type_tags, arg =>
    match start_type_tags with
    | .null => pure ⟨.null, L, arg⟩
    | type_tags =>
      let L := lua_newtable L
      let tbl_pos := lua_gettop L
      parse_osc_array_loop h args tbl_pos fuel L type_tags arg 0
termination_by structural fuel => fuel

/-- Embedding of `parse_osc_hash`: parse a hash and advance `arg` and the type tags. -/
def parse_osc_hash (h : Host) (args : List ArgData) :
    Nat → LuaState → TagPtr → Nat → Except Fault Parsed
  | 0, _, _, _ => .error .outOfFuel
  | fuel + 1, L, start_type_tags, arg =>
    let L := lua_newtable L
    let tablepos := lua_gettop L
    parse_osc_hash_loop h args tablepos fuel L start_type_tags arg
termination_by structural fuel => fuel

/-- The loop of `parse_osc_hash`. -/
def parse_osc_hash_loop (h : Host) (args : List ArgData) (tablepos : Nat) :
    Nat → LuaState → TagPtr → Nat → Except Fault Parsed
  | 0, _, _, _ => .error .outOfFuel
  | fuel + 1, L, type_tags, arg => do
    let c ← type_tags.deref
    if c = NUL then pure ⟨type_tags, L, arg⟩
    else if c = STRING_TYPE_TAG then do
      -- get key
      let key ← AsStringUnchecked args arg
      let L := lua_pushstring L key
      let r ← parse_osc_value h args fuel L type_tags.next (arg + 1)
      let L ← lua_rawset r.L tablepos
      parse_osc_hash_loop h args tablepos fuel L r.type_tags r.arg
    else if c = HASH_END_TYPE_TAG then
      -- finished, do not eat the ending bracket
      pure ⟨type_tags, L, arg⟩
    else
      -- mal-formed message
      pure ⟨emptyLiteral, L, arg⟩

termination_by structural fuel => fuel
end

/-- Embedding of `parse_osc_array(L, start_type_tags, arg, &sz)`: the result and the value written to `sz`
(it stays as it was, `sz0`, when the tag string is null). -/
def parse_osc_array_sz (h : Host) (args : List ArgData) (fuel : Nat) (L : LuaState)
    (start_type_tags : TagPtr) (arg : Nat) (sz0 : Nat) : Except Fault (Parsed × Nat) :=
  match start_type_tags with
  | .null => pure (⟨.null, L, arg⟩, sz0)
  | type_tags => parse_osc_array_args h args fuel L type_tags arg 0

/-- Embedding of `parse_osc_array(L, start_type_tags, arg)`, without `sz`. -/
def parse_osc_array (h : Host) (args : List ArgData) (fuel : Nat) (L : LuaState)
    (start_type_tags : TagPtr) (arg : Nat) : Except Fault Parsed :=
  parse_osc_array_table h args (fuel + 1) L start_type_tags arg

mutual

/-- Embedding of `unpack_bundle`: returns a Lua table with the bundle content; the result is the number of
values the function reports (always 1) and the stack it leaves. The argument is the packet the
`ReceivedBundle` is made from; the callers make one from bundles only. -/
def unpack_bundle (h : Host) (fuel : Nat) (L : LuaState) :
    ReceivedPacket → Except Fault (Nat × LuaState)
  | .message _ => .error .badArgument
  | .bundle elements => do
    let L := lua_newtable L
    let tablepos := lua_gettop L
    let L ← unpack_bundle_elems h fuel tablepos L 0 elements
    pure (1, L)
termination_by structural b => b

/-- The `for` loop of `unpack_bundle` over the elements, `i` being the count so far. -/
def unpack_bundle_elems (h : Host) (fuel : Nat) (tablepos : Nat) (L : LuaState) (i : Nat) :
    List ReceivedPacket → Except Fault LuaState
  | [] => pure L
  | .bundle elements :: rest => do
    let r ← unpack_bundle h fuel L (.bundle elements)
    let L ← lua_rawseti r.2 tablepos (i + 1)
    unpack_bundle_elems h fuel tablepos L (i + 1) rest
  | .message m :: rest => do
    -- one table with message
    let L := lua_pushstring L m.addressPattern
    let r ← parse_osc_array h m.arguments fuel L m.TypeTags 0
    let L ← lua_rawseti r.L tablepos (i + 1)
    unpack_bundle_elems h fuel tablepos L (i + 1) rest
termination_by structural elements => elements

end

/-- Embedding of `unpack_packet`: retrieve Lua values from an OSC packet; the result is the number
of values the function reports as returned and the stack it leaves. `osc::unpack` is this
function on the packet read from the string that lies on top of the stack. -/
def unpack_packet (h : Host) (fuel : Nat) (L : LuaState) :
    ReceivedPacket → Except Fault (Nat × LuaState)
  | .bundle elements => unpack_bundle h fuel L (.bundle elements)
  | .message m => do
    let L := lua_pushstring L m.addressPattern
    let r ← parse_osc_array_sz h m.arguments fuel L m.TypeTags 0 0
    -- Url + arguments
    pure (r.2 + 1, r.1.L)

/-- Modelled from the spec: `pk.IsBundle()` on the bytes of a packet that was written as a message
with the address pattern `address` (the first bytes of the packet indicate a bundle envelope).
The bytes of a message begin with its address pattern and the bundle marker `#bundle` begins
with `#`: the packet is taken for a bundle when its address pattern begins with `#`. Whether the
test reads the first byte or the first four, every packet it takes for a bundle begins with
`#`, and the address `#bundle` is taken for one. -/
def IsBundleBytes (address : String) : Bool :=
  address.data.head? == some '#'

/-- Modelled from the spec: `osc::ReceivedPacket(str, sz)` on the bytes that `osc::pack` returned,
classified by `pk.IsBundle()`. Bytes written as a message whose address pattern begins with the
bundle marker are read as a bundle; what the element library then finds in them, a list of
elements or a malformed bundle, is not computed here and is the parameter `asBundle`. All other
bytes are read as the message they were written as. -/
def ReceivedPacket.ofPacked (asBundle : ReceivedMessage → Except Fault (List ReceivedPacket)) :
    ReceivedPacket → Except Fault ReceivedPacket
  | .message m =>
    if IsBundleBytes m.addressPattern then (asBundle m).map ReceivedPacket.bundle
    else pure (.message m)
  | .bundle elements => pure (.bundle elements)

/-- Embedding of `osc::unpack` on string data that `osc::pack` returned: the packet is read from
the bytes and given to `unpack_packet`. -/
def unpack (h : Host) (asBundle : ReceivedMessage → Except Fault (List ReceivedPacket))
    (fuel : Nat) (L : LuaState) (data : ReceivedPacket) : Except Fault (Nat × LuaState) := do
  let pk ← ReceivedPacket.ofPacked asBundle data
  unpack_packet h fuel L pk

/-- The values a C function hands to Lua when it returns `n`: the top `n` slots of the stack,
lowest first; nothing when the stack does not hold that many. -/
def returned (n : Nat) (L : LuaState) : Option (List LuaValue) :=
  if n ≤ L.length then some (L.take n).reverse else Option.none

/-! ## The outbound packet stream -/

/-- Why a call of `osc::pack` raises instead of returning a packet. -/
inductive PackError where
  /-- `dub::Exception("Cannot pack message of type %s.")`, with the type name. -/
  | cannotPack (typeName : String)
  /-- `dub::Exception("Cannot send table (recursive or too large).")`. -/
  | tooLarge
  /-- The packet does not fit the buffer of the stream. -/
  | outOfBuffer
  /-- `luaL_checkstring` rejected the first argument. -/
  | badUrl
  /-- The step budget of the model is used up. -/
  | outOfFuel
  deriving DecidableEq, Repr

/-- The next multiple of four. -/
def roundUp4 (n : Nat) : Nat := (n + 3) / 4 * 4

/-- Modelled from the spec: the bytes an argument takes on the wire: none for a tag without
payload, four or eight for a number, the zero-terminated string padded to a multiple of four
(every `Char` of a string stands for one byte), a size word and the padded bytes for a blob. -/
def ArgData.size : ArgData → Nat
  | .none => 0
  | .word32 _ => 4
  | .word64 _ => 8
  | .str s => roundUp4 (s.length + 1)
  | .blob bytes => 4 + roundUp4 bytes.length

/-- Modelled from the spec: the outbound packet stream (`osc::OutboundPacketStream`, a class of the
element library that is not part of the sources at hand) over a buffer of `capacity` bytes: the
address pattern of the message in progress, the type tags written so far and the argument
payloads written so far, both in order. -/
structure OutboundPacketStream where
  capacity : Nat
  address : String
  typeTags : List Char
  arguments : List ArgData
  deriving DecidableEq, Repr

/-- Modelled from the spec: `pk.Size()`, the bytes of the message: the padded address pattern,
the padded tag string with its leading comma and its terminator, and the argument payloads. -/
def OutboundPacketStream.Size (pk : OutboundPacketStream) : Nat :=
  roundUp4 (pk.address.length + 1) + roundUp4 (pk.typeTags.length + 2)
    + (pk.arguments.map ArgData.size).sum

/-- Modelled from the spec: the buffer-overflow guard of the stream: what is written must fit the
buffer, exceeding the capacity is an error. -/
def OutboundPacketStream.checked (pk : OutboundPacketStream) :
    Except PackError OutboundPacketStream :=
  if pk.Size ≤ pk.capacity then .ok pk else .error .outOfBuffer

/-- Modelled from the spec: appending one tag and its payload to the stream. -/
def OutboundPacketStream.put (pk : OutboundPacketStream) (tag : Char) (a : ArgData) :
    Except PackError OutboundPacketStream :=
  OutboundPacketStream.checked { pk with typeTags := pk.typeTags ++ [tag], arguments := pk.arguments ++ [a] }

/-- Modelled from the spec: `OutboundPacketStream pk(buffer, capacity)` followed by
`pk << osc::BeginMessage(url)`; the address pattern is the C string `url`. -/
def OutboundPacketStream.BeginMessage (capacity : Nat) (url : String) :
    Except PackError OutboundPacketStream :=
  OutboundPacketStream.checked ⟨capacity, cstr url, [], []⟩

/-- Modelled from the spec: `pk << (float)x`, given the bits of the single. -/
def OutboundPacketStream.putFloat (pk : OutboundPacketStream) (w : Nat) :=
  pk.put FLOAT_TYPE_TAG (.word32 w)

/-- Modelled from the spec: `pk << true` and `pk << false`. -/
def OutboundPacketStream.putBool (pk : OutboundPacketStream) (b : Bool) :=
  pk.put (if b then TRUE_TYPE_TAG else FALSE_TYPE_TAG) .none

/-- Modelled from the spec: `pk << osc::Nil`. -/
def OutboundPacketStream.putNil (pk : OutboundPacketStream) :=
  pk.put NIL_TYPE_TAG .none

/-- Modelled from the spec: `pk << str` for a `const char*`: the bytes up to the first zero. -/
def OutboundPacketStream.putString (pk : OutboundPacketStream) (str : String) :=
  pk.put STRING_TYPE_TAG (.str (cstr str))

/-- Modelled from the spec: `pk << osc::BeginArray`. -/
def OutboundPacketStream.BeginArray (pk : OutboundPacketStream) :=
  pk.put ARRAY_BEGIN_TYPE_TAG .none

/-- Modelled from the spec: `pk << osc::EndArray`. -/
def OutboundPacketStream.EndArray (pk : OutboundPacketStream) :=
  pk.put ARRAY_END_TYPE_TAG .none

/-- Modelled from the spec: `pk << osc::BeginHash`. -/
def OutboundPacketStream.BeginHash (pk : OutboundPacketStream) :=
  pk.put HASH_BEGIN_TYPE_TAG .none

/-- Modelled from the spec: `pk << osc::EndHash`. -/
def OutboundPacketStream.EndHash (pk : OutboundPacketStream) :=
  pk.put HASH_END_TYPE_TAG .none

/-- Modelled from the spec: `pk << osc::EndMessage`, then `pk.Data()` and `pk.Size()`: the bytes
of the finished message, named by the message they were written as (address pattern, type tags,
argument payloads). What a receiver makes of these bytes, a message or a bundle, is decided
when they are read: see `ReceivedPacket.ofPacked`. -/
def OutboundPacketStream.EndMessage (pk : OutboundPacketStream) : ReceivedPacket :=
  .message ⟨pk.address, some pk.typeTags, pk.arguments⟩

/-! ## The Lua API calls of the encoder -/

/-- The type codes of `lua_type`. -/
inductive LuaType where
  | LUA_TNONE
  | LUA_TNIL
  | LUA_TBOOLEAN
  | LUA_TLIGHTUSERDATA
  | LUA_TNUMBER
  | LUA_TSTRING
  | LUA_TTABLE
  | LUA_TFUNCTION
  | LUA_TUSERDATA
  | LUA_TTHREAD
  deriving DecidableEq, Repr

/-- The value at an index that is already absolute; indices that are not positive name no slot
of the stack. -/
def slot (L : LuaState) (index : Int) : Option LuaValue :=
  if 0 < index then index2adr L index.toNat else Option.none

/-- Embedding of `lua_type`. -/
def lua_type (L : LuaState) (index : Int) : LuaType :=
  match slot L index with
  | Option.none => .LUA_TNONE
  | some .nil => .LUA_TNIL
  | some (.boolean _) => .LUA_TBOOLEAN
  | some (.lightuserdata _) => .LUA_TLIGHTUSERDATA
  | some (.number _) => .LUA_TNUMBER
  | some (.string _) => .LUA_TSTRING
  | some (.table _) => .LUA_TTABLE
  | some (.function _) => .LUA_TFUNCTION
  | some (.userdata _) => .LUA_TUSERDATA
  | some (.thread _) => .LUA_TTHREAD

/-- Embedding of `lua_typename`. -/
def lua_typename : LuaType → String
  | .LUA_TNONE => "no value"
  | .LUA_TNIL => "nil"
  | .LUA_TBOOLEAN => "boolean"
  | .LUA_TLIGHTUSERDATA => "userdata"
  | .LUA_TNUMBER => "number"
  | .LUA_TSTRING => "string"
  | .LUA_TTABLE => "table"
  | .LUA_TFUNCTION => "function"
  | .LUA_TUSERDATA => "userdata"
  | .LUA_TTHREAD => "thread"

/-- Embedding of `lua_tonumber`; what is not a number converts to zero. -/
def lua_tonumber (L : LuaState) (index : Int) : LuaNumber :=
  match slot L index with
  | some (.number x) => x
  | _ => .int 0

/-- Embedding of `lua_toboolean`: false for nil and false, true for everything else. -/
def lua_toboolean (L : LuaState) (index : Int) : Bool :=
  match slot L index with
  | some (.boolean b) => b
  | some .nil => false
  | Option.none => false
  | _ => true

/-- Embedding of `lua_tolstring`: the string of a string or of a number, null for every other value. -/
def lua_tolstring (h : Host) (L : LuaState) (index : Int) : Option String :=
  match slot L index with
  | some (.string s) => some s
  | some (.number x) => some (h.number2str x)
  | _ => Option.none

/-- The pairs of the table at `index`; none when the slot holds no table. -/
def tableAt (L : LuaState) (index : Int) : LuaTable :=
  match slot L index with
  | some (.table t) => t
  | _ => []

/-- Embedding of `luaL_getn` / `luaL_len` (`COMPAT_GETN`) on the table at `index`. -/
def COMPAT_GETN (h : Host) (L : LuaState) (index : Int) : Nat :=
  h.getn (tableAt L index)

/-- Embedding of `lua_rawgeti(L, index, i)`: push `t[i]`. The push is taken to succeed:
`osc.cpp` never calls `lua_checkstack`, so what is proved of a walk holds of the code as long as
the Lua stack has room for the slots the walk pushes. -/
def lua_rawgeti (L : LuaState) (index : Int) (i : Nat) : LuaState :=
  rawget (tableAt L index) (intKey i) :: L

/-! ## The encoder -/

/-- The type of `pack_lua`, which `osc.cpp` declares ahead of the functions that call it. -/
abbrev Packer := LuaState → OutboundPacketStream → Int → Except PackError OutboundPacketStream

/-- Embedding of `pack_string`. -/
def pack_string (h : Host) (L : LuaState) (pk : OutboundPacketStream) (index : Int) :
    Except PackError OutboundPacketStream :=
  match lua_tolstring h L index with
  | Option.none =>
    -- "Could not serialize string at index ..." is printed and the value is skipped
    pure pk
  | some str => pk.putString str

/-- Embedding of `pack_array`; the parameter `pack_lua` is the function declared ahead. -/
def pack_array (pack_lua : Packer) (L : LuaState) (pk : OutboundPacketStream) (index : Int)
    (sz : Nat) : Except PackError OutboundPacketStream := do
  let pk ← pk.BeginArray
  let pk ← (List.range' 1 sz).foldlM
    (fun pk i =>
      -- lua_rawgeti pushes the element, lua_pop removes it after the call
      pack_lua (lua_rawgeti L index i) pk (-1)) pk
  pk.EndArray

/-- Embedding of `pack_hash`; `lua_next` walks the pairs of the table and leaves key and value on the stack
for the body of the loop. -/
def pack_hash (pack_lua : Packer) (L : LuaState) (pk : OutboundPacketStream) (index : Int) :
    Except PackError OutboundPacketStream := do
  let pk ← pk.BeginHash
  let pk ← (tableAt L index).foldlM
    (fun pk kv => do
      -- push key
      let pk ← pack_lua (kv.2 :: kv.1 :: L) pk (-2)
      -- push value
      pack_lua (kv.2 :: kv.1 :: L) pk (-1)) pk
  pk.EndHash

/-- Embedding of `pack_table`. -/
def pack_table (h : Host) (pack_lua : Packer) (L : LuaState) (pk : OutboundPacketStream)
    (index : Int) : Except PackError OutboundPacketStream :=
  if index > MAX_DEPTH then
    .error .tooLarge
  else
    let sz := COMPAT_GETN h L index
    if sz > 0 then pack_array pack_lua L pk index sz
    else pack_hash pack_lua L pk index

/-- The first lines of `pack_lua`: a negative index is resolved to the absolute one, so that it
is consistent on recursive table handling. -/
def resolveIndex (L : LuaState) (index : Int) : Int :=
  if index < 0 then (lua_gettop L : Int) + index + 1 else index

/-- Embedding of `pack_lua`; `fuel` bounds the depth of the recursion through tables. -/
def pack_lua (h : Host) : Nat → Packer
  | 0, _, _, _ => .error .outOfFuel
  | fuel + 1, L, pk, index =>
    let index := resolveIndex L index
    let type := lua_type L index
    match type with
    | .LUA_TNUMBER => pk.putFloat (h.toFloat32 (lua_tonumber L index))
    | .LUA_TBOOLEAN => pk.putBool (lua_toboolean L index)
    | .LUA_TSTRING => pack_string h L pk index
    | .LUA_TNIL => pk.putNil
    | .LUA_TTABLE => pack_table h (pack_lua h fuel) L pk index
    | _ => .error (.cannotPack (lua_typename type))

/-- Embedding of `luaL_checkstring(L, 1)`: the first argument as a C string; strings and numbers pass. -/
def luaL_checkstring (h : Host) (L : LuaState) (index : Int) : Except PackError String :=
  match lua_tolstring h L index with
  | some s => .ok s
  | Option.none => .error .badUrl

/-- Embedding of `osc::pack`: pack the arguments on the stack into an OSC packet, the first argument being
the url. The index of a table on the stack is at most `MAX_DEPTH` when `pack_table` lets it
pass and grows with every level, so the budget `MAX_DEPTH + 1` is never used up. -/
def pack (h : Host) (L : LuaState) : Except PackError ReceivedPacket := do
  let url ← luaL_checkstring h L 1
  let pk ← OutboundPacketStream.BeginMessage MAX_BUFF_SIZE url
  let top := lua_gettop L
  let pk ← (List.range' 2 (top - 1)).foldlM
    (fun pk i => pack_lua h (MAX_DEPTH + 1) L pk (i : Nat)) pk
  pure pk.EndMessage

/-- The stack of a call with the given arguments, first argument lowest. -/
def stackOf (args : List LuaValue) : LuaState := args.reverse

/-! ## Regular arrays and a host for the examples -/

/-- The pairs of the regular array holding `vs` at the indices `start`, `start + 1`, ... -/
def seqEntriesFrom : Nat → List LuaValue → LuaTable
  | _, [] => []
  | start, v :: vs => (intKey start, v) :: seqEntriesFrom (start + 1) vs

/-- The regular array with the values `vs` at the indices `1 .. vs.length`. -/
def seqEntries (vs : List LuaValue) : LuaTable := seqEntriesFrom 1 vs

/-- The table that is the regular array of `vs`. -/
def seqTable (vs : List LuaValue) : LuaValue := .table (seqEntries vs)

/-- The guarantee of the Lua manual for the length operator: for a regular array, with non-nil
values from 1 to a given `n`, the length is exactly that `n`. -/
def Host.RegularLength (h : Host) : Prop :=
  ∀ vs : List LuaValue, (∀ v ∈ vs, v.isNil = false) → h.getn (seqEntries vs) = vs.length

/-- The smallest border of a table: the first `n` with `t[n + 1]` nil. -/
def firstBorder (t : LuaTable) : Nat :=
  ((List.range t.length).takeWhile (fun i => !(rawget t (intKey (i + 1))).isNil)).length

/-- A host for the examples: the single of an integral number is named by that number, the
length of a table is its smallest border, `char` is signed. -/
def sampleHost : Host where
  toFloat32 := fun x => match x with
    | .int i => i.toNat
    | .real bits => bits
  ofFloat32 := fun w => .int w
  ofFloat64 := fun w => .real w
  number2str := fun _ => "0"
  charSigned := true
  getn := firstBorder

/-! ## The wire form of plain values -/

mutual

/-- The tags and argument slots that the encoder writes for a value made of nil, booleans,
numbers, strings and regular arrays: one tag for a scalar, the brackets of an array around the
forms of its elements, and the two brackets of a hash for the empty table. -/
def wireOf (h : Host) : LuaValue → List (Char × ArgData)
  | .nil => [(NIL_TYPE_TAG, .none)]
  | .boolean b => [(if b then TRUE_TYPE_TAG else FALSE_TYPE_TAG, .none)]
  | .number x => [(FLOAT_TYPE_TAG, .word32 (h.toFloat32 x))]
  | .string s => [(STRING_TYPE_TAG, .str (cstr s))]
  | .table t =>
    match t with
    | [] => [(HASH_BEGIN_TYPE_TAG, .none), (HASH_END_TYPE_TAG, .none)]
    | _ :: _ => (ARRAY_BEGIN_TYPE_TAG, .none) :: (wireEntries h t ++ [(ARRAY_END_TYPE_TAG, .none)])
  | _ => []

/-- The wire forms of the values of a table, in order. -/
def wireEntries (h : Host) : LuaTable → List (Char × ArgData)
  | [] => []
  | (_, v) :: rest => wireOf h v ++ wireEntries h rest

end

/-- The wire forms of a list of values, in order. -/
def wireList (h : Host) : List LuaValue → List (Char × ArgData)
  | [] => []
  | v :: vs => wireOf h v ++ wireList h vs

mutual

/-- A value that the codec carries unchanged: a boolean, a number that the cast to float keeps,
a string without a zero byte, or a regular array of such values. -/
def plain (h : Host) : LuaValue → Bool
  | .boolean _ => true
  | .number x => decide (h.ofFloat32 (h.toFloat32 x) = x)
  | .string s => decide (cstr s = s)
  | .table t => plainFrom h 1 t
  | _ => false

/-- The pairs of a regular array of plain values whose first index is `i`. -/
def plainFrom (h : Host) : Nat → LuaTable → Bool
  | _, [] => true
  | i, (k, v) :: rest => keyEq k (intKey i) && plain h v && plainFrom h (i + 1) rest

end

/-- The stream after the tags and argument slots of `w` are appended to it. -/
def OutboundPacketStream.extend (pk : OutboundPacketStream) (w : List (Char × ArgData)) :
    OutboundPacketStream :=
  { pk with typeTags := pk.typeTags ++ w.map Prod.fst, arguments := pk.arguments ++ w.map Prod.snd }

/-- A value the round trip is stated for: nil or a plain value. -/
def carried (h : Host) (v : LuaValue) : Bool := v.isNil || plain h v

/-- The round trip of one call: if `osc::pack` returns a packet for the address and the values,
then `osc::unpack` on the bytes of that packet, given enough steps and a Lua stack with room for
the values it pushes, returns the address followed by the values, whatever the element library
finds in bytes that it takes for a bundle. -/
def RoundTrips (h : Host) (address : String) (values : List LuaValue) : Prop :=
  ∀ p, pack h (stackOf (.string address :: values)) = .ok p →
    ∀ (asBundle : ReceivedMessage → Except Fault (List ReceivedPacket)) (L : LuaState),
      ∃ N, ∀ fuel, N ≤ fuel → ∃ n L',
        unpack h asBundle fuel L p = .ok (n, L') ∧ returned n L' = some (.string address :: values)

/-- The tags `tags` and the argument slots `args` hold the wire form `w` from position `pos`. -/
def Holds (tags : List Char) (args : List ArgData) : Nat → List (Char × ArgData) → Prop
  | _, [] => True
  | pos, (c, a) :: w => tags[pos]? = some c ∧ args[pos]? = some a ∧ Holds tags args (pos + 1) w

/-- The tags for which `parse_osc_value` pushes nothing and steps over the tag: every character
that is none of the tags the `switch` decodes or returns on. -/
def skippedTag (c : Char) : Bool :=
  c != TRUE_TYPE_TAG && c != FALSE_TYPE_TAG && c != NIL_TYPE_TAG && c != ARRAY_BEGIN_TYPE_TAG
    && c != ARRAY_END_TYPE_TAG && c != HASH_BEGIN_TYPE_TAG && c != HASH_END_TYPE_TAG
    && c != INT32_TYPE_TAG && c != FLOAT_TYPE_TAG && c != CHAR_TYPE_TAG && c != DOUBLE_TYPE_TAG
    && c != STRING_TYPE_TAG && c != MIDI_MESSAGE_TYPE_TAG

/-- With `fuel` steps `parse_osc_value` decodes the wire form of every plain value that `fuel`
covers: it pushes the value and moves both cursors behind the form. -/
def ValueSpec (h : Host) (fuel : Nat) : Prop :=
  ∀ v : LuaValue, (v = .nil ∨ plain h v = true) → 2 * (wireOf h v).length ≤ fuel →
    ∀ (tags : List Char) (args : List ArgData) (pos : Nat) (L : LuaState),
      Holds tags args pos (wireOf h v) →
        parse_osc_value h args fuel L (.ptr tags pos) pos
          = .ok ⟨.ptr tags (pos + (wireOf h v).length), v :: L, pos + (wireOf h v).length⟩

/-! ## Scalar arguments, as the specification words them -/

/-- An argument that is a number, a boolean, a string or nil. -/
def isScalar : LuaValue → Bool
  | .nil => true
  | .boolean _ => true
  | .number _ => true
  | .string _ => true
  | _ => false

/-- The tag the specification gives a scalar argument: `f` for every number, `T` for true, `F`
for false, `s` for a string, `N` for nil. -/
def scalarTag : LuaValue → Char
  | .number _ => 'f'
  | .boolean true => 'T'
  | .boolean false => 'F'
  | .string _ => 's'
  | _ => 'N'

/-- The payload of a scalar argument: the bits of the float for a number, the C string for a
string, nothing for booleans and nil. -/
def scalarArg (h : Host) : LuaValue → ArgData
  | .number x => .word32 (h.toFloat32 x)
  | .string s => .str (cstr s)
  | _ => .none

/-! ## The body of a hash -/

/-- The tags and argument slots of the pairs of a hash between its brackets: for every pair the
string tag with the key, then the wire form of the value. -/
def hashBody (h : Host) : List (String × LuaValue) → List (Char × ArgData)
  | [] => []
  | (k, v) :: rest => (STRING_TYPE_TAG, .str k) :: (wireOf h v ++ hashBody h rest)

/-- The table `t` after the pairs are stored into it one after the other, the keys as the
strings `lua_pushstring` makes of them. -/
def storePairs : List (String × LuaValue) → LuaTable → LuaTable
  | [], t => t
  | (k, v) :: rest, t => storePairs rest (tableSet t (.string (cstr k)) v)

/-! ## Unsupported values and deep nesting -/

/-- The walk of the encoder visits a value of a kind without wire form (function, userdata,
thread, light userdata) in `v`, at most `depth` tables down: `v` is of such a kind, or it is a
table of length `n > 0`, which `pack_array` walks at the indices 1 to `n`, and the walk visits
one in the element at one of these indices, or it is a table of length 0, of which `pack_hash`
walks every key and value, and the walk visits one in a key or a value. What a table of
positive length holds at other keys is not visited. -/
def reachesUnsupported (h : Host) : Nat → LuaValue → Bool
  | _, .function _ => true
  | _, .userdata _ => true
  | _, .thread _ => true
  | _, .lightuserdata _ => true
  | depth + 1, .table t =>
    if h.getn t > 0 then
      (List.range' 1 (h.getn t)).any (fun i => reachesUnsupported h depth (rawget t (intKey i)))
    else t.any (fun kv => reachesUnsupported h depth kv.1 || reachesUnsupported h depth kv.2)
  | _, _ => false

/-- The chain of `n + 1` arrays nested in each other around the value true. -/
def nestedSeq : Nat → LuaValue
  | 0 => seqTable [.boolean true]
  | n + 1 => seqTable [nestedSeq n]

/-- The stream of a message to `/a` after `t` begin-array brackets and nothing else. -/
def chainStream (t : Nat) : OutboundPacketStream :=
  ⟨MAX_BUFF_SIZE, "/a", List.replicate t ARRAY_BEGIN_TYPE_TAG, List.replicate t .none⟩

/-! ## Non-structural tags -/

/-- The tags that stand for one argument and open or close nothing: the value tags `T`, `F`,
`N`, `i`, `f`, `c`, `d`, `s` and the tags `r`, `h`, `t`, `S`, `b` that are recognised but not
decoded. -/
def nonStructuralTags : List Char :=
  [TRUE_TYPE_TAG, FALSE_TYPE_TAG, NIL_TYPE_TAG, INT32_TYPE_TAG, FLOAT_TYPE_TAG, CHAR_TYPE_TAG,
   DOUBLE_TYPE_TAG, STRING_TYPE_TAG, RGBA_COLOR_TYPE_TAG, INT64_TYPE_TAG, TIME_TAG_TYPE_TAG,
   SYMBOL_TYPE_TAG, BLOB_TYPE_TAG]

/-- The argument slot holds what the accessor of the tag reads: four bytes for `i`, `f` and `c`,
eight bytes for `d`, a string for `s`; the other tags read nothing. -/
def slotFits (c : Char) (a : Option ArgData) : Bool :=
  if c = INT32_TYPE_TAG ∨ c = FLOAT_TYPE_TAG ∨ c = CHAR_TYPE_TAG then
    match a with
    | some (.word32 _) => true
    | _ => false
  else if c = DOUBLE_TYPE_TAG then
    match a with
    | some (.word64 _) => true
    | _ => false
  else if c = STRING_TYPE_TAG then
    match a with
    | some (.str _) => true
    | _ => false
  else true

/-! ## MIDI messages -/

/-- The 32-bit word of the four wire bytes `b1 b2 b3 b4` read big-endian, first byte highest. -/
def midiWord (b1 b2 b3 b4 : Nat) : Nat := b1 * 2 ^ 24 + b2 * 2 ^ 16 + b3 * 2 ^ 8 + b4

/-! ## Nested arrays on the wire -/

/-- The balanced tag string of `n + 1` arrays nested in each other with nothing inside the
innermost: `n + 1` begin-array tags, then `n + 1` end-array tags. -/
def emptyNest (n : Nat) : List Char :=
  List.replicate (n + 1) ARRAY_BEGIN_TYPE_TAG ++ List.replicate (n + 1) ARRAY_END_TYPE_TAG

/-! ## Lock-step of the two cursors -/

/-- The cursor `k` characters after `p` in the same string. -/
def TagPtr.advance : TagPtr → Nat → TagPtr
  | .null, _ => .null
  | .ptr buf pos, k => .ptr buf (pos + k)

/-- The call that started at the tag cursor `start` with the iterator at `arg` and left `r`
moved both in lock-step: for some `k` the cursor it returns is `start` advanced by `k` characters
and the iterator is advanced by `k` arguments. -/
def LockStep (start : TagPtr) (arg : Nat) (r : Parsed) : Prop :=
  ∃ k, r.type_tags = start.advance k ∧ r.arg = arg + k

/-- The same stream over a buffer of `c` bytes. -/
def OutboundPacketStream.withCapacity (pk : OutboundPacketStream) (c : Nat) :
    OutboundPacketStream :=
  { pk with capacity := c }

/-- Modelled from the spec: the number of bytes of a message on the wire, which is `pk.Size()`
of the stream it was written with: the padded address pattern, the padded tag string with its
comma and terminator, and the argument payloads. -/
def ReceivedMessage.Size (m : ReceivedMessage) : Nat :=
  roundUp4 (m.addressPattern.length + 1)
    + (match m.typeTags with
      | some tags => roundUp4 (tags.length + 2)
      | Option.none => 0)
    + (m.arguments.map ArgData.size).sum

/-- The body of `osc::pack` with the size of the buffer as a parameter; `osc::pack` itself is
`packInto` with `MAX_BUFF_SIZE`. -/
def packInto (h : Host) (capacity : Nat) (L : LuaState) : Except PackError ReceivedPacket := do
  let url ← luaL_checkstring h L 1
  let pk ← OutboundPacketStream.BeginMessage capacity url
  let top := lua_gettop L
  let pk ← (List.range' 2 (top - 1)).foldlM
    (fun pk i => pack_lua h (MAX_DEPTH + 1) L pk (i : Nat)) pk
  pure pk.EndMessage

/-- A step of the encoder that treats the buffer faithfully: when it returns a stream, that
stream is the one it was given with tags and payloads appended, it fits its buffer if the given
one did, and over a buffer of any other size `c` that the given stream fits the same step
returns the same stream if that fits `c` and raises the buffer error if it does not. -/
def Faithful (run : OutboundPacketStream → Except PackError OutboundPacketStream) : Prop :=
  ∀ pk pk', run pk = .ok pk' →
    (∃ w, pk' = pk.extend w)
      ∧ (pk.Size ≤ pk.capacity → pk'.Size ≤ pk'.capacity)
      ∧ ∀ c, pk.Size ≤ c →
          run (pk.withCapacity c)
            = if pk'.Size ≤ c then .ok (pk'.withCapacity c) else .error .outOfBuffer

/-- The strings among the payloads of a message, in order. -/
def strArgs (payloads : List ArgData) : List String :=
  payloads.filterMap (fun a => match a with
    | .str s => some s
    | _ => Option.none)

/-- The C strings of the string values among `vs`, in order. -/
def stringsOf (vs : List LuaValue) : List String :=
  vs.filterMap (fun v => match v with
    | .string s => some (cstr s)
    | _ => Option.none)

/-! ## Maps -/

/-- A key that is a string without a zero byte. -/
def isStringKey : LuaValue → Bool
  | .string s => decide (cstr s = s)
  | _ => false

mutual

/-- A value of a map that the codec carries unchanged: a boolean, a number that the cast to
float keeps, a string without a zero byte, a map of such values, or a regular array of such
values that is not empty. -/
def mapValue (h : Host) : LuaValue → Bool
  | .boolean _ => true
  | .number x => decide (h.ofFloat32 (h.toFloat32 x) = x)
  | .string s => decide (cstr s = s)
  | .table t => mapEntries h t || (!t.isEmpty && mapSeqFrom h 1 t)
  | _ => false

/-- The pairs of a regular array of map values whose first index is `i`. -/
def mapSeqFrom (h : Host) : Nat → LuaTable → Bool
  | _, [] => true
  | i, (k, v) :: rest => keyEq k (intKey i) && mapValue h v && mapSeqFrom h (i + 1) rest

/-- The pairs of a map: every key is a string without a zero byte and differs from the keys
that follow it, every value is a map value. -/
def mapEntries (h : Host) : LuaTable → Bool
  | [] => true
  | (k, v) :: rest =>
    isStringKey k && rest.all (fun kv => !keyEq k kv.1) && mapValue h v && mapEntries h rest

end

/-- Whether the first key of the pairs is a number, as in a regular array. -/
def startsWithNumber : LuaTable → Bool
  | (.number _, _) :: _ => true
  | _ => false

mutual

/-- The tags and argument slots that the encoder writes for a map value: one tag for a scalar,
the brackets of a hash around the keys and values of a map, in the order of its pairs, and the
brackets of an array around the elements of a regular array. -/
def mapWire (h : Host) : LuaValue → List (Char × ArgData)
  | .boolean b => [(if b then TRUE_TYPE_TAG else FALSE_TYPE_TAG, .none)]
  | .number x => [(FLOAT_TYPE_TAG, .word32 (h.toFloat32 x))]
  | .string s => [(STRING_TYPE_TAG, .str (cstr s))]
  | .table t =>
    if startsWithNumber t then
      (ARRAY_BEGIN_TYPE_TAG, .none) :: (seqWire h t ++ [(ARRAY_END_TYPE_TAG, .none)])
    else (HASH_BEGIN_TYPE_TAG, .none) :: (pairsWire h t ++ [(HASH_END_TYPE_TAG, .none)])
  | _ => []

/-- The wire forms of the values of the pairs, in order. -/
def seqWire (h : Host) : LuaTable → List (Char × ArgData)
  | [] => []
  | (_, v) :: rest => mapWire h v ++ seqWire h rest

/-- The wire forms of the keys and values of the pairs, in order. -/
def pairsWire (h : Host) : LuaTable → List (Char × ArgData)
  | [] => []
  | (k, v) :: rest => mapWire h k ++ (mapWire h v ++ pairsWire h rest)

end

/-- The wire forms of a list of map values, in order. -/
def mapWireList (h : Host) : List LuaValue → List (Char × ArgData)
  | [] => []
  | v :: vs => mapWire h v ++ mapWireList h vs

/-- The guarantee of the Lua manual for the length operator on a table without a value at the
index 1: its only border is 0. Here: the length of a table whose keys are all strings is 0. -/
def Host.MapLength (h : Host) : Prop :=
  ∀ t : LuaTable, (∀ kv ∈ t, isStringKey kv.1 = true) → h.getn t = 0

/-- With `fuel` steps `parse_osc_value` decodes the wire form of every map value that `fuel`
covers: it pushes the value and moves both cursors behind the form. -/
def MapValueSpec (h : Host) (fuel : Nat) : Prop :=
  ∀ v : LuaValue, mapValue h v = true → 2 * (mapWire h v).length ≤ fuel →
    ∀ (tags : List Char) (args : List ArgData) (pos : Nat) (L : LuaState),
      Holds tags args pos (mapWire h v) →
        parse_osc_value h args fuel L (.ptr tags pos) pos
          = .ok ⟨.ptr tags (pos + (mapWire h v).length), v :: L, pos + (mapWire h v).length⟩

/-! ## What stops the walk of the encoder -/

/-- The errors that end the walk of `pack_lua` by themselves: the two exceptions that `osc.cpp`
raises, with the type names `lua_typename` gives the kinds without wire form (light userdata is
named `userdata`), and the step budget of the model. The buffer error of the stream is not among
them: it depends on the room that is left. -/
def stopErrors : List PackError :=
  [.outOfFuel, .tooLarge, .cannotPack "function", .cannotPack "userdata", .cannotPack "thread"]

/-- A step of the encoder writes the tags and payloads `w` and then, for `stop = some e`, raises
`e`: run on a stream that fits its buffer, it raises the buffer error when the stream with `w`
appended does not fit, and otherwise returns that stream or raises `e`. -/
def Outcome (run : OutboundPacketStream → Except PackError OutboundPacketStream)
    (w : List (Char × ArgData)) (stop : Option PackError) : Prop :=
  (∀ e, stop = some e → e ∈ stopErrors)
    ∧ ∀ pk : OutboundPacketStream, pk.Size ≤ pk.capacity →
      run pk = if (pk.extend w).Size ≤ pk.capacity then
          (match stop with
            | Option.none => .ok (pk.extend w)
            | some e => .error e)
        else .error .outOfBuffer

mutual

/-- A bound on the stack slots the walk of the encoder takes above the value: a table takes
two for each level of tables in it (`pack_hash` has key and value on the stack, `pack_array`
one element). -/
def stackNeed : LuaValue → Nat
  | .table t => 2 + stackNeedPairs t
  | _ => 0

/-- The largest `stackNeed` among the keys and values of the pairs. -/
def stackNeedPairs : LuaTable → Nat
  | [] => 0
  | (k, v) :: rest => max (max (stackNeed k) (stackNeed v)) (stackNeedPairs rest)

end

/-! # Theorems -/

/-! ## Facts about the error monad -/

@[simp] theorem ok_bind {ε α β : Type} (a : α) (f : α → Except ε β) :
    (Except.ok a >>= f) = f a := rfl

@[simp] theorem error_bind {ε α β : Type} (e : ε) (f : α → Except ε β) :
    (Except.error e >>= f) = Except.error e := rfl

@[simp] theorem pure_eq_ok {ε α : Type} (a : α) : (pure a : Except ε α) = Except.ok a := rfl

@[simp] theorem map_ok {ε α β : Type} (a : α) (f : α → β) :
    (f <$> (Except.ok a : Except ε α)) = Except.ok (f a) := rfl

@[simp] theorem map_error {ε α β : Type} (e : ε) (f : α → β) :
    (f <$> (Except.error e : Except ε α)) = Except.error e := rfl

theorem bind_eq_ok {ε α β : Type} (a : Except ε α) (f : α → Except ε β) (r : β)
    (hb : (a >>= f) = .ok r) : ∃ x, a = .ok x ∧ f x = .ok r := by
  cases a with
  | error e => cases hb
  | ok x => exact ⟨x, rfl, hb⟩

/-! ## Facts about the stack operations -/

theorem index2adr_top (v : LuaValue) (S : LuaState) : index2adr (v :: S) (S.length + 1) = some v := by
  simp [index2adr]

theorem updateTable_top (t : LuaTable) (S : LuaState) (f : LuaTable → LuaTable) :
    updateTable (.table t :: S) (S.length + 1) f = .ok (.table (f t) :: S) := by
  simp [updateTable, index2adr]

theorem lua_rawseti_top (v : LuaValue) (t : LuaTable) (S : LuaState) (n : Nat) :
    lua_rawseti (v :: .table t :: S) (S.length + 1) n
      = .ok (.table (tableSet t (intKey n) v) :: S) := by
  simp [lua_rawseti, updateTable_top]

theorem lua_rawseti_self (t : LuaTable) (S : LuaState) (n : Nat) :
    lua_rawseti (.table t :: S) (S.length + 1) n = .ok S := by
  simp [lua_rawseti]

theorem lua_rawset_top (v k : LuaValue) (t : LuaTable) (S : LuaState) (hk : k.isNil = false) :
    lua_rawset (v :: k :: .table t :: S) (S.length + 1)
      = .ok (.table (tableSet t k v) :: S) := by
  simp [lua_rawset, updateTable_top, hk]

theorem lua_rawset_self (v : LuaValue) (t : LuaTable) (S : LuaState) :
    lua_rawset (v :: .table t :: S) (S.length + 1) = .ok S := by
  simp [lua_rawset]

/-! ## One step of `parse_osc_value`, tag by tag -/

section steps
variable (h : Host) (args : List ArgData) (fuel : Nat) (L : LuaState) (p : TagPtr) (arg : Nat)

theorem pv_true (hd : p.deref = .ok TRUE_TYPE_TAG) :
    parse_osc_value h args (fuel + 1) L p arg = .ok ⟨p.next, .boolean true :: L, arg + 1⟩ := by
  simp [parse_osc_value, hd, lua_pushboolean]

theorem pv_false (hd : p.deref = .ok FALSE_TYPE_TAG) :
    parse_osc_value h args (fuel + 1) L p arg = .ok ⟨p.next, .boolean false :: L, arg + 1⟩ := by
  simp [parse_osc_value, hd, lua_pushboolean, FALSE_TYPE_TAG, TRUE_TYPE_TAG]

theorem pv_nil (hd : p.deref = .ok NIL_TYPE_TAG) :
    parse_osc_value h args (fuel + 1) L p arg = .ok ⟨p.next, .nil :: L, arg + 1⟩ := by
  simp [parse_osc_value, hd, lua_pushnil, FALSE_TYPE_TAG, TRUE_TYPE_TAG, NIL_TYPE_TAG]

theorem pv_array (hd : p.deref = .ok ARRAY_BEGIN_TYPE_TAG) :
    parse_osc_value h args (fuel + 1) L p arg
      = (parse_osc_array_table h args fuel L p.next (arg + 1)).map
          (fun r => ⟨r.type_tags.next, r.L, r.arg + 1⟩) := by
  simp [parse_osc_value, hd, FALSE_TYPE_TAG, TRUE_TYPE_TAG, NIL_TYPE_TAG, ARRAY_BEGIN_TYPE_TAG]
  rfl

theorem pv_array_end (hd : p.deref = .ok ARRAY_END_TYPE_TAG) :
    parse_osc_value h args (fuel + 1) L p arg = .ok ⟨p, L, arg⟩ := by
  simp [parse_osc_value, hd, FALSE_TYPE_TAG, TRUE_TYPE_TAG, NIL_TYPE_TAG, ARRAY_BEGIN_TYPE_TAG,
    ARRAY_END_TYPE_TAG]

theorem pv_hash (hd : p.deref = .ok HASH_BEGIN_TYPE_TAG) :
    parse_osc_value h args (fuel + 1) L p arg
      = (parse_osc_hash h args fuel L p.next (arg + 1)).map
          (fun r => ⟨r.type_tags.next, r.L, r.arg + 1⟩) := by
  simp [parse_osc_value, hd, FALSE_TYPE_TAG, TRUE_TYPE_TAG, NIL_TYPE_TAG, ARRAY_BEGIN_TYPE_TAG,
    ARRAY_END_TYPE_TAG, HASH_BEGIN_TYPE_TAG]
  rfl

theorem pv_hash_end (hd : p.deref = .ok HASH_END_TYPE_TAG) :
    parse_osc_value h args (fuel + 1) L p arg = .ok ⟨p, L, arg⟩ := by
  simp [parse_osc_value, hd, FALSE_TYPE_TAG, TRUE_TYPE_TAG, NIL_TYPE_TAG, ARRAY_BEGIN_TYPE_TAG,
    ARRAY_END_TYPE_TAG, HASH_BEGIN_TYPE_TAG, HASH_END_TYPE_TAG]

theorem pv_float (w : Nat) (hd : p.deref = .ok FLOAT_TYPE_TAG) (ha : args[arg]? = some (.word32 w)) :
    parse_osc_value h args (fuel + 1) L p arg
      = .ok ⟨p.next, .number (h.ofFloat32 w) :: L, arg + 1⟩ := by
  simp [parse_osc_value, hd, FALSE_TYPE_TAG, TRUE_TYPE_TAG, NIL_TYPE_TAG, ARRAY_BEGIN_TYPE_TAG,
    ARRAY_END_TYPE_TAG, HASH_BEGIN_TYPE_TAG, HASH_END_TYPE_TAG, INT32_TYPE_TAG, FLOAT_TYPE_TAG,
    AsFloatUnchecked, argAt, ha, lua_pushnumber]

theorem pv_string (s : String) (hd : p.deref = .ok STRING_TYPE_TAG) (ha : args[arg]? = some (.str s)) :
    parse_osc_value h args (fuel + 1) L p arg
      = .ok ⟨p.next, .string (cstr s) :: L, arg + 1⟩ := by
  simp [parse_osc_value, hd, FALSE_TYPE_TAG, TRUE_TYPE_TAG, NIL_TYPE_TAG, ARRAY_BEGIN_TYPE_TAG,
    ARRAY_END_TYPE_TAG, HASH_BEGIN_TYPE_TAG, HASH_END_TYPE_TAG, INT32_TYPE_TAG, FLOAT_TYPE_TAG,
    CHAR_TYPE_TAG, DOUBLE_TYPE_TAG, STRING_TYPE_TAG,
    AsStringUnchecked, argAt, ha, lua_pushstring]

theorem pv_skip (c : Char) (hd : p.deref = .ok c) (hc : skippedTag c = true) :
    parse_osc_value h args (fuel + 1) L p arg = .ok ⟨p.next, L, arg + 1⟩ := by
  simp [skippedTag] at hc
  simp [parse_osc_value, hd, hc]

theorem args_loop_end (i : Nat) (hd : p.deref = .ok NUL) :
    parse_osc_array_args h args (fuel + 1) L p arg i = .ok (⟨p, L, arg⟩, i) := by
  simp [parse_osc_array_args, hd]

theorem args_loop_step (i : Nat) (c : Char) (hd : p.deref = .ok c) (hc : c ≠ NUL) :
    parse_osc_array_args h args (fuel + 1) L p arg i
      = (parse_osc_value h args fuel L p arg >>= fun r =>
          r.type_tags.deref >>= fun c =>
            if c = ARRAY_END_TYPE_TAG then .ok (r, i + 1)
            else parse_osc_array_args h args fuel r.L r.type_tags r.arg (i + 1)) := by
  simp [parse_osc_array_args, hd, hc]

theorem array_loop_end (tbl_pos i : Nat) (hd : p.deref = .ok NUL) :
    parse_osc_array_loop h args tbl_pos (fuel + 1) L p arg i = .ok ⟨p, L, arg⟩ := by
  simp [parse_osc_array_loop, hd]

theorem array_loop_step (tbl_pos i : Nat) (c : Char) (hd : p.deref = .ok c) (hc : c ≠ NUL) :
    parse_osc_array_loop h args tbl_pos (fuel + 1) L p arg i
      = (parse_osc_value h args fuel L p arg >>= fun r =>
          lua_rawseti r.L tbl_pos (i + 1) >>= fun L1 =>
            r.type_tags.deref >>= fun c =>
              if c = ARRAY_END_TYPE_TAG then .ok ⟨r.type_tags, L1, r.arg⟩
              else parse_osc_array_loop h args tbl_pos fuel L1 r.type_tags r.arg (i + 1)) := by
  simp [parse_osc_array_loop, hd, hc]

theorem array_table_ptr (buf : List Char) (pos : Nat) :
    parse_osc_array_table h args (fuel + 1) L (.ptr buf pos) arg
      = parse_osc_array_loop h args (L.length + 1) fuel (.table [] :: L) (.ptr buf pos) arg 0 := by
  simp [parse_osc_array_table, lua_newtable, lua_gettop]

theorem hash_unfold :
    parse_osc_hash h args (fuel + 1) L p arg
      = parse_osc_hash_loop h args (L.length + 1) fuel (.table [] :: L) p arg := by
  simp [parse_osc_hash, lua_newtable, lua_gettop]

theorem hash_loop_end (tablepos : Nat) (hd : p.deref = .ok NUL) :
    parse_osc_hash_loop h args tablepos (fuel + 1) L p arg = .ok ⟨p, L, arg⟩ := by
  simp [parse_osc_hash_loop, hd]

theorem hash_loop_close (tablepos : Nat) (hd : p.deref = .ok HASH_END_TYPE_TAG) :
    parse_osc_hash_loop h args tablepos (fuel + 1) L p arg = .ok ⟨p, L, arg⟩ := by
  simp [parse_osc_hash_loop, hd, HASH_END_TYPE_TAG, NUL, STRING_TYPE_TAG]

theorem hash_loop_key (tablepos : Nat) (key : String) (hd : p.deref = .ok STRING_TYPE_TAG)
    (ha : args[arg]? = some (.str key)) :
    parse_osc_hash_loop h args tablepos (fuel + 1) L p arg
      = (parse_osc_value h args fuel (.string (cstr key) :: L) p.next (arg + 1) >>= fun r =>
          lua_rawset r.L tablepos >>= fun L1 =>
            parse_osc_hash_loop h args tablepos fuel L1 r.type_tags r.arg) := by
  simp [parse_osc_hash_loop, hd, NUL, STRING_TYPE_TAG, AsStringUnchecked, argAt, ha, lua_pushstring]

theorem hash_loop_malformed (tablepos : Nat) (c : Char) (hd : p.deref = .ok c) (h0 : c ≠ NUL)
    (h1 : c ≠ STRING_TYPE_TAG) (h2 : c ≠ HASH_END_TYPE_TAG) :
    parse_osc_hash_loop h args tablepos (fuel + 1) L p arg = .ok ⟨emptyLiteral, L, arg⟩ := by
  simp [parse_osc_hash_loop, hd, h0, h1, h2]

end steps

/-! ## Reading a buffer at a position -/

theorem deref_at (pre : List Char) (c : Char) (post : List Char) :
    (TagPtr.ptr (pre ++ c :: post) pre.length).deref = .ok c := by
  simp [TagPtr.deref, List.getElem_append_right]

theorem deref_end (buf : List Char) : (TagPtr.ptr buf buf.length).deref = .ok NUL := by
  simp [TagPtr.deref]

theorem deref_past (buf : List Char) (k : Nat) :
    (TagPtr.ptr buf (buf.length + k + 1)).deref = .error .tagOutOfBounds := by
  simp only [TagPtr.deref]
  rw [if_neg (by omega), if_neg (by omega)]

/-! ## Windows of a buffer -/

theorem Holds_append (tags : List Char) (args : List ArgData) (w1 w2 : List (Char × ArgData)) :
    ∀ pos : Nat,
      Holds tags args pos (w1 ++ w2) ↔ Holds tags args pos w1 ∧ Holds tags args (pos + w1.length) w2 := by
  induction w1 with
  | nil => intro pos; simp [Holds]
  | cons x w1 ih =>
    intro pos
    obtain ⟨c, a⟩ := x
    have e : pos + (w1.length + 1) = pos + 1 + w1.length := by omega
    show (tags[pos]? = some c ∧ args[pos]? = some a ∧ Holds tags args (pos + 1) (w1 ++ w2))
      ↔ (tags[pos]? = some c ∧ args[pos]? = some a ∧ Holds tags args (pos + 1) w1)
        ∧ Holds tags args (pos + (w1.length + 1)) w2
    rw [ih (pos + 1), e]
    tauto

theorem Holds_self (w : List (Char × ArgData)) : ∀ pre : List (Char × ArgData),
    Holds ((pre ++ w).map Prod.fst) ((pre ++ w).map Prod.snd) pre.length w := by
  induction w with
  | nil => intro pre; simp [Holds]
  | cons x w ih =>
    intro pre
    obtain ⟨c, a⟩ := x
    refine ⟨by simp [List.getElem_append_right], by simp [List.getElem_append_right], ?_⟩
    have := ih (pre ++ [(c, a)])
    simpa using this

theorem deref_of_get (tags : List Char) (pos : Nat) (c : Char) (hc : tags[pos]? = some c) :
    (TagPtr.ptr tags pos).deref = .ok c := by
  have hlt : pos < tags.length := by
    rcases Nat.lt_or_ge pos tags.length with hlt | hge
    · exact hlt
    · rw [List.getElem?_eq_none hge] at hc; cases hc
  simp [TagPtr.deref, hlt, hc]

/-! ## Regular arrays -/

theorem keyEq_intKey (a b : Nat) : keyEq (intKey a) (intKey b) = decide (a = b) := by
  by_cases hab : a = b <;> simp [keyEq, intKey, hab]

theorem keyEq_eq (k : LuaValue) (i : Nat) (hk : keyEq k (intKey i) = true) : k = intKey i := by
  cases k <;> simp_all [keyEq, intKey]

theorem rawput_seq (v : LuaValue) : ∀ (done : List LuaValue) (s : Nat),
    rawput (seqEntriesFrom s done) (intKey (s + done.length)) v = seqEntriesFrom s (done ++ [v]) := by
  intro done
  induction done with
  | nil => intro s; simp [seqEntriesFrom, rawput]
  | cons d ds ih =>
    intro s
    have e : s + (ds.length + 1) = s + 1 + ds.length := by omega
    have ne : ¬ s = s + 1 + ds.length := by omega
    simp [seqEntriesFrom, rawput, keyEq_intKey, e, ne, ih (s + 1)]

theorem tableSet_seq (v : LuaValue) (hv : v.isNil = false) (done : List LuaValue) :
    tableSet (seqEntriesFrom 1 done) (intKey (done.length + 1)) v
      = seqEntriesFrom 1 (done ++ [v]) := by
  have := rawput_seq v done 1
  rw [Nat.add_comm 1 done.length] at this
  simp [tableSet, hv, this]

theorem plain_not_nil (h : Host) (v : LuaValue) (hv : plain h v = true) : v.isNil = false := by
  cases v <;> simp_all [plain, LuaValue.isNil]

theorem plainFrom_cons (h : Host) (i : Nat) (k v : LuaValue) (rest : LuaTable)
    (hp : plainFrom h i ((k, v) :: rest) = true) :
    k = intKey i ∧ plain h v = true ∧ plainFrom h (i + 1) rest = true := by
  simp only [plainFrom, Bool.and_eq_true] at hp
  exact ⟨keyEq_eq k i hp.1.1, hp.1.2, hp.2⟩

theorem plainFrom_eq (h : Host) : ∀ (t : LuaTable) (i : Nat), plainFrom h i t = true →
    t = seqEntriesFrom i (t.map Prod.snd) := by
  intro t
  induction t with
  | nil => intro i _; rfl
  | cons x rest ih =>
    intro i hp
    obtain ⟨k, v⟩ := x
    obtain ⟨hk, _, hr⟩ := plainFrom_cons h i k v rest hp
    simp only [List.map_cons, seqEntriesFrom, hk]
    rw [← ih (i + 1) hr]

theorem plainFrom_values (h : Host) : ∀ (t : LuaTable) (i : Nat), plainFrom h i t = true →
    ∀ v ∈ t.map Prod.snd, plain h v = true := by
  intro t
  induction t with
  | nil => intro i _ v hv; simp at hv
  | cons x rest ih =>
    intro i hp v hv
    obtain ⟨k, v0⟩ := x
    obtain ⟨_, hv0, hr⟩ := plainFrom_cons h i k v0 rest hp
    simp only [List.map_cons, List.mem_cons] at hv
    rcases hv with rfl | hv
    · exact hv0
    · exact ih (i + 1) hr v hv

theorem wire_head (h : Host) (v : LuaValue) (hv : v = .nil ∨ plain h v = true) :
    ∃ c a tail, wireOf h v = (c, a) :: tail ∧ c ≠ NUL ∧ c ≠ ARRAY_END_TYPE_TAG := by
  rcases hv with rfl | hv
  · exact ⟨NIL_TYPE_TAG, .none, [], by simp [wireOf], by decide, by decide⟩
  · cases v with
    | nil => simp [plain] at hv
    | boolean b =>
      cases b
      · exact ⟨FALSE_TYPE_TAG, .none, [], by simp [wireOf], by decide, by decide⟩
      · exact ⟨TRUE_TYPE_TAG, .none, [], by simp [wireOf], by decide, by decide⟩
    | number x => exact ⟨FLOAT_TYPE_TAG, _, [], by rw [wireOf], by decide, by decide⟩
    | string s => exact ⟨STRING_TYPE_TAG, _, [], by rw [wireOf], by decide, by decide⟩
    | table t =>
      cases t with
      | nil => exact ⟨HASH_BEGIN_TYPE_TAG, .none, _, by rw [wireOf], by decide, by decide⟩
      | cons x rest =>
        exact ⟨ARRAY_BEGIN_TYPE_TAG, .none, _, by rw [wireOf], by decide, by decide⟩
    | function id => simp [plain] at hv
    | userdata id => simp [plain] at hv
    | thread id => simp [plain] at hv
    | lightuserdata id => simp [plain] at hv

/-! ## Decoding the wire form of a plain value -/

theorem array_loop_plain (h : Host) (F : Nat) (IH : ∀ m, m < F → ValueSpec h m) :
    ∀ (t : LuaTable) (done : List LuaValue) (fuel : Nat), fuel < F → t ≠ [] →
      plainFrom h (done.length + 1) t = true → 2 * (wireEntries h t).length + 1 ≤ fuel →
      ∀ (tags : List Char) (args : List ArgData) (pos : Nat) (S : LuaState),
        Holds tags args pos (wireEntries h t) →
        tags[pos + (wireEntries h t).length]? = some ARRAY_END_TYPE_TAG →
        parse_osc_array_loop h args (S.length + 1) fuel (.table (seqEntriesFrom 1 done) :: S)
            (.ptr tags pos) pos done.length
          = .ok ⟨.ptr tags (pos + (wireEntries h t).length),
              .table (seqEntriesFrom 1 (done ++ t.map Prod.snd)) :: S,
              pos + (wireEntries h t).length⟩ := by
  intro t
  induction t with
  | nil => intro done fuel _ hne; exact absurd rfl hne
  | cons x rest ih =>
    intro done fuel hF _ hp hfuel tags args pos S hw hend
    obtain ⟨k, v⟩ := x
    obtain ⟨_, hv, hr⟩ := plainFrom_cons h _ k v rest hp
    simp only [wireEntries, List.length_append] at hfuel hend hw ⊢
    obtain ⟨hwv, hwr⟩ := (Holds_append tags args _ _ pos).1 hw
    obtain ⟨c, a, tail, hc, hc0, hc1⟩ := wire_head h v (Or.inr hv)
    have hlen : 1 ≤ (wireOf h v).length := by rw [hc]; simp
    obtain ⟨f1, rfl⟩ : ∃ f1, fuel = f1 + 1 := ⟨fuel - 1, by omega⟩
    have hd : (TagPtr.ptr tags pos).deref = .ok c := by
      apply deref_of_get
      rw [hc] at hwv
      exact hwv.1
    rw [array_loop_step h args f1 _ _ pos (S.length + 1) done.length c hd hc0]
    rw [IH f1 (by omega) v (Or.inr hv) (by omega) tags args pos _ hwv]
    simp only [ok_bind]
    rw [lua_rawseti_top, tableSet_seq v (plain_not_nil h v hv) done]
    simp only [ok_bind]
    cases rest with
    | nil =>
      simp only [wireEntries, List.length_nil, Nat.add_zero] at hend ⊢
      rw [deref_of_get tags _ _ hend]
      simp
    | cons y rest2 =>
      obtain ⟨k2, v2⟩ := y
      obtain ⟨_, hv2, _⟩ := plainFrom_cons h _ k2 v2 rest2 hr
      obtain ⟨c2, a2, tail2, hc2, hc20, hc21⟩ := wire_head h v2 (Or.inr hv2)
      have hwr2 := hwr
      simp only [wireEntries, hc2, List.cons_append, Holds] at hwr2
      rw [deref_of_get tags _ c2 hwr2.1]
      simp only [ok_bind, hc21, if_false]
      have := ih (done ++ [v]) f1 (by omega) (by simp)
        (by simpa using hr) (by omega) tags args (pos + (wireOf h v).length) S hwr
        (by rw [← hend]; congr 1; omega)
      simp only [List.length_append, List.length_singleton] at this
      rw [this]
      simp [Nat.add_assoc]

theorem wireOf_cons (h : Host) (x : LuaValue × LuaValue) (rest : LuaTable) :
    wireOf h (.table (x :: rest))
      = (ARRAY_BEGIN_TYPE_TAG, .none) :: (wireEntries h (x :: rest) ++ [(ARRAY_END_TYPE_TAG, .none)]) := by
  rw [wireOf]

theorem wireOf_empty (h : Host) :
    wireOf h (.table []) = [(HASH_BEGIN_TYPE_TAG, .none), (HASH_END_TYPE_TAG, .none)] := by
  rw [wireOf]

theorem value_spec (h : Host) : ∀ fuel : Nat, ValueSpec h fuel := by
  intro fuel
  induction fuel using Nat.strong_induction_on with
  | _ fuel IH =>
    intro v hv hfuel tags args pos L hw
    obtain ⟨c, a, tail, hc, _, _⟩ := wire_head h v hv
    have hlen : 1 ≤ (wireOf h v).length := by rw [hc]; simp
    obtain ⟨f1, rfl⟩ : ∃ f1, fuel = f1 + 1 := ⟨fuel - 1, by omega⟩
    rcases hv with rfl | hv
    · simp only [wireOf, Holds] at hw
      rw [pv_nil h args f1 L _ pos (deref_of_get tags pos _ hw.1)]
      simp [wireOf, TagPtr.next]
    · cases v with
      | nil => simp [plain] at hv
      | boolean b =>
        cases b
        · simp only [wireOf, Holds] at hw
          rw [pv_false h args f1 L _ pos (deref_of_get tags pos _ hw.1)]
          simp [wireOf, TagPtr.next]
        · simp only [wireOf, Holds] at hw
          rw [pv_true h args f1 L _ pos (deref_of_get tags pos _ hw.1)]
          simp [wireOf, TagPtr.next]
      | number x =>
        simp only [wireOf, Holds] at hw
        simp only [plain, decide_eq_true_eq] at hv
        rw [pv_float h args f1 L _ pos _ (deref_of_get tags pos _ hw.1) hw.2.1]
        simp [wireOf, TagPtr.next, hv]
      | string s =>
        simp only [wireOf, Holds] at hw
        simp only [plain, decide_eq_true_eq] at hv
        rw [pv_string h args f1 L _ pos _ (deref_of_get tags pos _ hw.1) hw.2.1]
        simp [wireOf, TagPtr.next, hv]
      | table t =>
        cases t with
        | nil =>
          simp only [wireOf, Holds] at hw
          simp only [wireOf, List.length_cons, List.length_nil] at hfuel
          obtain ⟨f2, rfl⟩ : ∃ f2, f1 = f2 + 1 := ⟨f1 - 1, by omega⟩
          obtain ⟨f3, rfl⟩ : ∃ f3, f2 = f3 + 1 := ⟨f2 - 1, by omega⟩
          rw [pv_hash h args _ L _ pos (deref_of_get tags pos _ hw.1), hash_unfold]
          simp only [TagPtr.next]
          rw [hash_loop_close h args f3 _ _ _ _ (deref_of_get tags _ _ hw.2.2.1)]
          simp [wireOf, TagPtr.next, Except.map]
        | cons x rest =>
          simp only [plain] at hv
          simp only [wireOf, Holds] at hw
          simp only [wireOf, List.length_cons, List.length_append, List.length_nil] at hfuel
          obtain ⟨f2, rfl⟩ : ∃ f2, f1 = f2 + 1 := ⟨f1 - 1, by omega⟩
          obtain ⟨f3, rfl⟩ : ∃ f3, f2 = f3 + 1 := ⟨f2 - 1, by omega⟩
          obtain ⟨hw1, hw2⟩ := (Holds_append tags args _ _ (pos + 1)).1 hw.2.2
          simp only [Holds] at hw2
          rw [pv_array h args _ L _ pos (deref_of_get tags pos _ hw.1)]
          simp only [TagPtr.next]
          rw [array_table_ptr]
          have := array_loop_plain h (f3 + 1 + 1 + 1) IH (x :: rest) [] (f3 + 1) (by omega) (by simp)
            (by simpa using hv) (by omega) tags args (pos + 1) L hw1 hw2.1
          rw [show seqEntriesFrom 1 ([] : List LuaValue) = [] from rfl] at this
          simp only [List.length_nil, List.nil_append] at this
          rw [← plainFrom_eq h (x :: rest) 1 hv] at this
          rw [this]
          have hL : (wireOf h (.table (x :: rest))).length = (wireEntries h (x :: rest)).length + 2 := by
            rw [wireOf_cons]; simp
          simp only [Except.map, TagPtr.next]
          rw [hL, show pos + 1 + (wireEntries h (x :: rest)).length + 1
            = pos + ((wireEntries h (x :: rest)).length + 2) by omega]
      | function id => simp [plain] at hv
      | userdata id => simp [plain] at hv
      | thread id => simp [plain] at hv
      | lightuserdata id => simp [plain] at hv

theorem args_loop_plain (h : Host) : ∀ (vs : List LuaValue) (fuel : Nat),
    (∀ v ∈ vs, v = .nil ∨ plain h v = true) → 2 * (wireList h vs).length + 1 ≤ fuel →
    ∀ (tags : List Char) (args : List ArgData) (pos : Nat) (L : LuaState) (i : Nat),
      Holds tags args pos (wireList h vs) → tags.length = pos + (wireList h vs).length →
      parse_osc_array_args h args fuel L (.ptr tags pos) pos i
        = .ok (⟨.ptr tags tags.length, vs.reverse ++ L, tags.length⟩, i + vs.length) := by
  intro vs
  induction vs with
  | nil =>
    intro fuel _ hfuel tags args pos L i _ hend
    obtain ⟨f1, rfl⟩ : ∃ f1, fuel = f1 + 1 := ⟨fuel - 1, by omega⟩
    simp only [wireList, List.length_nil, Nat.add_zero] at hend
    subst hend
    rw [args_loop_end h args f1 L _ _ i (deref_end tags)]
    simp
  | cons v rest ih =>
    intro fuel hvs hfuel tags args pos L i hw hend
    have hv := hvs v (by simp)
    simp only [wireList, List.length_append] at hfuel hend hw
    obtain ⟨hwv, hwr⟩ := (Holds_append tags args _ _ pos).1 hw
    obtain ⟨c, a, tail, hc, hc0, hc1⟩ := wire_head h v hv
    have hlen : 1 ≤ (wireOf h v).length := by rw [hc]; simp
    obtain ⟨f1, rfl⟩ : ∃ f1, fuel = f1 + 1 := ⟨fuel - 1, by omega⟩
    have hd : (TagPtr.ptr tags pos).deref = .ok c := by
      apply deref_of_get
      rw [hc] at hwv
      exact hwv.1
    rw [args_loop_step h args f1 _ _ pos i c hd hc0]
    rw [value_spec h f1 v hv (by omega) tags args pos _ hwv]
    simp only [ok_bind]
    have hnext : ∃ c3, (TagPtr.ptr tags (pos + (wireOf h v).length)).deref = .ok c3
        ∧ c3 ≠ ARRAY_END_TYPE_TAG := by
      cases rest with
      | nil =>
        simp only [wireList, List.length_nil, Nat.add_zero] at hend
        rw [← hend, deref_end]
        exact ⟨_, rfl, by decide⟩
      | cons v2 rest2 =>
        obtain ⟨c2, a2, tail2, hc2, hc20, hc21⟩ := wire_head h v2 (hvs v2 (by simp))
        have hwr2 := hwr
        simp only [wireList, hc2, List.cons_append, Holds] at hwr2
        rw [deref_of_get tags _ c2 hwr2.1]
        exact ⟨_, rfl, hc21⟩
    obtain ⟨c3, hc3, hne⟩ := hnext
    rw [hc3]
    simp only [ok_bind, hne, if_false]
    rw [ih f1 (fun w hw' => hvs w (by simp [hw'])) (by omega) tags args _ (v :: L) (i + 1) hwr (by omega)]
    simp [Nat.add_assoc, Nat.add_comm 1]

/-! ## Facts about the stream -/

theorem checked_ok (pk pk' : OutboundPacketStream) (hp : pk.checked = .ok pk') : pk' = pk := by
  unfold OutboundPacketStream.checked at hp
  split at hp
  · injection hp with e; exact e.symm
  · cases hp

theorem put_ok (pk pk' : OutboundPacketStream) (c : Char) (a : ArgData)
    (hp : pk.put c a = .ok pk') : pk' = pk.extend [(c, a)] := by
  have := checked_ok _ _ hp
  simpa [OutboundPacketStream.extend] using this

theorem extend_nil (pk : OutboundPacketStream) : pk.extend [] = pk := by
  simp [OutboundPacketStream.extend]

theorem extend_extend (pk : OutboundPacketStream) (w1 w2 : List (Char × ArgData)) :
    (pk.extend w1).extend w2 = pk.extend (w1 ++ w2) := by
  simp [OutboundPacketStream.extend]

/-! ## Facts about stack slots -/

theorem slot_top (v : LuaValue) (L : LuaState) :
    slot (v :: L) (resolveIndex (v :: L) (-1)) = some v := by
  have e : ((L.length : Int) + 1 + -1 + 1).toNat = L.length + 1 := by omega
  have p : (0 : Int) < (L.length : Int) + 1 + -1 + 1 := by omega
  simp [slot, resolveIndex, lua_gettop, p, e, index2adr]

theorem slot_below (v k : LuaValue) (L : LuaState) :
    slot (v :: k :: L) (resolveIndex (v :: k :: L) (-2)) = some k := by
  have e : ((L.length : Int) + 1 + 1 + -2 + 1).toNat = L.length + 1 := by omega
  have p : (0 : Int) < (L.length : Int) + 1 + 1 + -2 + 1 := by omega
  simp [slot, resolveIndex, lua_gettop, p, e, index2adr]

theorem resolve_top (v : LuaValue) (L : LuaState) :
    resolveIndex (v :: L) (-1) = ((L.length + 1 : Nat) : Int) := by
  simp [resolveIndex, lua_gettop]

theorem resolve_nat (L : LuaState) (i : Nat) : resolveIndex L (i : Int) = (i : Int) := by
  simp [resolveIndex]

/-! ## One step of `pack_lua`, type by type -/

section packsteps
variable (h : Host) (fuel : Nat) (L : LuaState) (pk : OutboundPacketStream) (index : Int)

theorem pack_lua_nil (hs : slot L (resolveIndex L index) = some .nil) :
    pack_lua h (fuel + 1) L pk index = pk.putNil := by
  simp [pack_lua, lua_type, hs]

theorem pack_lua_boolean (b : Bool) (hs : slot L (resolveIndex L index) = some (.boolean b)) :
    pack_lua h (fuel + 1) L pk index = pk.putBool b := by
  simp [pack_lua, lua_type, hs, lua_toboolean]

theorem pack_lua_number (x : LuaNumber) (hs : slot L (resolveIndex L index) = some (.number x)) :
    pack_lua h (fuel + 1) L pk index = pk.putFloat (h.toFloat32 x) := by
  simp [pack_lua, lua_type, hs, lua_tonumber]

theorem pack_lua_string (s : String) (hs : slot L (resolveIndex L index) = some (.string s)) :
    pack_lua h (fuel + 1) L pk index = pk.putString s := by
  simp [pack_lua, lua_type, hs, pack_string, lua_tolstring]

theorem pack_lua_table (t : LuaTable) (hs : slot L (resolveIndex L index) = some (.table t)) :
    pack_lua h (fuel + 1) L pk index
      = pack_table h (pack_lua h fuel) L pk (resolveIndex L index) := by
  simp [pack_lua, lua_type, hs]

theorem pack_lua_function (id : Nat) (hs : slot L (resolveIndex L index) = some (.function id)) :
    pack_lua h (fuel + 1) L pk index = .error (.cannotPack "function") := by
  simp [pack_lua, lua_type, hs, lua_typename]

theorem pack_lua_userdata (id : Nat) (hs : slot L (resolveIndex L index) = some (.userdata id)) :
    pack_lua h (fuel + 1) L pk index = .error (.cannotPack "userdata") := by
  simp [pack_lua, lua_type, hs, lua_typename]

theorem pack_lua_thread (id : Nat) (hs : slot L (resolveIndex L index) = some (.thread id)) :
    pack_lua h (fuel + 1) L pk index = .error (.cannotPack "thread") := by
  simp [pack_lua, lua_type, hs, lua_typename]

theorem pack_lua_lightuserdata (id : Nat)
    (hs : slot L (resolveIndex L index) = some (.lightuserdata id)) :
    pack_lua h (fuel + 1) L pk index = .error (.cannotPack "userdata") := by
  simp [pack_lua, lua_type, hs, lua_typename]

end packsteps

/-! ## Reading a regular array -/

theorem rawget_skip (k : Nat) (d : LuaValue) (t : LuaTable) (i : Nat) (hi : k ≠ i) :
    rawget ((intKey k, d) :: t) (intKey i) = rawget t (intKey i) := by
  simp [rawget, keyEq_intKey, hi]

theorem map_rawget_seq : ∀ (vs : List LuaValue) (s : Nat),
    (List.range' s vs.length).map (fun i => rawget (seqEntriesFrom s vs) (intKey i)) = vs := by
  intro vs
  induction vs with
  | nil => intro s; rfl
  | cons d ds ih =>
    intro s
    simp only [List.length_cons, List.range'_succ, List.map_cons, seqEntriesFrom]
    congr 1
    · simp [rawget, keyEq_intKey]
    · refine Eq.trans (List.map_congr_left ?_) (ih (s + 1))
      intro i hi
      simp only [List.mem_range'_1] at hi
      exact rawget_skip s d _ i (by omega)

theorem foldlM_rawgeti (f : Packer) (L : LuaState) (index : Int) (vs : List LuaValue)
    (hs : slot L index = some (seqTable vs)) (pk : OutboundPacketStream) :
    (List.range' 1 vs.length).foldlM (fun pk i => f (lua_rawgeti L index i) pk (-1)) pk
      = vs.foldlM (fun pk v => f (v :: L) pk (-1)) pk := by
  have e : (fun (pk : OutboundPacketStream) (i : Nat) => f (lua_rawgeti L index i) pk (-1))
      = (fun pk i => f (rawget (seqEntriesFrom 1 vs) (intKey i) :: L) pk (-1)) := by
    funext pk i
    simp [lua_rawgeti, tableAt, hs, seqTable, seqEntries]
  have := List.foldlM_map (m := Except PackError)
    (fun i => rawget (seqEntriesFrom 1 vs) (intKey i)) (fun pk v => f (v :: L) pk (-1))
    (List.range' 1 vs.length) pk
  rw [map_rawget_seq] at this
  rw [e, this]

/-- Behaviour of `pack_table` on a regular array that is not empty: the array brackets around the elements,
packed one after the other from the top of the stack. -/
theorem pack_table_regular (h : Host) (hreg : h.RegularLength) (f : Packer) (L : LuaState)
    (pk : OutboundPacketStream) (index : Int) (vs : List LuaValue)
    (hvs : ∀ v ∈ vs, v.isNil = false) (hne : vs ≠ []) (hs : slot L index = some (seqTable vs))
    (hidx : index ≤ MAX_DEPTH) :
    pack_table h f L pk index
      = (pk.BeginArray >>= fun pk1 =>
          vs.foldlM (fun pk v => f (v :: L) pk (-1)) pk1 >>= fun pk2 => pk2.EndArray) := by
  have hlen : 0 < vs.length := List.length_pos.2 hne
  have hn : h.getn (seqEntries vs) = vs.length := hreg vs hvs
  have hnot : ¬ index > (MAX_DEPTH : Int) := by omega
  simp only [pack_table, hnot, if_false, COMPAT_GETN, tableAt, hs, seqTable, hn, gt_iff_lt, hlen,
    if_true, pack_array]
  congr 1
  funext pk1
  rw [foldlM_rawgeti f L index vs hs]

/-- Behaviour of `pack_table` on the empty table: the two brackets of a hash. -/
theorem pack_table_empty (h : Host) (hreg : h.RegularLength) (f : Packer) (L : LuaState)
    (pk : OutboundPacketStream) (index : Int) (hs : slot L index = some (.table []))
    (hidx : index ≤ MAX_DEPTH) :
    pack_table h f L pk index = (pk.BeginHash >>= fun pk1 => pk1.EndHash) := by
  have hn : h.getn [] = 0 := hreg [] (by simp)
  have hnot : ¬ index > (MAX_DEPTH : Int) := by omega
  simp [pack_table, hnot, COMPAT_GETN, tableAt, hs, hn, pack_hash]

/-! ## What the encoder writes for a plain value -/

theorem wireEntries_eq (h : Host) : ∀ t : LuaTable, wireEntries h t = wireList h (t.map Prod.snd) := by
  intro t
  induction t with
  | nil => rfl
  | cons x rest ih =>
    obtain ⟨k, v⟩ := x
    simp [wireEntries, wireList, ih]

theorem fold_extend (h : Host) (F : OutboundPacketStream → LuaValue → Except PackError OutboundPacketStream) :
    ∀ (vs : List LuaValue),
      (∀ v ∈ vs, ∀ pk pk', F pk v = .ok pk' → pk' = pk.extend (wireOf h v)) →
      ∀ pk pk', vs.foldlM F pk = .ok pk' → pk' = pk.extend (wireList h vs) := by
  intro vs
  induction vs with
  | nil =>
    intro _ pk pk' hp
    simp only [List.foldlM_nil, pure_eq_ok] at hp
    injection hp with e
    simp [wireList, extend_nil, e]
  | cons v rest ih =>
    intro hF pk pk' hp
    rw [List.foldlM_cons] at hp
    cases hv : F pk v with
    | error e => rw [hv] at hp; cases hp
    | ok pk1 =>
      rw [hv] at hp
      simp only [ok_bind] at hp
      have h1 := hF v (by simp) pk pk1 hv
      have h2 := ih (fun w hw => hF w (by simp [hw])) pk1 pk' hp
      rw [h2, h1, extend_extend]
      rfl

theorem pack_lua_plain (h : Host) (hreg : h.RegularLength) : ∀ (fuel : Nat) (v : LuaValue)
    (L : LuaState) (pk : OutboundPacketStream) (idx : Int) (pk' : OutboundPacketStream),
    (v = .nil ∨ plain h v = true) → slot L (resolveIndex L idx) = some v →
    pack_lua h fuel L pk idx = .ok pk' → pk' = pk.extend (wireOf h v) := by
  intro fuel
  induction fuel with
  | zero => intro v L pk idx pk' _ _ hp; simp [pack_lua] at hp
  | succ fuel ih =>
    intro v L pk idx pk' hv hs hp
    rcases hv with rfl | hv
    · rw [pack_lua_nil h fuel L pk idx hs] at hp
      exact put_ok _ _ _ _ hp
    · cases v with
      | nil => simp [plain] at hv
      | boolean b =>
        rw [pack_lua_boolean h fuel L pk idx b hs] at hp
        exact put_ok _ _ _ _ hp
      | number x =>
        rw [pack_lua_number h fuel L pk idx x hs] at hp
        exact put_ok _ _ _ _ hp
      | string s =>
        rw [pack_lua_string h fuel L pk idx s hs] at hp
        exact put_ok _ _ _ _ hp
      | table t =>
        rw [pack_lua_table h fuel L pk idx t hs] at hp
        simp only [plain] at hv
        have hidx : resolveIndex L idx ≤ MAX_DEPTH := by
          by_contra hc
          have hgt : resolveIndex L idx > (MAX_DEPTH : Int) := by omega
          simp [pack_table, hgt] at hp
        cases t with
        | nil =>
          rw [pack_table_empty h hreg _ L pk _ hs hidx] at hp
          cases h1 : pk.BeginHash with
          | error e => rw [h1] at hp; cases hp
          | ok pk1 =>
            rw [h1] at hp
            simp only [ok_bind] at hp
            rw [put_ok _ _ _ _ hp, put_ok _ _ _ _ h1, extend_extend, wireOf_empty]
            rfl
        | cons x rest =>
          have hteq := plainFrom_eq h (x :: rest) 1 hv
          have hvals := plainFrom_values h (x :: rest) 1 hv
          have hs' : slot L (resolveIndex L idx) = some (seqTable ((x :: rest).map Prod.snd)) := by
            rw [hs, seqTable, seqEntries, ← hteq]
          rw [pack_table_regular h hreg _ L pk _ _
            (fun v hv' => plain_not_nil h v (hvals v hv')) (by simp) hs' hidx] at hp
          cases h1 : pk.BeginArray with
          | error e => rw [h1] at hp; cases hp
          | ok pk1 =>
            rw [h1] at hp
            simp only [ok_bind] at hp
            cases h2 : List.foldlM (fun pk v => pack_lua h fuel (v :: L) pk (-1)) pk1
                ((x :: rest).map Prod.snd) with
            | error e => rw [h2] at hp; cases hp
            | ok pk2 =>
              rw [h2] at hp
              simp only [ok_bind] at hp
              have e2 := fold_extend h (fun pk v => pack_lua h fuel (v :: L) pk (-1)) _
                (fun v hv' pk pk' hpk =>
                  ih v (v :: L) pk (-1) pk' (Or.inr (hvals v hv')) (slot_top v L) hpk) pk1 pk2 h2
              rw [put_ok _ _ _ _ hp, e2, put_ok _ _ _ _ h1, extend_extend, extend_extend,
                wireOf_cons, wireEntries_eq]
              rfl
      | function id => simp [plain] at hv
      | userdata id => simp [plain] at hv
      | thread id => simp [plain] at hv
      | lightuserdata id => simp [plain] at hv

/-! ## The arguments of a call on the stack -/

theorem index2adr_stackOf (xs : List LuaValue) (i : Nat) (hi : i < xs.length) :
    index2adr (stackOf xs) (i + 1) = xs[i]? := by
  unfold index2adr stackOf
  rw [List.length_reverse, if_pos ⟨by omega, by omega⟩, List.get?_eq_getElem?,
    List.getElem?_reverse (by omega)]
  congr 1
  omega

theorem slot_stackOf (xs : List LuaValue) (i : Nat) (hi : i < xs.length) :
    slot (stackOf xs) (resolveIndex (stackOf xs) ((i + 1 : Nat) : Int)) = xs[i]? := by
  rw [resolve_nat]
  have p : (0 : Int) < ((i + 1 : Nat) : Int) := by omega
  simp only [slot, p, if_true, Int.toNat_ofNat]
  exact index2adr_stackOf xs i hi

theorem fold_args_plain (h : Host) (hreg : h.RegularLength) (F : Nat) (L : LuaState) :
    ∀ (rest : List LuaValue) (k : Nat),
      (∀ v ∈ rest, v = .nil ∨ plain h v = true) →
      (∀ j, j < rest.length → slot L (resolveIndex L ((k + j : Nat) : Int)) = rest[j]?) →
      ∀ pk pk', (List.range' k rest.length).foldlM (fun pk i => pack_lua h F L pk (i : Nat)) pk
        = .ok pk' → pk' = pk.extend (wireList h rest) := by
  intro rest
  induction rest with
  | nil =>
    intro k _ _ pk pk' hp
    simp only [List.length_nil, List.range'_zero, List.foldlM_nil, pure_eq_ok] at hp
    injection hp with e
    simp [wireList, extend_nil, e]
  | cons v rest ih =>
    intro k hv hs pk pk' hp
    simp only [List.length_cons, List.range'_succ, List.foldlM_cons] at hp
    cases h1 : pack_lua h F L pk (k : Nat) with
    | error e => rw [h1] at hp; cases hp
    | ok pk1 =>
      rw [h1] at hp
      simp only [ok_bind] at hp
      have e1 := pack_lua_plain h hreg F v L pk k pk1 (hv v (by simp))
        (by simpa using hs 0 (by simp)) h1
      have e2 := ih (k + 1) (fun w hw => hv w (by simp [hw]))
        (fun j hj => by
          have := hs (j + 1) (by simp; omega)
          rw [show k + (j + 1) = k + 1 + j by omega] at this
          simpa using this) pk1 pk' hp
      rw [e2, e1, extend_extend]
      rfl

/-! ## The sample host -/

theorem rawget_seq (vs : List LuaValue) (s i : Nat) (hi : i < vs.length) :
    rawget (seqEntriesFrom s vs) (intKey (s + i)) = vs[i] := by
  have hm := map_rawget_seq vs s
  have h1 : ((List.range' s vs.length).map (fun i => rawget (seqEntriesFrom s vs) (intKey i)))[i]?
      = vs[i]? := by rw [hm]
  rw [List.getElem?_map, List.getElem?_range' _ _ hi, List.getElem?_eq_getElem hi] at h1
  simpa using h1

theorem seqEntriesFrom_length (vs : List LuaValue) : ∀ s, (seqEntriesFrom s vs).length = vs.length := by
  induction vs with
  | nil => intro s; rfl
  | cons v vs ih => intro s; simp [seqEntriesFrom, ih]

theorem sampleHost_regular : sampleHost.RegularLength := by
  intro vs hvs
  show firstBorder (seqEntries vs) = vs.length
  unfold firstBorder seqEntries
  rw [seqEntriesFrom_length]
  have : (List.range vs.length).takeWhile
      (fun i => !(rawget (seqEntriesFrom 1 vs) (intKey (i + 1))).isNil) = List.range vs.length := by
    rw [List.takeWhile_eq_self_iff]
    intro i hi
    simp only [List.mem_range] at hi
    rw [Nat.add_comm i 1, rawget_seq vs 1 i hi, hvs _ (List.getElem_mem _)]
    rfl
  rw [this, List.length_range]

/-! ## The round trip -/

theorem pack_unfold (h : Host) (address : String) (values : List LuaValue) :
    pack h (stackOf (.string address :: values))
      = (OutboundPacketStream.BeginMessage MAX_BUFF_SIZE address >>= fun pk0 =>
          (List.range' 2 values.length).foldlM
            (fun pk i => pack_lua h (MAX_DEPTH + 1) (stackOf (.string address :: values)) pk (i : Nat))
            pk0 >>= fun pk1 => .ok pk1.EndMessage) := by
  have hs : slot (stackOf (.string address :: values)) 1 = some (.string address) := by
    have := slot_stackOf (.string address :: values) 0 (by simp)
    simpa [resolve_nat] using this
  have hl : (stackOf (.string address :: values)).length - 1 = values.length := by
    simp [stackOf]
  simp only [pack, luaL_checkstring, lua_tolstring, hs, lua_gettop, hl]
  rfl

theorem pack_plain (h : Host) (hreg : h.RegularLength) (address : String) (values : List LuaValue)
    (hv : ∀ v ∈ values, carried h v = true) (p : ReceivedPacket)
    (hp : pack h (stackOf (.string address :: values)) = .ok p) :
    p = .message ⟨cstr address, some ((wireList h values).map Prod.fst),
      (wireList h values).map Prod.snd⟩ := by
  rw [pack_unfold] at hp
  cases h0 : OutboundPacketStream.BeginMessage MAX_BUFF_SIZE address with
  | error e => rw [h0] at hp; cases hp
  | ok pk0 =>
    rw [h0] at hp
    simp only [ok_bind] at hp
    cases h1 : List.foldlM
        (fun pk i => pack_lua h (MAX_DEPTH + 1) (stackOf (.string address :: values)) pk (i : Nat))
        pk0 (List.range' 2 values.length) with
    | error e => rw [h1] at hp; cases hp
    | ok pk1 =>
      rw [h1] at hp
      simp only [ok_bind] at hp
      have e0 := checked_ok _ _ h0
      have e1 := fold_args_plain h hreg (MAX_DEPTH + 1) (stackOf (.string address :: values))
        values 2
        (fun v hv' => by
          have := hv v hv'
          simp only [carried, Bool.or_eq_true] at this
          rcases this with hn | hpl
          · left; cases v <;> simp_all [LuaValue.isNil]
          · right; exact hpl)
        (fun j hj => by
          have := slot_stackOf (.string address :: values) (j + 1) (by simp; omega)
          rw [show 2 + j = j + 1 + 1 by omega]
          simpa using this) pk0 pk1 h1
      injection hp with hp
      rw [← hp, e1, e0]
      simp [OutboundPacketStream.EndMessage, OutboundPacketStream.extend]

theorem unpack_message_plain (h : Host) (address : String) (values : List LuaValue)
    (ha : cstr address = address) (hv : ∀ v ∈ values, carried h v = true) (L : LuaState)
    (fuel : Nat) (hfuel : 2 * (wireList h values).length + 1 ≤ fuel) :
    unpack_packet h fuel L (.message ⟨address, some ((wireList h values).map Prod.fst),
        (wireList h values).map Prod.snd⟩)
      = .ok (values.length + 1, values.reverse ++ .string address :: L) := by
  have hv' : ∀ v ∈ values, v = .nil ∨ plain h v = true := by
    intro v hm
    have := hv v hm
    simp only [carried, Bool.or_eq_true] at this
    rcases this with hn | hpl
    · left; cases v <;> simp_all [LuaValue.isNil]
    · right; exact hpl
  have hw := Holds_self (wireList h values) []
  simp only [List.nil_append, List.length_nil] at hw
  have := args_loop_plain h values fuel hv' hfuel _ _ 0 (.string address :: L) 0 hw (by simp)
  simp only [unpack_packet, lua_pushstring, ha, ReceivedMessage.TypeTags, parse_osc_array_sz]
  rw [this]
  simp

theorem unpack_of_message (h : Host)
    (asBundle : ReceivedMessage → Except Fault (List ReceivedPacket)) (fuel : Nat) (L : LuaState)
    (m : ReceivedMessage) (hb : IsBundleBytes m.addressPattern = false) :
    unpack h asBundle fuel L (.message m) = unpack_packet h fuel L (.message m) := by
  simp [unpack, ReceivedPacket.ofPacked, hb]

theorem unpack_bundle_count (h : Host) (fuel : Nat) (L : LuaState) (pk : ReceivedPacket)
    (r : Nat × LuaState) (hr : unpack_bundle h fuel L pk = .ok r) : r.1 = 1 := by
  cases pk with
  | message m => simp [unpack_bundle] at hr
  | bundle elements =>
    simp only [unpack_bundle] at hr
    obtain ⟨L1, _, hr⟩ := bind_eq_ok _ _ _ hr
    injection hr with hr
    rw [← hr]

/-- Bytes that are taken for a bundle come back as one value, whatever is found in them. -/
theorem unpack_marked_count (h : Host)
    (asBundle : ReceivedMessage → Except Fault (List ReceivedPacket)) (fuel : Nat) (L : LuaState)
    (m : ReceivedMessage) (hb : IsBundleBytes m.addressPattern = true) (n : Nat) (L1 : LuaState)
    (hr : unpack h asBundle fuel L (.message m) = .ok (n, L1)) : n = 1 := by
  simp only [unpack, ReceivedPacket.ofPacked, hb, if_true] at hr
  obtain ⟨pk, hpk, hr⟩ := bind_eq_ok _ _ _ hr
  cases hm : asBundle m with
  | error e => rw [hm] at hpk; cases hpk
  | ok elements =>
    rw [hm] at hpk
    injection hpk with hpk
    subst hpk
    exact unpack_bundle_count h fuel L _ _ hr

theorem returned_length (n : Nat) (L : LuaState) (vs : List LuaValue)
    (hr : returned n L = some vs) : vs.length = n := by
  unfold returned at hr
  split at hr
  · injection hr with hr
    rw [← hr, List.length_reverse, List.length_take]
    omega
  · cases hr

/-- C1, amended. Round trip: for every address string without a zero byte that does not begin
with the bundle marker `#`, and every argument list whose values are nil, booleans, numbers that
the cast to float keeps, strings without a zero byte, and regular arrays of such values that are
not nil (nested to any depth, the empty table included), on a host whose length operator returns
`n` for a regular array of `n` values: if `osc::pack` returns a packet, then `osc::unpack` on the
bytes of that packet, given enough steps and room on the Lua stack, reports and leaves on the
stack the address followed by exactly the original values, in the original order, nested arrays
kept nested. -/
theorem pack_unpack_roundtrip (h : Host) (hreg : h.RegularLength) (address : String)
    (values : List LuaValue) (ha : cstr address = address)
    (hb : IsBundleBytes address = false)
    (hv : ∀ v ∈ values, carried h v = true) : RoundTrips h address values := by
  intro p hp asBundle L
  have e := pack_plain h hreg address values hv p hp
  rw [ha] at e
  refine ⟨2 * (wireList h values).length + 1, fun fuel hfuel => ?_⟩
  refine ⟨values.length + 1, values.reverse ++ .string address :: L, ?_, ?_⟩
  · rw [e, unpack_of_message h asBundle fuel L _ hb]
    exact unpack_message_plain h address values ha hv L fuel hfuel
  · have e2 : values.reverse ++ .string address :: L
        = (values.reverse ++ [.string address]) ++ L := by simp
    have e3 : (values.reverse ++ [LuaValue.string address]).length = values.length + 1 := by simp
    simp only [returned, List.length_append, List.length_reverse, List.length_cons]
    rw [if_pos (by omega), e2, List.take_left' e3]
    simp

/-- Witness of C1: two nested arrays, a string, a boolean and nil round trip on the sample host,
and `osc::pack` does return a packet for them. -/
theorem pack_unpack_roundtrip_witness :
    RoundTrips sampleHost "/foo"
        [seqTable [.number (.int 1), .number (.int 2)],
         seqTable [.number (.int 3), seqTable [.string "bar"]], .boolean true, .nil]
      ∧ ∃ p, pack sampleHost (stackOf [.string "/foo",
          seqTable [.number (.int 1), .number (.int 2)],
          seqTable [.number (.int 3), seqTable [.string "bar"]], .boolean true, .nil]) = .ok p :=
  ⟨pack_unpack_roundtrip sampleHost sampleHost_regular "/foo" _ (by decide) (by decide)
      (by decide),
    ⟨_, rfl⟩⟩

/-- C1 as stated fails three times on the sample host. A string with a zero byte is cut at that
byte by the encoder, so `"a\0b"` comes back as `"a"`. The sequence (null, true), whose table has
the single pair `2 ↦ true` and the length 0, is written as a hash with a number key, which the
decoder rejects as malformed before reading a tag out of bounds. And the packet written for the
address `#bundle` begins with the bundle marker: `osc::unpack` takes its bytes for a bundle and,
whatever it finds in them, fails or returns one value, never the address followed by the value
true. -/
theorem roundtrip_fails_on_zero_byte_and_on_null_element :
    ¬ RoundTrips sampleHost "/a" [.string "a\x00b"]
      ∧ ¬ RoundTrips sampleHost "/a" [.table [(intKey 2, .boolean true)]]
      ∧ ¬ RoundTrips sampleHost "#bundle" [.boolean true] := by
  refine ⟨?_, ?_, ?_⟩
  · intro hrt
    have hpk : pack sampleHost (stackOf [.string "/a", .string "a\x00b"])
        = .ok (.message ⟨"/a", some [STRING_TYPE_TAG], [.str "a"]⟩) := rfl
    obtain ⟨N, hN⟩ := hrt _ hpk (fun _ => .ok []) []
    obtain ⟨n, L', h1, h2⟩ := hN (N + 8) (by omega)
    have e : unpack sampleHost (fun _ => .ok []) (N + 8) []
        (.message ⟨"/a", some [STRING_TYPE_TAG], [.str "a"]⟩)
        = .ok (2, [.string "a", .string "/a"]) := rfl
    rw [e] at h1
    injection h1 with h1
    injection h1 with hn hL
    subst hn hL
    simp [returned] at h2
  · intro hrt
    have hpk : pack sampleHost (stackOf [.string "/a", .table [(intKey 2, .boolean true)]])
        = .ok (.message ⟨"/a",
            some [HASH_BEGIN_TYPE_TAG, FLOAT_TYPE_TAG, TRUE_TYPE_TAG, HASH_END_TYPE_TAG],
            [.none, .word32 2, .none, .none]⟩) := rfl
    obtain ⟨N, hN⟩ := hrt _ hpk (fun _ => .ok []) []
    obtain ⟨n, L', h1, h2⟩ := hN (N + 8) (by omega)
    have e : unpack sampleHost (fun _ => .ok []) (N + 8) []
        (.message ⟨"/a", some [HASH_BEGIN_TYPE_TAG, FLOAT_TYPE_TAG, TRUE_TYPE_TAG, HASH_END_TYPE_TAG],
          [.none, .word32 2, .none, .none]⟩)
        = .error .tagOutOfBounds := rfl
    rw [e] at h1
    cases h1
  · intro hrt
    have hpk : pack sampleHost (stackOf [.string "#bundle", .boolean true])
        = .ok (.message ⟨"#bundle", some [TRUE_TYPE_TAG], [.none]⟩) := rfl
    obtain ⟨N, hN⟩ := hrt _ hpk (fun _ => .ok []) []
    obtain ⟨n, L', h1, h2⟩ := hN N (Nat.le_refl N)
    have hn := unpack_marked_count sampleHost _ N [] ⟨"#bundle", some [TRUE_TYPE_TAG], [.none]⟩
      rfl n L' h1
    have hl := returned_length n L' _ h2
    rw [hn] at hl
    simp at hl

/-! ## Bundles -/

theorem lua_rawseti_under (v : LuaValue) (mid : List LuaValue) (t : LuaTable) (S : LuaState)
    (n : Nat) (hmid : mid ≠ []) :
    lua_rawseti (v :: (mid ++ .table t :: S)) (S.length + 1) n
      = .ok (mid ++ .table (tableSet t (intKey n) v) :: S) := by
  have hl : 0 < mid.length := List.length_pos.2 hmid
  have h1 : ¬ S.length + 1 = (mid ++ .table t :: S).length + 1 := by simp; omega
  have h2 : (mid ++ LuaValue.table t :: S).length - (S.length + 1) = mid.length := by simp
  have h3 : 1 ≤ S.length + 1 ∧ S.length + 1 ≤ (mid ++ LuaValue.table t :: S).length := by
    simp
  have h4 : (mid ++ LuaValue.table t :: S).get? mid.length = some (.table t) := by
    rw [List.get?_eq_getElem?, List.getElem?_append_right (Nat.le_refl _)]
    simp
  have h5 : (mid ++ LuaValue.table t :: S).set mid.length (.table (tableSet t (intKey n) v))
      = mid ++ .table (tableSet t (intKey n) v) :: S := by
    simp [List.set_append_right]
  simp only [lua_rawseti, h1, if_false]
  unfold updateTable index2adr
  rw [if_pos h3, h2, h4]
  simp only [h5]

/-- C2. A bundle of two messages without arguments, on any host and any stack: `unpack_packet`
reports one value, and the value on top of the stack is the address pattern of the last message,
a string. The table of the bundle lies two slots below; its two elements are the argument
tables of the messages and hold no address pattern. -/
theorem unpack_bundle_returns_last_address (h : Host) (L : LuaState) (a b : String) (fuel : Nat) :
    unpack_packet h (fuel + 1) L (.bundle [.message ⟨a, some [], []⟩, .message ⟨b, some [], []⟩])
        = .ok (1, .string (cstr b) :: .string (cstr a)
            :: .table [(intKey 1, .table []), (intKey 2, .table [])] :: L)
      ∧ returned 1 (.string (cstr b) :: .string (cstr a)
            :: .table [(intKey 1, .table []), (intKey 2, .table [])] :: L)
          = some [.string (cstr b)] := by
  constructor
  · have e1 := lua_rawseti_under (.table []) [.string (cstr a)] [] L 1 (by simp)
    have e2 := lua_rawseti_under (.table []) [.string (cstr b), .string (cstr a)]
      [(intKey 1, .table [])] L 2 (by simp)
    simp only [List.cons_append, List.nil_append] at e1 e2
    have t1 : tableSet [] (intKey 1) (.table []) = [(intKey 1, .table [])] := rfl
    have t2 : tableSet [(intKey 1, .table [])] (intKey 2) (.table [])
        = [(intKey 1, .table []), (intKey 2, .table [])] := rfl
    rw [t1] at e1
    rw [t2] at e2
    have d0 : (TagPtr.ptr [] 0).deref = .ok NUL := rfl
    simp only [unpack_packet, unpack_bundle, unpack_bundle_elems, parse_osc_array,
      ReceivedMessage.TypeTags, lua_newtable, lua_gettop, lua_pushstring, pure_eq_ok, ok_bind,
      bind_pure_comp, map_ok, array_table_ptr, array_loop_end _ _ _ _ _ _ _ _ d0, List.length_cons,
      Nat.zero_add, e1, e2]
  · simp [returned]

/-! ## The count of returned values -/

/-- C3. A message whose only tag is the RGBA colour tag, and a message whose arguments are one
empty array: on any host and stack `unpack_packet` reports two returned values, the stack holds
one value more than before, the address. -/
theorem unpack_packet_counts_more_than_pushed (h : Host) (L : LuaState) (a : String) (w : Nat)
    (fuel : Nat) :
    unpack_packet h (fuel + 2) L (.message ⟨a, some [RGBA_COLOR_TYPE_TAG], [.word32 w]⟩)
        = .ok (2, .string (cstr a) :: L)
      ∧ unpack_packet h (fuel + 5) L
          (.message ⟨a, some [ARRAY_BEGIN_TYPE_TAG, ARRAY_END_TYPE_TAG], [.none, .none]⟩)
        = .ok (2, .string (cstr a) :: L) := by
  have r0 : (TagPtr.ptr [RGBA_COLOR_TYPE_TAG] 0).deref = .ok RGBA_COLOR_TYPE_TAG := rfl
  have r1 : (TagPtr.ptr [RGBA_COLOR_TYPE_TAG] 1).deref = .ok NUL := rfl
  have b0 : (TagPtr.ptr [ARRAY_BEGIN_TYPE_TAG, ARRAY_END_TYPE_TAG] 0).deref
      = .ok ARRAY_BEGIN_TYPE_TAG := rfl
  have b1 : (TagPtr.ptr [ARRAY_BEGIN_TYPE_TAG, ARRAY_END_TYPE_TAG] 1).deref
      = .ok ARRAY_END_TYPE_TAG := rfl
  have b2 : (TagPtr.ptr [ARRAY_BEGIN_TYPE_TAG, ARRAY_END_TYPE_TAG] 2).deref = .ok NUL := rfl
  constructor
  · simp only [unpack_packet, parse_osc_array_sz, ReceivedMessage.TypeTags, lua_pushstring]
    rw [args_loop_step h _ (fuel + 1) _ _ _ _ RGBA_COLOR_TYPE_TAG r0 (by decide)]
    rw [pv_skip h _ fuel _ _ _ RGBA_COLOR_TYPE_TAG r0 (by decide)]
    simp only [ok_bind, TagPtr.next, r1]
    rw [if_neg (by decide), args_loop_end _ _ _ _ _ _ _ r1]
    rfl
  · simp only [unpack_packet, parse_osc_array_sz, ReceivedMessage.TypeTags, lua_pushstring]
    rw [args_loop_step h _ (fuel + 4) _ _ _ _ ARRAY_BEGIN_TYPE_TAG b0 (by decide)]
    rw [pv_array h _ (fuel + 3) _ _ _ b0]
    simp only [TagPtr.next]
    rw [array_table_ptr h _ (fuel + 2)]
    rw [array_loop_step h _ (fuel + 1) _ _ _ _ _ ARRAY_END_TYPE_TAG b1 (by decide)]
    rw [pv_array_end h _ fuel _ _ _ b1]
    simp only [ok_bind]
    rw [lua_rawseti_self]
    simp only [ok_bind, b1, if_true, Except.map, TagPtr.next, b2]
    rw [if_neg (by decide), args_loop_end _ _ _ _ _ _ _ b2]
    rfl

/-! ## Termination -/

theorem args_loop_stray_hash_end (h : Host) (args : List ArgData) :
    ∀ (fuel : Nat) (L : LuaState) (arg i : Nat),
      parse_osc_array_args h args fuel L (.ptr [HASH_END_TYPE_TAG] 0) arg i = .error .outOfFuel := by
  intro fuel
  induction fuel with
  | zero => intro L arg i; rfl
  | succ fuel ih =>
    intro L arg i
    have d0 : (TagPtr.ptr [HASH_END_TYPE_TAG] 0).deref = .ok HASH_END_TYPE_TAG := rfl
    rw [args_loop_step h _ _ _ _ _ _ HASH_END_TYPE_TAG d0 (by decide)]
    cases fuel with
    | zero => rfl
    | succ f =>
      rw [pv_hash_end h _ _ _ _ _ d0]
      simp only [ok_bind, d0]
      rw [if_neg (by decide)]
      exact ih L arg (i + 1)

/-- C9. A message whose tag string is a single stray end-of-hash bracket: whatever the step budget,
`unpack_packet` does not finish within it. The loop of `parse_osc_array` calls
`parse_osc_value`, which returns the cursor where it was, and the loop only leaves on the
end-of-array bracket or the terminator. -/
theorem unpack_packet_stray_hash_end_never_returns (h : Host) (L : LuaState) (a : String)
    (fuel : Nat) :
    unpack_packet h fuel L (.message ⟨a, some [HASH_END_TYPE_TAG], [.none]⟩)
      = .error .outOfFuel := by
  simp only [unpack_packet, parse_osc_array_sz, ReceivedMessage.TypeTags]
  rw [args_loop_stray_hash_end]
  rfl

/-! ## The bounds of the tag cursor -/

/-- C10. An unterminated array and a malformed hash, on any host and stack. For the tag string
of the single begin-array bracket, whose terminator is at offset 1, `parse_osc_value` returns the
cursor at offset 2, and `unpack_packet` then reads a tag out of bounds. For the begin-hash
bracket followed by `f`, `parse_osc_value` returns the cursor one past the terminator of the
empty string literal. -/
theorem parse_osc_value_cursor_past_terminator (h : Host) (L : LuaState) (a : String)
    (fuel : Nat) :
    parse_osc_value h [.none] (fuel + 3) L (.ptr [ARRAY_BEGIN_TYPE_TAG] 0) 0
        = .ok ⟨.ptr [ARRAY_BEGIN_TYPE_TAG] 2, .table [] :: L, 2⟩
      ∧ unpack_packet h (fuel + 4) L (.message ⟨a, some [ARRAY_BEGIN_TYPE_TAG], [.none]⟩)
        = .error .tagOutOfBounds
      ∧ parse_osc_value h [.none, .word32 0] (fuel + 3) L
          (.ptr [HASH_BEGIN_TYPE_TAG, FLOAT_TYPE_TAG] 0) 0
        = .ok ⟨.ptr [] 1, .table [] :: L, 2⟩ := by
  have a0 : (TagPtr.ptr [ARRAY_BEGIN_TYPE_TAG] 0).deref = .ok ARRAY_BEGIN_TYPE_TAG := rfl
  have a1 : (TagPtr.ptr [ARRAY_BEGIN_TYPE_TAG] 1).deref = .ok NUL := rfl
  have a2 : (TagPtr.ptr [ARRAY_BEGIN_TYPE_TAG] 2).deref = .error .tagOutOfBounds := rfl
  have h0 : (TagPtr.ptr [HASH_BEGIN_TYPE_TAG, FLOAT_TYPE_TAG] 0).deref
      = .ok HASH_BEGIN_TYPE_TAG := rfl
  have h1 : (TagPtr.ptr [HASH_BEGIN_TYPE_TAG, FLOAT_TYPE_TAG] 1).deref = .ok FLOAT_TYPE_TAG := rfl
  have e1 : ∀ L : LuaState,
      parse_osc_value h [.none] (fuel + 3) L (.ptr [ARRAY_BEGIN_TYPE_TAG] 0) 0
        = .ok ⟨.ptr [ARRAY_BEGIN_TYPE_TAG] 2, .table [] :: L, 2⟩ := by
    intro L
    rw [pv_array h _ (fuel + 2) _ _ _ a0]
    simp only [TagPtr.next]
    rw [array_table_ptr h _ (fuel + 1), array_loop_end h _ fuel _ _ _ _ _ a1]
    rfl
  refine ⟨e1 L, ?_, ?_⟩
  · simp only [unpack_packet, parse_osc_array_sz, ReceivedMessage.TypeTags, lua_pushstring]
    rw [args_loop_step h _ (fuel + 3) _ _ _ _ ARRAY_BEGIN_TYPE_TAG a0 (by decide)]
    rw [e1]
    simp only [ok_bind, a2]
    rfl
  · rw [pv_hash h _ (fuel + 2) _ _ _ h0, hash_unfold h _ (fuel + 1)]
    simp only [TagPtr.next]
    rw [hash_loop_malformed h _ fuel _ _ _ _ FLOAT_TYPE_TAG h1
      (by decide) (by decide) (by decide)]
    rfl

/-! ## The size of the stream -/

theorem roundUp4_mono (a b : Nat) (hab : a ≤ b) : roundUp4 a ≤ roundUp4 b := by
  unfold roundUp4
  exact Nat.mul_le_mul_right 4 (Nat.div_le_div_right (by omega))

theorem size_extend (pk : OutboundPacketStream) (w : List (Char × ArgData)) :
    pk.Size ≤ (pk.extend w).Size := by
  have h1 := roundUp4_mono (pk.typeTags.length + 2) (pk.typeTags.length + w.length + 2) (by omega)
  simp only [OutboundPacketStream.Size, OutboundPacketStream.extend, List.length_append,
    List.length_map, List.map_append, List.sum_append]
  omega

theorem put_eq (pk : OutboundPacketStream) (c : Char) (a : ArgData) :
    pk.put c a = (pk.extend [(c, a)]).checked := rfl

theorem capacity_extend (pk : OutboundPacketStream) (w : List (Char × ArgData)) :
    (pk.extend w).capacity = pk.capacity := rfl

/-- Writing the tags and payloads `w` one after the other succeeds exactly when the stream with
all of them fits the buffer. -/
theorem fold_put (w : List (Char × ArgData)) : ∀ pk : OutboundPacketStream,
    pk.Size ≤ pk.capacity →
    w.foldlM (fun pk x => pk.put x.1 x.2) pk
      = if (pk.extend w).Size ≤ pk.capacity then .ok (pk.extend w) else .error .outOfBuffer := by
  induction w with
  | nil => intro pk hpk; simp [extend_nil, hpk]
  | cons x w ih =>
    intro pk hpk
    rw [List.foldlM_cons, put_eq]
    unfold OutboundPacketStream.checked
    by_cases h1 : (pk.extend [(x.1, x.2)]).Size ≤ (pk.extend [(x.1, x.2)]).capacity
    · rw [if_pos h1]
      simp only [ok_bind]
      rw [ih _ h1, extend_extend, capacity_extend]
      rfl
    · rw [if_neg h1]
      simp only [error_bind]
      have h2 := size_extend (pk.extend [(x.1, x.2)]) w
      rw [extend_extend] at h2
      rw [capacity_extend] at h1
      rw [if_neg]
      have : [(x.1, x.2)] ++ w = x :: w := rfl
      rw [this] at h2
      omega

/-! ## Scalar arguments -/

theorem pack_lua_scalar (h : Host) (fuel : Nat) (L : LuaState) (pk : OutboundPacketStream)
    (index : Int) (v : LuaValue) (hv : isScalar v = true)
    (hs : slot L (resolveIndex L index) = some v) :
    pack_lua h (fuel + 1) L pk index = pk.put (scalarTag v) (scalarArg h v) := by
  cases v with
  | nil => rw [pack_lua_nil h fuel L pk index hs]; rfl
  | boolean b => rw [pack_lua_boolean h fuel L pk index b hs]; cases b <;> rfl
  | number x => rw [pack_lua_number h fuel L pk index x hs]; rfl
  | string s => rw [pack_lua_string h fuel L pk index s hs]; rfl
  | table t => simp [isScalar] at hv
  | function id => simp [isScalar] at hv
  | userdata id => simp [isScalar] at hv
  | thread id => simp [isScalar] at hv
  | lightuserdata id => simp [isScalar] at hv

theorem fold_args_scalar (h : Host) (F : Nat) (L : LuaState) :
    ∀ (rest : List LuaValue) (k : Nat),
      (∀ v ∈ rest, isScalar v = true) →
      (∀ j, j < rest.length → slot L (resolveIndex L ((k + j : Nat) : Int)) = rest[j]?) →
      ∀ pk, (List.range' k rest.length).foldlM (fun pk i => pack_lua h (F + 1) L pk (i : Nat)) pk
        = (rest.map (fun v => (scalarTag v, scalarArg h v))).foldlM (fun pk x => pk.put x.1 x.2) pk := by
  intro rest
  induction rest with
  | nil => intro k _ _ pk; rfl
  | cons v rest ih =>
    intro k hv hs pk
    simp only [List.length_cons, List.range'_succ, List.foldlM_cons, List.map_cons]
    rw [pack_lua_scalar h F L pk k v (hv v (by simp)) (by simpa using hs 0 (by simp))]
    congr 1
    funext pk1
    exact ih (k + 1) (fun w hw => hv w (by simp [hw]))
      (fun j hj => by
        have := hs (j + 1) (by simp; omega)
        rw [show k + (j + 1) = k + 1 + j by omega] at this
        simpa using this) pk1

/-- C4. For every url and every argument list of numbers, booleans, strings and nils, `osc::pack`
returns the message whose type tag string is, in order, one tag per argument (`f` for every
number, `T` for true, `F` for false, `s` for a string, `N` for nil) and nothing else, in
particular no array brackets around the list; it does so whenever that message fits the buffer
of `MAX_BUFF_SIZE` bytes, and raises the buffer error otherwise. -/
theorem pack_scalars_type_tags (h : Host) (url : String) (args : List LuaValue)
    (hs : ∀ v ∈ args, isScalar v = true) :
    pack h (stackOf (.string url :: args))
      = if (OutboundPacketStream.mk MAX_BUFF_SIZE (cstr url) (args.map scalarTag)
              (args.map (scalarArg h))).Size ≤ MAX_BUFF_SIZE
        then .ok (.message ⟨cstr url, some (args.map scalarTag), args.map (scalarArg h)⟩)
        else .error .outOfBuffer := by
  have hext : (OutboundPacketStream.mk MAX_BUFF_SIZE (cstr url) [] []).extend
      (args.map (fun v => (scalarTag v, scalarArg h v)))
      = ⟨MAX_BUFF_SIZE, cstr url, args.map scalarTag, args.map (scalarArg h)⟩ := by
    simp [OutboundPacketStream.extend, Function.comp_def]
  rw [pack_unfold]
  unfold OutboundPacketStream.BeginMessage OutboundPacketStream.checked
  by_cases h0 : (OutboundPacketStream.mk MAX_BUFF_SIZE (cstr url) [] []).Size ≤ MAX_BUFF_SIZE
  · rw [if_pos h0]
    simp only [ok_bind]
    rw [fold_args_scalar h MAX_DEPTH _ args 2 hs
      (fun j hj => by
        have := slot_stackOf (.string url :: args) (j + 1) (by simp; omega)
        rw [show 2 + j = j + 1 + 1 by omega]
        simpa using this)]
    rw [fold_put _ _ h0, hext]
    by_cases h1 : (OutboundPacketStream.mk MAX_BUFF_SIZE (cstr url) (args.map scalarTag)
        (args.map (scalarArg h))).Size ≤ MAX_BUFF_SIZE
    · rw [if_pos h1, if_pos h1]; rfl
    · rw [if_neg h1, if_neg h1]; rfl
  · rw [if_neg h0]
    simp only [error_bind]
    have h2 := size_extend (OutboundPacketStream.mk MAX_BUFF_SIZE (cstr url) [] [])
      (args.map (fun v => (scalarTag v, scalarArg h v)))
    rw [hext] at h2
    rw [if_neg]
    have h3 : ¬ (OutboundPacketStream.mk MAX_BUFF_SIZE (cstr url) [] []).Size ≤ MAX_BUFF_SIZE := h0
    omega

/-- Witness of C4: a number, a string, the two booleans and nil are packed with the tags
`f`, `s`, `T`, `F`, `N`. -/
theorem pack_scalars_type_tags_witness :
    pack sampleHost (stackOf [.string "/foo", .number (.real 5), .string "bar", .boolean true,
        .boolean false, .nil])
      = .ok (.message ⟨"/foo", some ['f', 's', 'T', 'F', 'N'],
          [.word32 5, .str "bar", .none, .none, .none]⟩) :=
  (pack_scalars_type_tags sampleHost "/foo"
    [.number (.real 5), .string "bar", .boolean true, .boolean false, .nil] (by decide)).trans rfl

/-! ## Sequences -/

/-- C5, amended. A table that is the regular array of the values `vs`, none of them nil, given
to `pack_lua` at any stack slot whose index is at most `MAX_DEPTH` (an argument of the call or
an element pushed by an enclosing table), on a host whose length operator returns `n` for a
regular array of `n` values: if `vs` is not empty the encoder writes begin-array, then packs the
elements in order, then writes end-array; the empty table is written as begin-hash, end-hash. -/
theorem pack_lua_sequence (h : Host) (hreg : h.RegularLength) (fuel : Nat) (L : LuaState)
    (pk : OutboundPacketStream) (index : Int) (vs : List LuaValue)
    (hvs : ∀ v ∈ vs, v.isNil = false)
    (hs : slot L (resolveIndex L index) = some (seqTable vs))
    (hidx : resolveIndex L index ≤ MAX_DEPTH) :
    pack_lua h (fuel + 1) L pk index
      = if vs.isEmpty then pk.BeginHash >>= fun pk1 => pk1.EndHash
        else pk.BeginArray >>= fun pk1 =>
          vs.foldlM (fun pk v => pack_lua h fuel (v :: L) pk (-1)) pk1 >>= fun pk2 =>
            pk2.EndArray := by
  rw [pack_lua_table h fuel L pk index _ hs]
  cases vs with
  | nil => exact pack_table_empty h hreg _ L pk _ hs hidx
  | cons v rest =>
    exact pack_table_regular h hreg _ L pk _ (v :: rest) hvs (by simp) hs hidx

/-- Witness of C5: the array (1, "a") as the second argument of a call on the sample host is
written as begin-array, `f`, `s`, end-array. -/
theorem pack_lua_sequence_witness :
    pack_lua sampleHost (1 + 1)
        (stackOf [.string "/foo", seqTable [.number (.int 1), .string "a"]])
        ⟨MAX_BUFF_SIZE, "/foo", [], []⟩ 2
      = .ok ⟨MAX_BUFF_SIZE, "/foo",
          [ARRAY_BEGIN_TYPE_TAG, FLOAT_TYPE_TAG, STRING_TYPE_TAG, ARRAY_END_TYPE_TAG],
          [.none, .word32 1, .str "a", .none]⟩ :=
  (pack_lua_sequence sampleHost sampleHost_regular 1
    (stackOf [.string "/foo", seqTable [.number (.int 1), .string "a"]])
    ⟨MAX_BUFF_SIZE, "/foo", [], []⟩ 2 [.number (.int 1), .string "a"]
    (by decide) rfl (by decide)).trans rfl

/-- C5 as stated fails for the length zero: the empty sequence is packed as a hash, the tag
string of the message is the two hash brackets and not the two array brackets. -/
theorem empty_sequence_is_packed_as_hash :
    pack sampleHost (stackOf [.string "/foo", seqTable []])
        = .ok (.message ⟨"/foo", some [HASH_BEGIN_TYPE_TAG, HASH_END_TYPE_TAG], [.none, .none]⟩)
      ∧ [HASH_BEGIN_TYPE_TAG, HASH_END_TYPE_TAG] ≠ [ARRAY_BEGIN_TYPE_TAG, ARRAY_END_TYPE_TAG] :=
  ⟨rfl, by decide⟩

/-! ## Malformed hashes -/

theorem carried_cases (h : Host) (v : LuaValue) (hv : carried h v = true) :
    v = .nil ∨ plain h v = true := by
  simp only [carried, Bool.or_eq_true] at hv
  rcases hv with hn | hpl
  · left; cases v <;> simp_all [LuaValue.isNil]
  · right; exact hpl

theorem hash_loop_pairs (h : Host) : ∀ (pairs : List (String × LuaValue)) (t0 : LuaTable)
    (fuel : Nat), (∀ kv ∈ pairs, carried h kv.2 = true) →
    2 * (hashBody h pairs).length + 1 ≤ fuel →
    ∀ (c : Char), c ≠ NUL → c ≠ STRING_TYPE_TAG → c ≠ HASH_END_TYPE_TAG →
    ∀ (tags : List Char) (args : List ArgData) (pos : Nat) (S : LuaState),
      Holds tags args pos (hashBody h pairs) →
      tags[pos + (hashBody h pairs).length]? = some c →
      parse_osc_hash_loop h args (S.length + 1) fuel (.table t0 :: S) (.ptr tags pos) pos
        = .ok ⟨emptyLiteral, .table (storePairs pairs t0) :: S,
            pos + (hashBody h pairs).length⟩ := by
  intro pairs
  induction pairs with
  | nil =>
    intro t0 fuel _ hfuel c hc0 hc1 hc2 tags args pos S _ hc
    obtain ⟨f1, rfl⟩ : ∃ f1, fuel = f1 + 1 := ⟨fuel - 1, by omega⟩
    simp only [hashBody, List.length_nil, Nat.add_zero] at hc ⊢
    rw [hash_loop_malformed h args f1 _ _ pos _ c (deref_of_get tags pos c hc) hc0 hc1 hc2]
    rfl
  | cons kv rest ih =>
    intro t0 fuel hv hfuel c hc0 hc1 hc2 tags args pos S hw hc
    obtain ⟨k, v⟩ := kv
    obtain ⟨f1, rfl⟩ : ∃ f1, fuel = f1 + 1 := ⟨fuel - 1, by omega⟩
    simp only [hashBody, List.length_cons, List.length_append, Holds] at hw hc hfuel ⊢
    obtain ⟨hk, hka, hrest⟩ := hw
    obtain ⟨hwv, hwr⟩ := (Holds_append tags args _ _ (pos + 1)).1 hrest
    rw [hash_loop_key h args f1 _ _ pos _ k (deref_of_get tags pos _ hk) hka]
    simp only [TagPtr.next]
    rw [value_spec h f1 v (carried_cases h v (hv (k, v) (by simp))) (by omega) tags args (pos + 1)
      _ hwv]
    simp only [ok_bind]
    rw [lua_rawset_top _ _ _ _ (by rfl)]
    simp only [ok_bind]
    rw [ih _ f1 (fun kv' hkv' => hv kv' (by simp [hkv'])) (by omega) c hc0 hc1 hc2 tags args _ S
      hwr (by rw [← hc]; congr 1; omega)]
    simp only [storePairs]
    congr 2
    omega

/-- C8, amended. Where a key is expected and the tag is neither `s` nor the end-of-hash bracket
(nor the terminator), the loop of `parse_osc_hash` returns the empty string literal and leaves
the stack as it is: the table is not emptied. With any table `t0` in the slot of the hash and
any further pairs in front of the offending tag whose values are nil, booleans, floats, strings
or regular arrays of these, the table left behind is `t0` with all those pairs stored, and for
`parse_osc_hash` itself, which starts from the empty table, it is the table of exactly the
pairs decoded before the offending tag. -/
theorem parse_osc_hash_malformed_keeps_pairs (h : Host) (pairs : List (String × LuaValue))
    (hv : ∀ kv ∈ pairs, carried h kv.2 = true) (c : Char) (hc0 : c ≠ NUL)
    (hc1 : c ≠ STRING_TYPE_TAG) (hc2 : c ≠ HASH_END_TYPE_TAG) (tags : List Char)
    (args : List ArgData) (pos : Nat) (S : LuaState)
    (hw : Holds tags args pos (hashBody h pairs))
    (hc : tags[pos + (hashBody h pairs).length]? = some c) (fuel : Nat)
    (hfuel : 2 * (hashBody h pairs).length + 2 ≤ fuel) :
    (∀ t0 : LuaTable,
        parse_osc_hash_loop h args (S.length + 1) fuel (.table t0 :: S) (.ptr tags pos) pos
          = .ok ⟨emptyLiteral, .table (storePairs pairs t0) :: S,
              pos + (hashBody h pairs).length⟩)
      ∧ parse_osc_hash h args fuel S (.ptr tags pos) pos
          = .ok ⟨emptyLiteral, .table (storePairs pairs []) :: S,
              pos + (hashBody h pairs).length⟩ := by
  constructor
  · intro t0
    exact hash_loop_pairs h pairs t0 fuel hv (by omega) c hc0 hc1 hc2 tags args pos S hw hc
  · obtain ⟨f1, rfl⟩ : ∃ f1, fuel = f1 + 1 := ⟨fuel - 1, by omega⟩
    rw [hash_unfold]
    exact hash_loop_pairs h pairs [] f1 hv (by omega) c hc0 hc1 hc2 tags args pos S hw hc

/-- Witness of C8: the hash body `s T s f` with the keys "a" and "b", followed by `i` where the
next key is expected. -/
theorem parse_osc_hash_malformed_keeps_pairs_witness :
    parse_osc_hash sampleHost [.str "a", .none, .str "b", .word32 7, .word32 0] 10 []
        (.ptr [STRING_TYPE_TAG, TRUE_TYPE_TAG, STRING_TYPE_TAG, FLOAT_TYPE_TAG, INT32_TYPE_TAG] 0) 0
      = .ok ⟨emptyLiteral,
          [.table [(.string "a", .boolean true), (.string "b", .number (.int 7))]], 4⟩ :=
  ((parse_osc_hash_malformed_keeps_pairs sampleHost
    [("a", .boolean true), ("b", .number (.int 7))] (by decide) INT32_TYPE_TAG
    (by decide) (by decide) (by decide)
    [STRING_TYPE_TAG, TRUE_TYPE_TAG, STRING_TYPE_TAG, FLOAT_TYPE_TAG, INT32_TYPE_TAG]
    [.str "a", .none, .str "b", .word32 7, .word32 0] 0 []
    ⟨rfl, rfl, rfl, rfl, rfl, rfl, rfl, rfl, trivial⟩ rfl 10 (by decide)).2).trans rfl

/-- C8 as stated fails: for the hash body `s f i`, with the key "k" and the float 7 in front
of the offending `i`, `parse_osc_hash` returns the empty string literal and a table that holds
the pair decoded before, not an empty table. -/
theorem malformed_hash_keeps_decoded_pair :
    parse_osc_hash sampleHost [.str "k", .word32 7, .word32 0] 10 []
        (.ptr [STRING_TYPE_TAG, FLOAT_TYPE_TAG, INT32_TYPE_TAG] 0) 0
        = .ok ⟨emptyLiteral, [.table [(.string "k", .number (.int 7))]], 2⟩
      ∧ [(LuaValue.string "k", LuaValue.number (.int 7))] ≠ [] :=
  ⟨rfl, by simp⟩

/-! ## Failing folds and the step budget of the encoder -/

theorem foldlM_fails {α : Type} (f : OutboundPacketStream → α → Except PackError OutboundPacketStream)
    (x : α) : ∀ (xs : List α), x ∈ xs → (∀ pk, ∃ e, f pk x = .error e) →
    ∀ pk, ∃ e, xs.foldlM f pk = .error e := by
  intro xs
  induction xs with
  | nil => intro hx; simp at hx
  | cons y ys ih =>
    intro hx hf pk
    rw [List.foldlM_cons]
    cases hy : f pk y with
    | error e => exact ⟨e, rfl⟩
    | ok pk1 =>
      simp only [ok_bind]
      rcases List.mem_cons.1 hx with rfl | hmem
      · obtain ⟨e, he⟩ := hf pk
        rw [he] at hy; cases hy
      · exact ih hmem hf pk1

theorem bind_fails {α β : Type} (a : Except PackError α) (k : α → Except PackError β)
    (hk : ∀ x, ∃ e, k x = .error e) : ∃ e, (a >>= k) = .error e := by
  cases a with
  | error e => exact ⟨e, rfl⟩
  | ok x => exact hk x

theorem put_ne_fuel (pk : OutboundPacketStream) (c : Char) (a : ArgData) :
    pk.put c a ≠ .error .outOfFuel := by
  rw [put_eq]
  unfold OutboundPacketStream.checked
  split <;> simp

theorem bind_ne_fuel {α β : Type} (a : Except PackError α) (k : α → Except PackError β)
    (ha : a ≠ .error .outOfFuel) (hk : ∀ x, k x ≠ .error .outOfFuel) :
    (a >>= k) ≠ .error .outOfFuel := by
  cases a with
  | error e =>
    intro hc
    change (Except.error e : Except PackError β) = .error .outOfFuel at hc
    injection hc with he
    exact ha (by rw [he])
  | ok x => exact hk x

theorem foldlM_ne_fuel {α : Type}
    (f : OutboundPacketStream → α → Except PackError OutboundPacketStream) :
    ∀ (xs : List α), (∀ x ∈ xs, ∀ pk, f pk x ≠ .error .outOfFuel) →
    ∀ pk, xs.foldlM f pk ≠ .error .outOfFuel := by
  intro xs
  induction xs with
  | nil => intro _ pk; simp
  | cons y ys ih =>
    intro hf pk
    rw [List.foldlM_cons]
    exact bind_ne_fuel _ _ (hf y (by simp) pk)
      (fun pk1 => ih (fun x hx => hf x (by simp [hx])) pk1)

theorem slot_bounds (L : LuaState) (i : Int) (v : LuaValue) (hs : slot L i = some v) :
    1 ≤ i ∧ i ≤ (L.length : Int) := by
  unfold slot at hs
  split at hs
  · unfold index2adr at hs
    split at hs
    · omega
    · cases hs
  · cases hs

theorem resolve_below (v k : LuaValue) (L : LuaState) :
    resolveIndex (v :: k :: L) (-2) = ((L.length + 1 : Nat) : Int) := by
  simp only [resolveIndex, lua_gettop, List.length_cons]
  rw [if_pos (by omega)]
  omega

theorem resolve_top2 (v k : LuaValue) (L : LuaState) :
    resolveIndex (v :: k :: L) (-1) = ((L.length + 2 : Nat) : Int) := by
  simp only [resolveIndex, lua_gettop, List.length_cons]
  rw [if_pos (by omega)]
  omega

/-- The step budget of `pack_lua` is never used up when it covers the distance from the index
of the value to `MAX_DEPTH`: the guard of `pack_table` stops the descent first. -/
theorem pack_lua_ne_fuel (h : Host) : ∀ (fuel : Nat) (L : LuaState) (pk : OutboundPacketStream)
    (idx : Int), (MAX_DEPTH : Int) + 1 ≤ resolveIndex L idx + fuel →
    pack_lua h (fuel + 1) L pk idx ≠ .error .outOfFuel := by
  intro fuel
  induction fuel with
  | zero =>
    intro L pk idx hb
    cases hs : slot L (resolveIndex L idx) with
    | none => simp [pack_lua, lua_type, hs]
    | some v =>
      cases v with
      | nil => rw [pack_lua_nil h _ L pk idx hs]; exact put_ne_fuel _ _ _
      | boolean b => rw [pack_lua_boolean h _ L pk idx b hs]; exact put_ne_fuel _ _ _
      | number x => rw [pack_lua_number h _ L pk idx x hs]; exact put_ne_fuel _ _ _
      | string s => rw [pack_lua_string h _ L pk idx s hs]; exact put_ne_fuel _ _ _
      | table t =>
        rw [pack_lua_table h _ L pk idx t hs]
        have hgt : resolveIndex L idx > (MAX_DEPTH : Int) := by omega
        simp [pack_table, hgt]
      | function id => rw [pack_lua_function h _ L pk idx id hs]; simp
      | userdata id => rw [pack_lua_userdata h _ L pk idx id hs]; simp
      | thread id => rw [pack_lua_thread h _ L pk idx id hs]; simp
      | lightuserdata id => rw [pack_lua_lightuserdata h _ L pk idx id hs]; simp
  | succ f ih =>
    intro L pk idx hb
    cases hs : slot L (resolveIndex L idx) with
    | none => simp [pack_lua, lua_type, hs]
    | some v =>
      cases v with
      | nil => rw [pack_lua_nil h _ L pk idx hs]; exact put_ne_fuel _ _ _
      | boolean b => rw [pack_lua_boolean h _ L pk idx b hs]; exact put_ne_fuel _ _ _
      | number x => rw [pack_lua_number h _ L pk idx x hs]; exact put_ne_fuel _ _ _
      | string s => rw [pack_lua_string h _ L pk idx s hs]; exact put_ne_fuel _ _ _
      | table t =>
        rw [pack_lua_table h _ L pk idx t hs]
        obtain ⟨hlo, hhi⟩ := slot_bounds L _ _ hs
        unfold pack_table
        split
        · simp
        · simp only []
          split
          · unfold pack_array
            refine bind_ne_fuel _ _ (put_ne_fuel _ _ _) (fun pk1 => ?_)
            refine bind_ne_fuel _ _ ?_ (fun pk2 => put_ne_fuel _ _ _)
            apply foldlM_ne_fuel
            intro i _ pk3
            apply ih
            unfold lua_rawgeti
            rw [resolve_top]
            push_cast
            push_cast at hb
            omega
          · unfold pack_hash
            refine bind_ne_fuel _ _ (put_ne_fuel _ _ _) (fun pk1 => ?_)
            refine bind_ne_fuel _ _ ?_ (fun pk2 => put_ne_fuel _ _ _)
            apply foldlM_ne_fuel
            intro kv _ pk3
            refine bind_ne_fuel _ _ ?_ (fun pk4 => ?_)
            · apply ih
              rw [resolve_below]
              push_cast
              push_cast at hb
              omega
            · apply ih
              rw [resolve_top2]
              push_cast
              push_cast at hb
              omega
      | function id => rw [pack_lua_function h _ L pk idx id hs]; simp
      | userdata id => rw [pack_lua_userdata h _ L pk idx id hs]; simp
      | thread id => rw [pack_lua_thread h _ L pk idx id hs]; simp
      | lightuserdata id => rw [pack_lua_lightuserdata h _ L pk idx id hs]; simp

/-- The function `osc::pack` never uses up the step budget it gives `pack_lua`. -/
theorem pack_ne_fuel (h : Host) (L : LuaState) : pack h L ≠ .error .outOfFuel := by
  unfold pack
  refine bind_ne_fuel _ _ ?_ (fun url => ?_)
  · unfold luaL_checkstring
    split <;> simp
  refine bind_ne_fuel _ _ ?_ (fun pk0 => ?_)
  · unfold OutboundPacketStream.BeginMessage OutboundPacketStream.checked
    split <;> simp
  refine bind_ne_fuel _ _ ?_ (fun pk1 => by simp)
  apply foldlM_ne_fuel
  intro i hi pk
  apply pack_lua_ne_fuel
  rw [resolve_nat]
  simp only [List.mem_range'_1] at hi
  simp only [MAX_DEPTH]
  omega

/-! ## Values of an unsupported kind -/

theorem error_bind_fails {α β : Type} (a : Except PackError α) (k : α → Except PackError β)
    (ha : ∃ e, a = .error e) : ∃ e, (a >>= k) = .error e := by
  obtain ⟨e, rfl⟩ := ha
  exact ⟨e, rfl⟩

theorem pack_table_too_large (h : Host) (f : Packer) (L : LuaState) (pk : OutboundPacketStream)
    (index : Int) (hgt : (MAX_DEPTH : Int) < index) :
    pack_table h f L pk index = .error .tooLarge := by
  simp [pack_table, hgt]

theorem depth_guard_before_function (h : Host) (hreg : h.RegularLength) (fuel : Nat)
    (rest : List LuaValue) (hrest : rest.length = 9998) :
    (List.range' 2 (seqTable [seqTable [.function 0]] :: rest).length).foldlM
        (fun pk i => pack_lua h (fuel + 1 + 1)
          (stackOf (.string "/a" :: seqTable [seqTable [.function 0]] :: rest)) pk (i : Nat))
        ⟨MAX_BUFF_SIZE, "/a", [], []⟩
      = .error .tooLarge := by
  have hlen : (stackOf (.string "/a" :: seqTable [seqTable [.function 0]] :: rest)).length
      = 10000 := by
    simp [stackOf, hrest]
  have hslot : slot (stackOf (.string "/a" :: seqTable [seqTable [.function 0]] :: rest))
      (resolveIndex (stackOf (.string "/a" :: seqTable [seqTable [.function 0]] :: rest))
        ((1 + 1 : Nat) : Int))
      = some (seqTable [seqTable [.function 0]]) := by
    rw [slot_stackOf _ 1 (by simp)]
    simp
  have hstep : pack_lua h (fuel + 1 + 1)
      (stackOf (.string "/a" :: seqTable [seqTable [.function 0]] :: rest))
      ⟨MAX_BUFF_SIZE, "/a", [], []⟩ ((1 + 1 : Nat) : Int) = .error .tooLarge := by
    rw [pack_lua_table h _ _ _ _ _ hslot]
    rw [pack_table_regular h hreg _ _ _ _ [seqTable [.function 0]]
      (by decide) (by simp) hslot (by rw [resolve_nat]; decide)]
    have hba : (OutboundPacketStream.mk MAX_BUFF_SIZE "/a" [] []).BeginArray
        = .ok ⟨MAX_BUFF_SIZE, "/a", [ARRAY_BEGIN_TYPE_TAG], [.none]⟩ := rfl
    rw [hba]
    simp only [ok_bind, List.foldlM_cons, List.foldlM_nil]
    rw [pack_lua_table h fuel (seqTable [.function 0] ::
        stackOf (.string "/a" :: seqTable [seqTable [.function 0]] :: rest)) _ (-1)
      (seqEntries [.function 0]) (slot_top _ _)]
    rw [pack_table_too_large _ _ _ _ _ (by rw [resolve_top, hlen]; decide)]
    rfl
  simp only [List.length_cons, List.range'_succ, List.foldlM_cons]
  rw [hstep]
  rfl

/-! ## Deep nesting -/

theorem chainStream_size (t : Nat) : (chainStream t).Size = 4 + roundUp4 (t + 2) := by
  have h1 : roundUp4 ("/a".length + 1) = 4 := by decide
  simp [chainStream, OutboundPacketStream.Size, h1, ArgData.size]

theorem chainStream_begin (t : Nat) :
    (chainStream t).BeginArray
      = if t + 1 ≤ 8190 then .ok (chainStream (t + 1)) else .error .outOfBuffer := by
  have e : (chainStream t).extend [(ARRAY_BEGIN_TYPE_TAG, .none)] = chainStream (t + 1) := by
    simp [chainStream, OutboundPacketStream.extend, List.replicate_succ']
  unfold OutboundPacketStream.BeginArray
  rw [put_eq, e]
  unfold OutboundPacketStream.checked
  rw [chainStream_size]
  have hc : (chainStream (t + 1)).capacity = 8196 := rfl
  rw [hc]
  unfold roundUp4
  by_cases ht : t + 1 ≤ 8190
  · rw [if_pos ht, if_pos (by omega)]
  · rw [if_neg ht, if_neg (by omega)]

theorem nestedSeq_isNil (n : Nat) : (nestedSeq n).isNil = false := by
  cases n <;> rfl

/-- On a stack that grants every push: a chain of nested arrays that is long enough fills the
buffer before its depth reaches `MAX_DEPTH`, as every level writes one begin-array bracket. -/
theorem chain_overflow (h : Host) (hreg : h.RegularLength) : ∀ (n t fuel : Nat) (L : LuaState)
    (idx : Int), slot L (resolveIndex L idx) = some (nestedSeq n) → t ≤ 8190 → 8190 ≤ t + n →
    L.length + (8190 - t) ≤ 10000 → 8190 - t + 1 ≤ fuel →
    pack_lua h fuel L (chainStream t) idx = .error .outOfBuffer := by
  intro n
  induction n with
  | zero =>
    intro t fuel L idx hs ht hn hL hfuel
    obtain ⟨f1, rfl⟩ : ∃ f1, fuel = f1 + 1 := ⟨fuel - 1, by omega⟩
    obtain ⟨_, hhi⟩ := slot_bounds L _ _ hs
    rw [pack_lua_table h f1 L _ idx (seqEntries [.boolean true]) hs]
    rw [pack_table_regular h hreg _ L _ _ [.boolean true] (by decide) (by simp) hs
      (by simp only [MAX_DEPTH]; omega)]
    rw [chainStream_begin, if_neg (by omega)]
    rfl
  | succ n ih =>
    intro t fuel L idx hs ht hn hL hfuel
    obtain ⟨f1, rfl⟩ : ∃ f1, fuel = f1 + 1 := ⟨fuel - 1, by omega⟩
    obtain ⟨_, hhi⟩ := slot_bounds L _ _ hs
    have hnn : (nestedSeq n).isNil = false := nestedSeq_isNil n
    rw [pack_lua_table h f1 L _ idx (seqEntries [nestedSeq n]) hs]
    rw [pack_table_regular h hreg _ L _ _ [nestedSeq n] (by simpa using hnn) (by simp) hs
      (by simp only [MAX_DEPTH]; omega)]
    rw [chainStream_begin]
    by_cases ht1 : t + 1 ≤ 8190
    · rw [if_pos ht1]
      simp only [ok_bind, List.foldlM_cons, List.foldlM_nil]
      rw [ih (t + 1) f1 (nestedSeq n :: L) (-1) (slot_top _ _) ht1 (by omega)
        (by simp only [List.length_cons]; omega) (by omega)]
      rfl
    · rw [if_neg ht1]
      rfl

theorem pack_one_fails (h : Host) (url : String) (v : LuaValue) (pk0 : OutboundPacketStream)
    (e : PackError) (hb : OutboundPacketStream.BeginMessage MAX_BUFF_SIZE url = .ok pk0)
    (hstep : pack_lua h (MAX_DEPTH + 1) (stackOf [.string url, v]) pk0 ((2 : Nat) : Int)
      = .error e) :
    pack h (stackOf [.string url, v]) = .error e := by
  rw [pack_unfold, hb]
  simp only [ok_bind, List.length_cons, List.length_nil, List.range'_succ, List.range'_zero,
    List.foldlM_cons, List.foldlM_nil]
  rw [hstep]
  rfl

/-- On a stack that grants every push, the call with the url `/a` and the chain of 10001 nested
arrays ends in the buffer error of the stream, at the 8191st begin-array bracket, and not in the
too-large error: the walk has pushed 8190 slots by then, none of them with `lua_checkstack`. -/
theorem chain_fills_buffer :
    pack sampleHost (stackOf [.string "/a", nestedSeq MAX_DEPTH]) = .error .outOfBuffer := by
  have hslot : slot (stackOf [.string "/a", nestedSeq MAX_DEPTH])
      (resolveIndex (stackOf [.string "/a", nestedSeq MAX_DEPTH]) ((2 : Nat) : Int))
      = some (nestedSeq MAX_DEPTH) := by
    have h1 := slot_stackOf [.string "/a", nestedSeq MAX_DEPTH] 1 (by simp)
    simpa using h1
  exact pack_one_fails sampleHost "/a" (nestedSeq MAX_DEPTH) (chainStream 0) .outOfBuffer rfl
    (chain_overflow sampleHost sampleHost_regular MAX_DEPTH 0 _ _ _ hslot (by omega)
      (by simp only [MAX_DEPTH]; omega) (by simp [stackOf]) (by simp only [MAX_DEPTH]; omega))

/-! ## The branches of `parse_osc_value` -/

theorem pv_cases (h : Host) (args : List ArgData) (fuel : Nat) (L : LuaState) (p : TagPtr)
    (arg : Nat) (r : Parsed) (hr : parse_osc_value h args (fuel + 1) L p arg = .ok r) :
    (r.type_tags = p.next ∧ r.arg = arg + 1 ∧ ((∃ v, r.L = v :: L) ∨ r.L = L))
      ∨ ((p.deref = .ok ARRAY_END_TYPE_TAG ∨ p.deref = .ok HASH_END_TYPE_TAG) ∧ r = ⟨p, L, arg⟩)
      ∨ (p.deref = .ok ARRAY_BEGIN_TYPE_TAG
          ∧ ∃ r1, parse_osc_array_table h args fuel L p.next (arg + 1) = .ok r1
            ∧ r = ⟨r1.type_tags.next, r1.L, r1.arg + 1⟩)
      ∨ (p.deref = .ok HASH_BEGIN_TYPE_TAG
          ∧ ∃ r1, parse_osc_hash h args fuel L p.next (arg + 1) = .ok r1
            ∧ r = ⟨r1.type_tags.next, r1.L, r1.arg + 1⟩) := by
  simp only [parse_osc_value] at hr
  obtain ⟨c, hd, hr⟩ := bind_eq_ok _ _ _ hr
  by_cases h1 : c = TRUE_TYPE_TAG
  · rw [if_pos h1] at hr; injection hr with hr; subst hr
    exact Or.inl ⟨rfl, rfl, Or.inl ⟨_, rfl⟩⟩
  rw [if_neg h1] at hr
  by_cases h2 : c = FALSE_TYPE_TAG
  · rw [if_pos h2] at hr; injection hr with hr; subst hr
    exact Or.inl ⟨rfl, rfl, Or.inl ⟨_, rfl⟩⟩
  rw [if_neg h2] at hr
  by_cases h3 : c = NIL_TYPE_TAG
  · rw [if_pos h3] at hr; injection hr with hr; subst hr
    exact Or.inl ⟨rfl, rfl, Or.inl ⟨_, rfl⟩⟩
  rw [if_neg h3] at hr
  by_cases h4 : c = ARRAY_BEGIN_TYPE_TAG
  · rw [if_pos h4] at hr
    obtain ⟨r1, hr1, hr⟩ := bind_eq_ok _ _ _ hr
    injection hr with hr; subst hr
    exact Or.inr (Or.inr (Or.inl ⟨h4 ▸ hd, r1, hr1, rfl⟩))
  rw [if_neg h4] at hr
  by_cases h5 : c = ARRAY_END_TYPE_TAG
  · rw [if_pos h5] at hr; injection hr with hr; subst hr
    exact Or.inr (Or.inl ⟨Or.inl (h5 ▸ hd), rfl⟩)
  rw [if_neg h5] at hr
  by_cases h6 : c = HASH_BEGIN_TYPE_TAG
  · rw [if_pos h6] at hr
    obtain ⟨r1, hr1, hr⟩ := bind_eq_ok _ _ _ hr
    injection hr with hr; subst hr
    exact Or.inr (Or.inr (Or.inr ⟨h6 ▸ hd, r1, hr1, rfl⟩))
  rw [if_neg h6] at hr
  by_cases h7 : c = HASH_END_TYPE_TAG
  · rw [if_pos h7] at hr; injection hr with hr; subst hr
    exact Or.inr (Or.inl ⟨Or.inr (h7 ▸ hd), rfl⟩)
  rw [if_neg h7] at hr
  by_cases h8 : c = INT32_TYPE_TAG
  · rw [if_pos h8] at hr
    obtain ⟨v, _, hr⟩ := bind_eq_ok _ _ _ hr
    injection hr with hr; subst hr
    exact Or.inl ⟨rfl, rfl, Or.inl ⟨_, rfl⟩⟩
  rw [if_neg h8] at hr
  by_cases h9 : c = FLOAT_TYPE_TAG
  · rw [if_pos h9] at hr
    obtain ⟨v, _, hr⟩ := bind_eq_ok _ _ _ hr
    injection hr with hr; subst hr
    exact Or.inl ⟨rfl, rfl, Or.inl ⟨_, rfl⟩⟩
  rw [if_neg h9] at hr
  by_cases h10 : c = CHAR_TYPE_TAG
  · rw [if_pos h10] at hr
    obtain ⟨v, _, hr⟩ := bind_eq_ok _ _ _ hr
    injection hr with hr; subst hr
    exact Or.inl ⟨rfl, rfl, Or.inl ⟨_, rfl⟩⟩
  rw [if_neg h10] at hr
  by_cases h11 : c = DOUBLE_TYPE_TAG
  · rw [if_pos h11] at hr
    obtain ⟨v, _, hr⟩ := bind_eq_ok _ _ _ hr
    injection hr with hr; subst hr
    exact Or.inl ⟨rfl, rfl, Or.inl ⟨_, rfl⟩⟩
  rw [if_neg h11] at hr
  by_cases h12 : c = STRING_TYPE_TAG
  · rw [if_pos h12] at hr
    obtain ⟨v, _, hr⟩ := bind_eq_ok _ _ _ hr
    injection hr with hr; subst hr
    exact Or.inl ⟨rfl, rfl, Or.inl ⟨_, rfl⟩⟩
  rw [if_neg h12] at hr
  by_cases h13 : c = MIDI_MESSAGE_TYPE_TAG
  · rw [if_pos h13] at hr
    obtain ⟨m, _, hr⟩ := bind_eq_ok _ _ _ hr
    simp only [lua_newtable, lua_pushnumber, lua_gettop, List.length_cons] at hr
    rw [lua_rawseti_top] at hr
    simp only [ok_bind] at hr
    rw [lua_rawseti_top] at hr
    simp only [ok_bind] at hr
    rw [lua_rawseti_top] at hr
    simp only [ok_bind, pure_eq_ok] at hr
    injection hr with hr; subst hr
    exact Or.inl ⟨rfl, rfl, Or.inl ⟨_, rfl⟩⟩
  rw [if_neg h13] at hr
  injection hr with hr; subst hr
  exact Or.inl ⟨rfl, rfl, Or.inr rfl⟩

theorem pv_runs (h : Host) (args : List ArgData) (fuel : Nat) (L : LuaState) (p : TagPtr)
    (arg : Nat) (c : Char) (hd : p.deref = .ok c) (hc : c ∈ nonStructuralTags)
    (hfit : slotFits c args[arg]? = true) :
    ∃ L1, parse_osc_value h args (fuel + 1) L p arg = .ok ⟨p.next, L1, arg + 1⟩ := by
  simp only [nonStructuralTags, List.mem_cons, List.mem_singleton, List.not_mem_nil, or_false] at hc
  rcases hc with rfl | rfl | rfl | rfl | rfl | rfl | rfl | rfl | rfl | rfl | rfl | rfl | rfl
  · exact ⟨_, pv_true h args fuel L p arg hd⟩
  · exact ⟨_, pv_false h args fuel L p arg hd⟩
  · exact ⟨_, pv_nil h args fuel L p arg hd⟩
  · cases ha : args[arg]? with
    | none => rw [ha] at hfit; simp [slotFits, INT32_TYPE_TAG, FLOAT_TYPE_TAG, CHAR_TYPE_TAG, DOUBLE_TYPE_TAG, STRING_TYPE_TAG] at hfit
    | some a =>
      cases a with
      | word32 w =>
        refine ⟨.number (.int (if w % 2 ^ 32 < 2 ^ 31 then ((w % 2 ^ 32 : Nat) : Int)
          else ((w % 2 ^ 32 : Nat) : Int) - 2 ^ 32)) :: L, ?_⟩
        simp [parse_osc_value, hd, FALSE_TYPE_TAG, TRUE_TYPE_TAG, NIL_TYPE_TAG,
          ARRAY_BEGIN_TYPE_TAG, ARRAY_END_TYPE_TAG, HASH_BEGIN_TYPE_TAG, HASH_END_TYPE_TAG,
          INT32_TYPE_TAG, AsInt32Unchecked, argAt, ha, lua_pushnumber]
      | _ => rw [ha] at hfit; simp [slotFits, INT32_TYPE_TAG, FLOAT_TYPE_TAG, CHAR_TYPE_TAG, DOUBLE_TYPE_TAG, STRING_TYPE_TAG] at hfit
  · cases ha : args[arg]? with
    | none => rw [ha] at hfit; simp [slotFits, INT32_TYPE_TAG, FLOAT_TYPE_TAG, CHAR_TYPE_TAG, DOUBLE_TYPE_TAG, STRING_TYPE_TAG] at hfit
    | some a =>
      cases a with
      | word32 w => exact ⟨_, pv_float h args fuel L p arg w hd ha⟩
      | _ => rw [ha] at hfit; simp [slotFits, INT32_TYPE_TAG, FLOAT_TYPE_TAG, CHAR_TYPE_TAG, DOUBLE_TYPE_TAG, STRING_TYPE_TAG] at hfit
  · cases ha : args[arg]? with
    | none => rw [ha] at hfit; simp [slotFits, INT32_TYPE_TAG, FLOAT_TYPE_TAG, CHAR_TYPE_TAG, DOUBLE_TYPE_TAG, STRING_TYPE_TAG] at hfit
    | some a =>
      cases a with
      | word32 w =>
        refine ⟨.number (.int (if h.charSigned && decide (128 ≤ w % 256)
          then ((w % 256 : Nat) : Int) - 256 else ((w % 256 : Nat) : Int))) :: L, ?_⟩
        simp [parse_osc_value, hd, FALSE_TYPE_TAG, TRUE_TYPE_TAG, NIL_TYPE_TAG,
          ARRAY_BEGIN_TYPE_TAG, ARRAY_END_TYPE_TAG, HASH_BEGIN_TYPE_TAG, HASH_END_TYPE_TAG,
          INT32_TYPE_TAG, FLOAT_TYPE_TAG, CHAR_TYPE_TAG, AsCharUnchecked, argAt, ha,
          lua_pushnumber]
      | _ => rw [ha] at hfit; simp [slotFits, INT32_TYPE_TAG, FLOAT_TYPE_TAG, CHAR_TYPE_TAG, DOUBLE_TYPE_TAG, STRING_TYPE_TAG] at hfit
  · cases ha : args[arg]? with
    | none => rw [ha] at hfit; simp [slotFits, INT32_TYPE_TAG, FLOAT_TYPE_TAG, CHAR_TYPE_TAG, DOUBLE_TYPE_TAG, STRING_TYPE_TAG] at hfit
    | some a =>
      cases a with
      | word64 w =>
        refine ⟨.number (h.ofFloat64 w) :: L, ?_⟩
        simp [parse_osc_value, hd, FALSE_TYPE_TAG, TRUE_TYPE_TAG, NIL_TYPE_TAG,
          ARRAY_BEGIN_TYPE_TAG, ARRAY_END_TYPE_TAG, HASH_BEGIN_TYPE_TAG, HASH_END_TYPE_TAG,
          INT32_TYPE_TAG, FLOAT_TYPE_TAG, CHAR_TYPE_TAG, DOUBLE_TYPE_TAG, AsDoubleUnchecked,
          argAt, ha, lua_pushnumber]
      | _ => rw [ha] at hfit; simp [slotFits, INT32_TYPE_TAG, FLOAT_TYPE_TAG, CHAR_TYPE_TAG, DOUBLE_TYPE_TAG, STRING_TYPE_TAG] at hfit
  · cases ha : args[arg]? with
    | none => rw [ha] at hfit; simp [slotFits, INT32_TYPE_TAG, FLOAT_TYPE_TAG, CHAR_TYPE_TAG, DOUBLE_TYPE_TAG, STRING_TYPE_TAG] at hfit
    | some a =>
      cases a with
      | str s => exact ⟨_, pv_string h args fuel L p arg s hd ha⟩
      | _ => rw [ha] at hfit; simp [slotFits, INT32_TYPE_TAG, FLOAT_TYPE_TAG, CHAR_TYPE_TAG, DOUBLE_TYPE_TAG, STRING_TYPE_TAG] at hfit
  · exact ⟨_, pv_skip h args fuel L p arg _ hd (by decide)⟩
  · exact ⟨_, pv_skip h args fuel L p arg _ hd (by decide)⟩
  · exact ⟨_, pv_skip h args fuel L p arg _ hd (by decide)⟩
  · exact ⟨_, pv_skip h args fuel L p arg _ hd (by decide)⟩
  · exact ⟨_, pv_skip h args fuel L p arg _ hd (by decide)⟩

theorem nonStructural_not_bracket (c : Char) (hc : c ∈ nonStructuralTags) :
    c ≠ ARRAY_BEGIN_TYPE_TAG ∧ c ≠ ARRAY_END_TYPE_TAG ∧ c ≠ HASH_BEGIN_TYPE_TAG
      ∧ c ≠ HASH_END_TYPE_TAG := by
  simp only [nonStructuralTags, List.mem_cons, List.mem_singleton, List.not_mem_nil, or_false] at hc
  rcases hc with rfl | rfl | rfl | rfl | rfl | rfl | rfl | rfl | rfl | rfl | rfl | rfl | rfl <;>
    decide

/-- C12. For every non-structural tag, `T`, `F`, `N`, `i`, `f`, `c`, `d`, `s` and the
recognised-but-undecoded `r`, `h`, `t`, `S`, `b`: whenever `parse_osc_value` returns, it returns
the tag cursor advanced by exactly one character and the argument iterator advanced by exactly
one position, with at most one value pushed; and it does return, with any positive step budget,
when the argument slot holds what the accessor of the tag reads. -/
theorem parse_osc_value_steps_one (h : Host) (args : List ArgData) (fuel : Nat) (L : LuaState)
    (p : TagPtr) (arg : Nat) (c : Char) (hd : p.deref = .ok c) (hc : c ∈ nonStructuralTags) :
    (∀ r, parse_osc_value h args (fuel + 1) L p arg = .ok r →
        r.type_tags = p.next ∧ r.arg = arg + 1 ∧ ((∃ v, r.L = v :: L) ∨ r.L = L))
      ∧ (slotFits c args[arg]? = true →
          ∃ L1, parse_osc_value h args (fuel + 1) L p arg = .ok ⟨p.next, L1, arg + 1⟩) := by
  refine ⟨fun r hr => ?_, pv_runs h args fuel L p arg c hd hc⟩
  obtain ⟨n1, n2, n3, n4⟩ := nonStructural_not_bracket c hc
  rcases pv_cases h args fuel L p arg r hr with h1 | ⟨h2 | h2, _⟩ | ⟨h3, _⟩ | ⟨h4, _⟩
  · exact h1
  · rw [hd] at h2; injection h2 with h2; exact absurd h2 n2
  · rw [hd] at h2; injection h2 with h2; exact absurd h2 n4
  · rw [hd] at h3; injection h3 with h3; exact absurd h3 n1
  · rw [hd] at h4; injection h4 with h4; exact absurd h4 n3

/-- Witness of C12: on the tags `iT` with the integer 5 in the first slot, the tag `i` is stepped
over by one character and one argument. -/
theorem parse_osc_value_steps_one_witness :
    (TagPtr.ptr ['i', 'T'] 0).deref = .ok 'i' ∧ 'i' ∈ nonStructuralTags
      ∧ ((∀ r, parse_osc_value sampleHost [.word32 5, .none] 1 [] (.ptr ['i', 'T'] 0) 0 = .ok r →
            r.type_tags = (TagPtr.ptr ['i', 'T'] 0).next ∧ r.arg = 0 + 1
              ∧ ((∃ v, r.L = v :: []) ∨ r.L = []))
        ∧ (slotFits 'i' [ArgData.word32 5, .none][0]? = true →
            ∃ L1, parse_osc_value sampleHost [.word32 5, .none] 1 [] (.ptr ['i', 'T'] 0) 0
              = .ok ⟨(TagPtr.ptr ['i', 'T'] 0).next, L1, 0 + 1⟩)) :=
  ⟨rfl, by decide,
    parse_osc_value_steps_one sampleHost [.word32 5, .none] 0 [] (.ptr ['i', 'T'] 0) 0 'i' rfl
      (by decide)⟩

/-! ## MIDI messages -/

theorem midi_bytes (b1 b2 b3 b4 : Nat) (h2 : b2 < 256) (h3 : b3 < 256)
    (h4 : b4 < 256) :
    ((midiWord b1 b2 b3 b4 % 2 ^ 32) >>> 16) &&& 0xFF = b2
      ∧ ((midiWord b1 b2 b3 b4 % 2 ^ 32) >>> 8) &&& 0xFF = b3
      ∧ (midiWord b1 b2 b3 b4 % 2 ^ 32) &&& 0xFF = b4 := by
  have e : (0xFF : Nat) = 2 ^ 8 - 1 := by norm_num
  rw [e, Nat.and_pow_two_sub_one_eq_mod, Nat.and_pow_two_sub_one_eq_mod,
    Nat.and_pow_two_sub_one_eq_mod, Nat.shiftRight_eq_div_pow, Nat.shiftRight_eq_div_pow]
  simp only [midiWord]
  norm_num
  omega

/-- C14, amended. For every MIDI-tagged argument with wire bytes `b1 b2 b3 b4`, read big-endian
into the 32-bit word the decoder receives, `parse_osc_value` pushes one table that is the sequence
of exactly the three byte values `b2`, `b3`, `b4` and steps over the tag and the argument: the
byte that is dropped is the first wire byte `b1`, the decoded value is the same for any two
arguments that differ only in `b1`, and the fourth byte `b4` is its third element. -/
theorem parse_osc_value_midi (h : Host) (args : List ArgData) (fuel : Nat) (L : LuaState)
    (p : TagPtr) (arg : Nat) (b1 b2 b3 b4 : Nat) (h2 : b2 < 256) (h3 : b3 < 256)
    (h4 : b4 < 256) (hd : p.deref = .ok MIDI_MESSAGE_TYPE_TAG)
    (ha : args[arg]? = some (.word32 (midiWord b1 b2 b3 b4))) :
    parse_osc_value h args (fuel + 1) L p arg
      = .ok ⟨p.next,
          seqTable [.number (.int b2), .number (.int b3), .number (.int b4)] :: L, arg + 1⟩ := by
  obtain ⟨e2, e3, e4⟩ := midi_bytes b1 b2 b3 b4 h2 h3 h4
  simp only [parse_osc_value, hd, ok_bind]
  simp only [if_true, AsMidiMessageUnchecked, argAt, List.get?_eq_getElem?, ha, ok_bind, pure_eq_ok,
    lua_newtable, lua_pushnumber, lua_gettop, List.length_cons]
  rw [e2, e3, e4, lua_rawseti_top]
  simp only [ok_bind]
  rw [lua_rawseti_top]
  simp only [ok_bind]
  rw [lua_rawseti_top]
  simp only [ok_bind]
  rfl

/-- Witness of C14: the bytes `01 90 3C 7F` decode to the sequence (0x90, 0x3C, 0x7F). -/
theorem parse_osc_value_midi_witness :
    144 < 256 ∧ 60 < 256 ∧ 127 < 256
      ∧ (TagPtr.ptr ['m'] 0).deref = .ok MIDI_MESSAGE_TYPE_TAG
      ∧ [ArgData.word32 (midiWord 1 144 60 127)][0]? = some (.word32 (midiWord 1 144 60 127))
      ∧ parse_osc_value sampleHost [.word32 (midiWord 1 144 60 127)] (0 + 1) [] (.ptr ['m'] 0) 0
        = .ok ⟨(TagPtr.ptr ['m'] 0).next,
            seqTable [.number (.int (144 : Nat)), .number (.int (60 : Nat)),
              .number (.int (127 : Nat))] :: [], 0 + 1⟩ :=
  ⟨by decide, by decide, by decide, rfl, rfl,
    parse_osc_value_midi sampleHost _ 0 [] (.ptr ['m'] 0) 0 1 144 60 127 (by decide) (by decide)
      (by decide) rfl rfl⟩

/-- C14 as stated fails: two MIDI arguments that differ only in the fourth wire byte, `01 02 03 04`
and `01 02 03 05`, decode to different sequences, (2, 3, 4) and (2, 3, 5); the byte that does not
show is the first one. -/
theorem midi_fourth_byte_is_kept :
    parse_osc_value sampleHost [.word32 (midiWord 1 2 3 4)] 1 [] (.ptr ['m'] 0) 0
        = .ok ⟨.ptr ['m'] 1,
            [seqTable [.number (.int 2), .number (.int 3), .number (.int 4)]], 1⟩
      ∧ parse_osc_value sampleHost [.word32 (midiWord 1 2 3 5)] 1 [] (.ptr ['m'] 0) 0
        = .ok ⟨.ptr ['m'] 1,
            [seqTable [.number (.int 2), .number (.int 3), .number (.int 5)]], 1⟩
      ∧ parse_osc_value sampleHost [.word32 (midiWord 1 2 3 4)] 1 [] (.ptr ['m'] 0) 0
        ≠ parse_osc_value sampleHost [.word32 (midiWord 1 2 3 5)] 1 [] (.ptr ['m'] 0) 0 := by
  have e1 : parse_osc_value sampleHost [.word32 (midiWord 1 2 3 4)] 1 [] (.ptr ['m'] 0) 0
      = .ok ⟨.ptr ['m'] 1,
          [seqTable [.number (.int 2), .number (.int 3), .number (.int 4)]], 1⟩ := rfl
  have e2 : parse_osc_value sampleHost [.word32 (midiWord 1 2 3 5)] 1 [] (.ptr ['m'] 0) 0
      = .ok ⟨.ptr ['m'] 1,
          [seqTable [.number (.int 2), .number (.int 3), .number (.int 5)]], 1⟩ := rfl
  refine ⟨e1, e2, ?_⟩
  rw [e1, e2]
  simp [seqTable, seqEntries, seqEntriesFrom]

/-! ## Unknown tags -/

/-- The counter `i` of the loop over the argument list has no part in what the loop decodes:
cursor, stack and iterator are the same for every start value of the counter. -/
theorem args_loop_counter (h : Host) (args : List ArgData) : ∀ (fuel : Nat) (L : LuaState)
    (p : TagPtr) (arg i j : Nat),
    (parse_osc_array_args h args fuel L p arg i).map Prod.fst
      = (parse_osc_array_args h args fuel L p arg j).map Prod.fst := by
  intro fuel
  induction fuel with
  | zero => intro L p arg i j; rfl
  | succ fuel ih =>
    intro L p arg i j
    cases hd : p.deref with
    | error e => simp [parse_osc_array_args, hd]
    | ok c =>
      by_cases hc : c = NUL
      · subst hc
        rw [args_loop_end h args fuel L p arg i hd, args_loop_end h args fuel L p arg j hd]
        rfl
      · rw [args_loop_step h args fuel L p arg i c hd hc,
          args_loop_step h args fuel L p arg j c hd hc]
        cases hv : parse_osc_value h args fuel L p arg with
        | error e => rfl
        | ok r =>
          simp only [ok_bind]
          cases hd2 : r.type_tags.deref with
          | error e => rfl
          | ok c2 =>
            simp only [ok_bind]
            by_cases hc2 : c2 = ARRAY_END_TYPE_TAG
            · rw [if_pos hc2, if_pos hc2]; rfl
            · rw [if_neg hc2, if_neg hc2]
              exact ih r.L r.type_tags r.arg (i + 1) (j + 1)

/-- C13, amended. An unknown tag character does not end its scope. When the loop over the
top-level argument list stands on a character that the `switch` of `parse_osc_value` does not
decode (an unknown character, or one of `r`, `h`, `t`, `S`, `b`), both cursors step over it and
the loop goes on with the tag that follows: cursor, stack and iterator at the end are those of
the loop started on that tag, so the tags that follow it in the scope are decoded. The counter
of the loop, which becomes the count of returned values, is left out of the statement. -/
theorem parse_osc_array_skips_unknown_tag (h : Host) (args : List ArgData) (fuel : Nat)
    (L : LuaState) (tags : List Char) (pos arg i j : Nat) (c : Char)
    (hc : tags[pos]? = some c) (hs : skippedTag c = true) (h0 : c ≠ NUL) :
    (parse_osc_array_args h args (fuel + 2) L (.ptr tags pos) arg i).map Prod.fst
      = if tags[pos + 1]? = some ARRAY_END_TYPE_TAG then
          .ok ⟨.ptr tags (pos + 1), L, arg + 1⟩
        else (parse_osc_array_args h args (fuel + 1) L (.ptr tags (pos + 1)) (arg + 1) j).map
          Prod.fst := by
  have hd := deref_of_get tags pos c hc
  rw [args_loop_step h args (fuel + 1) L _ arg i c hd h0,
    pv_skip h args fuel L _ arg c hd hs]
  simp only [ok_bind, TagPtr.next]
  cases hn : tags[pos + 1]? with
  | some c2 =>
    rw [deref_of_get tags (pos + 1) c2 hn]
    simp only [ok_bind, Option.some.injEq]
    by_cases hc2 : c2 = ARRAY_END_TYPE_TAG
    · rw [if_pos hc2, if_pos hc2]; rfl
    · rw [if_neg hc2, if_neg hc2]
      exact args_loop_counter h args _ _ _ _ _ _
  | none =>
    have hlt : pos < tags.length := by
      rcases Nat.lt_or_ge pos tags.length with hlt | hge
      · exact hlt
      · rw [List.getElem?_eq_none hge] at hc; cases hc
    have hge : tags.length ≤ pos + 1 := by
      rcases Nat.lt_or_ge (pos + 1) tags.length with hlt2 | hge
      · rw [List.getElem?_eq_getElem hlt2] at hn; cases hn
      · exact hge
    have e : pos + 1 = tags.length := by omega
    rw [e, deref_end]
    simp only [ok_bind]
    rw [if_neg (by decide), if_neg (by simp)]
    exact args_loop_counter h args _ _ _ _ _ _

/-- Witness of C13: on the tags `xT` the loop steps over the unknown `x` and goes on with `T`. -/
theorem parse_osc_array_skips_unknown_tag_witness :
    ['x', 'T'][0]? = some 'x' ∧ skippedTag 'x' = true ∧ 'x' ≠ NUL
      ∧ (parse_osc_array_args sampleHost [.none, .none] (1 + 2) [] (.ptr ['x', 'T'] 0) 0 0).map
          Prod.fst
        = if ['x', 'T'][0 + 1]? = some ARRAY_END_TYPE_TAG then
            .ok ⟨.ptr ['x', 'T'] (0 + 1), [], 0 + 1⟩
          else (parse_osc_array_args sampleHost [.none, .none] (1 + 1) []
            (.ptr ['x', 'T'] (0 + 1)) (0 + 1) 0).map Prod.fst :=
  ⟨rfl, by decide, by decide,
    parse_osc_array_skips_unknown_tag sampleHost [.none, .none] 1 [] ['x', 'T'] 0 0 0 0 'x' rfl
      (by decide) (by decide)⟩

/-- C13 as stated fails: in the message with the tags `xT`, whose first tag is an unknown
character, decoding does not stop at `x`; the tag `T` that follows it in the top-level argument
list is decoded, and the value true lies on the stack above the address. -/
theorem tag_after_unknown_tag_is_decoded :
    (unpack_packet sampleHost 3 [] (.message ⟨"/a", some ['x', 'T'], [.none, .none]⟩)).map
        Prod.snd
      = .ok [.boolean true, .string "/a"] := rfl

/-! ## Nested arrays without elements -/

theorem empty_nest_lost (h : Host) (args : List ArgData) (tags : List Char) :
    ∀ (n fuel : Nat) (L : LuaState) (pos arg : Nat),
      (∀ j, j ≤ n → tags[pos + j]? = some ARRAY_BEGIN_TYPE_TAG) →
      (∀ j, j ≤ n → tags[pos + n + 1 + j]? = some ARRAY_END_TYPE_TAG) →
      parse_osc_value h args (fuel + 3 * n + 4) L (.ptr tags pos) arg
        = .ok ⟨.ptr tags (pos + 2 * n + 2), L, arg + 2 * n + 2⟩ := by
  intro n
  induction n with
  | zero =>
    intro fuel L pos arg hb he
    have b0 := deref_of_get tags pos _ (by simpa using hb 0 (Nat.le_refl 0))
    have b1 := deref_of_get tags (pos + 1) _ (by simpa using he 0 (Nat.le_refl 0))
    rw [pv_array h args (fuel + 3) L _ arg b0]
    simp only [TagPtr.next]
    rw [array_table_ptr h args (fuel + 2),
      array_loop_step h args (fuel + 1) _ _ _ _ _ ARRAY_END_TYPE_TAG b1 (by decide),
      pv_array_end h args fuel _ _ _ b1]
    simp only [ok_bind]
    rw [lua_rawseti_self]
    simp only [ok_bind, b1, if_true, Except.map, TagPtr.next]
  | succ n ih =>
    intro fuel L pos arg hb he
    have b0 := deref_of_get tags pos _ (by simpa using hb 0 (Nat.zero_le _))
    have b1 := deref_of_get tags (pos + 1) _ (hb 1 (by omega))
    have hin := ih fuel (.table [] :: L) (pos + 1) (arg + 1)
      (fun j hj => by
        have := hb (j + 1) (by omega)
        rwa [show pos + (j + 1) = pos + 1 + j by omega] at this)
      (fun j hj => by
        have := he j (by omega)
        rwa [show pos + (n + 1) + 1 + j = pos + 1 + n + 1 + j by omega] at this)
    have bend := deref_of_get tags (pos + 1 + 2 * n + 2) _ (by
      have := he (n + 1) (by omega)
      rwa [show pos + (n + 1) + 1 + (n + 1) = pos + 1 + 2 * n + 2 by omega] at this)
    rw [show fuel + 3 * (n + 1) + 4 = (fuel + 3 * n + 6) + 1 by omega,
      pv_array h args (fuel + 3 * n + 6) L _ arg b0]
    simp only [TagPtr.next]
    rw [show fuel + 3 * n + 6 = (fuel + 3 * n + 5) + 1 by omega,
      array_table_ptr h args (fuel + 3 * n + 5),
      show fuel + 3 * n + 5 = (fuel + 3 * n + 4) + 1 by omega,
      array_loop_step h args (fuel + 3 * n + 4) _ _ _ _ _ ARRAY_BEGIN_TYPE_TAG b1 (by decide),
      hin]
    simp only [ok_bind]
    rw [lua_rawseti_self]
    simp only [ok_bind, bend, if_true, Except.map, TagPtr.next]
    rw [show pos + 1 + 2 * n + 2 + 1 = pos + 2 * (n + 1) + 2 by omega,
      show arg + 1 + 2 * n + 2 + 1 = arg + 2 * (n + 1) + 2 by omega]

theorem emptyNest_begin (n j : Nat) (hj : j ≤ n) :
    (emptyNest n)[0 + j]? = some ARRAY_BEGIN_TYPE_TAG := by
  unfold emptyNest
  rw [Nat.zero_add, List.getElem?_append_left (by simp; omega),
    List.getElem?_eq_getElem (by simp; omega)]
  simp

theorem emptyNest_end (n j : Nat) (hj : j ≤ n) :
    (emptyNest n)[0 + n + 1 + j]? = some ARRAY_END_TYPE_TAG := by
  unfold emptyNest
  rw [List.getElem?_append_right (by simp), List.getElem?_eq_getElem (by simp; omega)]
  simp

/-- C15. The balanced tag string of `n + 1` arrays nested in each other around nothing, `[]`
for `n = 0` and `[[]]` for `n = 1`: on any host, stack and argument list, with enough steps,
`parse_osc_value` runs over the whole string, both cursors end behind the last bracket, and the
stack is what it was before: no value is pushed for the outermost array, neither a sequence of
nesting depth `n + 1` nor any other. -/
theorem parse_osc_value_empty_arrays_push_nothing (h : Host) (args : List ArgData)
    (L : LuaState) (n fuel : Nat) :
    parse_osc_value h args (fuel + 3 * n + 4) L (.ptr (emptyNest n) 0) 0
      = .ok ⟨.ptr (emptyNest n) (2 * n + 2), L, 2 * n + 2⟩ := by
  have := empty_nest_lost h args (emptyNest n) n fuel L 0 0
    (fun j hj => emptyNest_begin n j hj) (fun j hj => emptyNest_end n j hj)
  simpa using this

/-! ## Lock-step of the two cursors -/

theorem LockStep_step (p : TagPtr) (arg : Nat) (r : Parsed) (L : LuaState)
    (h1 : LockStep p arg r) : LockStep p arg ⟨r.type_tags, L, r.arg⟩ := h1

theorem pack_eq_packInto (h : Host) (L : LuaState) : pack h L = packInto h MAX_BUFF_SIZE L := rfl

theorem faithful_put (c : Char) (a : ArgData) : Faithful (fun pk => pk.put c a) := by
  intro pk pk' hp
  have e := put_ok pk pk' c a hp
  subst e
  replace hp : pk.put c a = .ok (pk.extend [(c, a)]) := hp
  refine ⟨⟨_, rfl⟩, fun _ => ?_, fun cap _ => ?_⟩
  · rw [put_eq] at hp
    unfold OutboundPacketStream.checked at hp
    split at hp
    · assumption
    · cases hp
  · rfl

theorem faithful_error (e : PackError) : Faithful (fun _ => .error e) := by
  intro pk pk' hp
  cases hp

theorem faithful_pure : Faithful (fun pk => pure pk) := by
  intro pk pk' hp
  injection hp with hp
  subst hp
  refine ⟨⟨[], (extend_nil _).symm⟩, fun hfit => hfit, fun c hc => ?_⟩
  have : (pk.withCapacity c).Size = pk.Size := rfl
  rw [if_pos hc]
  rfl

theorem faithful_bind (f g : OutboundPacketStream → Except PackError OutboundPacketStream)
    (hf : Faithful f) (hg : Faithful g) : Faithful (fun pk => f pk >>= g) := by
  intro pk pk' hp
  obtain ⟨pk1, h1, h2⟩ := bind_eq_ok _ _ _ hp
  obtain ⟨⟨w1, e1⟩, fit1, cap1⟩ := hf pk pk1 h1
  obtain ⟨⟨w2, e2⟩, fit2, cap2⟩ := hg pk1 pk' h2
  refine ⟨⟨w1 ++ w2, by rw [e2, e1, extend_extend]⟩, fun hfit => fit2 (fit1 hfit),
    fun c hc => ?_⟩
  have hmono : pk1.Size ≤ pk'.Size := by rw [e2]; exact size_extend pk1 w2
  show (f (pk.withCapacity c) >>= g) = _
  rw [cap1 c hc]
  by_cases hc1 : pk1.Size ≤ c
  · rw [if_pos hc1]
    simp only [ok_bind]
    exact cap2 c hc1
  · rw [if_neg hc1, if_neg (by omega)]
    rfl

theorem faithful_fold {α : Type}
    (F : OutboundPacketStream → α → Except PackError OutboundPacketStream) :
    ∀ xs : List α, (∀ x ∈ xs, Faithful (fun pk => F pk x)) →
      Faithful (fun pk => xs.foldlM F pk) := by
  intro xs
  induction xs with
  | nil => intro _; exact faithful_pure
  | cons x xs ih =>
    intro hx
    have := faithful_bind (fun pk => F pk x) (fun pk => xs.foldlM F pk) (hx x (by simp))
      (ih (fun y hy => hx y (by simp [hy])))
    intro pk pk' hp
    replace hp : (x :: xs).foldlM F pk = .ok pk' := hp
    rw [List.foldlM_cons] at hp
    have h3 := this pk pk' hp
    refine ⟨h3.1, h3.2.1, fun c hc => ?_⟩
    show (x :: xs).foldlM F (pk.withCapacity c) = _
    rw [List.foldlM_cons]
    exact h3.2.2 c hc

theorem faithful_pack_lua (h : Host) : ∀ (fuel : Nat) (L : LuaState) (idx : Int),
    Faithful (fun pk => pack_lua h fuel L pk idx) := by
  intro fuel
  induction fuel with
  | zero => intro L idx; exact faithful_error _
  | succ fuel ih =>
    intro L idx
    cases hs : slot L (resolveIndex L idx) with
    | none =>
      have e : (fun pk => pack_lua h (fuel + 1) L pk idx)
          = (fun _ => .error (.cannotPack (lua_typename .LUA_TNONE))) := by
        funext pk; simp [pack_lua, lua_type, hs]
      rw [e]; exact faithful_error _
    | some v =>
      cases v with
      | nil =>
        rw [funext (fun pk => pack_lua_nil h fuel L pk idx hs)]
        exact faithful_put _ _
      | boolean b =>
        rw [funext (fun pk => pack_lua_boolean h fuel L pk idx b hs)]
        exact faithful_put _ _
      | number x =>
        rw [funext (fun pk => pack_lua_number h fuel L pk idx x hs)]
        exact faithful_put _ _
      | string s =>
        rw [funext (fun pk => pack_lua_string h fuel L pk idx s hs)]
        exact faithful_put _ _
      | table t =>
        rw [funext (fun pk => pack_lua_table h fuel L pk idx t hs)]
        unfold pack_table
        split
        · exact faithful_error _
        · simp only []
          split
          · unfold pack_array
            refine faithful_bind _ _ (faithful_put _ _) (faithful_bind _ _ ?_ (faithful_put _ _))
            exact faithful_fold _ _ (fun i _ => ih _ _)
          · unfold pack_hash
            refine faithful_bind _ _ (faithful_put _ _) (faithful_bind _ _ ?_ (faithful_put _ _))
            exact faithful_fold _ _ (fun kv _ => faithful_bind _ _ (ih _ _) (ih _ _))
      | function id =>
        rw [funext (fun pk => pack_lua_function h fuel L pk idx id hs)]
        exact faithful_error _
      | userdata id =>
        rw [funext (fun pk => pack_lua_userdata h fuel L pk idx id hs)]
        exact faithful_error _
      | thread id =>
        rw [funext (fun pk => pack_lua_thread h fuel L pk idx id hs)]
        exact faithful_error _
      | lightuserdata id =>
        rw [funext (fun pk => pack_lua_lightuserdata h fuel L pk idx id hs)]
        exact faithful_error _

theorem size_endMessage (pk : OutboundPacketStream) (m : ReceivedMessage)
    (hm : pk.EndMessage = .message m) : m.Size = pk.Size := by
  unfold OutboundPacketStream.EndMessage at hm
  injection hm with hm
  subst hm
  rfl

theorem endMessage_withCapacity (pk : OutboundPacketStream) (c : Nat) :
    (pk.withCapacity c).EndMessage = pk.EndMessage := rfl

/-- C16. For every host and every stack of arguments: a packet that `osc::pack` returns is a
message of at most `MAX_BUFF_SIZE` bytes; and whenever the same call over a buffer of any size
returns a message, `osc::pack` returns exactly that message if it takes at most `MAX_BUFF_SIZE`
bytes and fails with the buffer error if it takes more, so that no truncated packet is ever
returned. -/
theorem pack_respects_buffer (h : Host) (L : LuaState) :
    (∀ p, pack h L = .ok p → ∃ m, p = .message m ∧ m.Size ≤ MAX_BUFF_SIZE)
      ∧ (∀ C m, packInto h C L = .ok (.message m) →
          pack h L
            = if m.Size ≤ MAX_BUFF_SIZE then .ok (.message m) else .error .outOfBuffer) := by
  have hfold := faithful_fold (fun pk (i : Nat) => pack_lua h (MAX_DEPTH + 1) L pk (i : Nat))
    (List.range' 2 (lua_gettop L - 1)) (fun i _ => faithful_pack_lua h _ L _)
  constructor
  · intro p hp
    unfold pack at hp
    obtain ⟨url, _, hp⟩ := bind_eq_ok _ _ _ hp
    obtain ⟨pk0, h0, hp⟩ := bind_eq_ok _ _ _ hp
    obtain ⟨pk1, h1, hp⟩ := bind_eq_ok _ _ _ hp
    injection hp with hp
    have e0 := checked_ok _ _ h0
    have fit0 : pk0.Size ≤ pk0.capacity := by
      unfold OutboundPacketStream.BeginMessage OutboundPacketStream.checked at h0
      split at h0
      · rw [e0]; assumption
      · cases h0
    obtain ⟨⟨w, e1⟩, fit1, _⟩ := hfold pk0 pk1 h1
    have hcap : pk1.capacity = MAX_BUFF_SIZE := by rw [e1, capacity_extend, e0]
    refine ⟨⟨pk1.address, some pk1.typeTags, pk1.arguments⟩, hp.symm, ?_⟩
    rw [size_endMessage pk1 _ rfl, ← hcap]
    exact fit1 fit0
  · intro C m hp
    unfold packInto at hp
    obtain ⟨url, hurl, hp⟩ := bind_eq_ok _ _ _ hp
    obtain ⟨pk0, h0, hp⟩ := bind_eq_ok _ _ _ hp
    obtain ⟨pk1, h1, hp⟩ := bind_eq_ok _ _ _ hp
    injection hp with hp
    have e0 := checked_ok _ _ h0
    obtain ⟨⟨w, e1⟩, _, cap1⟩ := hfold pk0 pk1 h1
    have hm : m.Size = pk1.Size := size_endMessage pk1 m hp
    have hmono : pk0.Size ≤ pk1.Size := by rw [e1]; exact size_extend pk0 w
    have hw : pk0.withCapacity MAX_BUFF_SIZE = ⟨MAX_BUFF_SIZE, cstr url, [], []⟩ := by
      rw [e0]; rfl
    unfold pack
    rw [hurl]
    simp only [ok_bind]
    unfold OutboundPacketStream.BeginMessage OutboundPacketStream.checked
    by_cases hc : pk0.Size ≤ MAX_BUFF_SIZE
    · have hc' : (OutboundPacketStream.mk MAX_BUFF_SIZE (cstr url) [] []).Size
          ≤ (OutboundPacketStream.mk MAX_BUFF_SIZE (cstr url) [] []).capacity := by
        rw [← hw]; exact hc
      rw [if_pos hc']
      simp only [ok_bind]
      have hcap : List.foldlM (fun pk (i : Nat) => pack_lua h (MAX_DEPTH + 1) L pk (i : Nat))
          (pk0.withCapacity MAX_BUFF_SIZE) (List.range' 2 (lua_gettop L - 1))
          = if pk1.Size ≤ MAX_BUFF_SIZE then .ok (pk1.withCapacity MAX_BUFF_SIZE)
            else .error .outOfBuffer := cap1 MAX_BUFF_SIZE hc
      rw [← hw, hcap, hm]
      by_cases hc1 : pk1.Size ≤ MAX_BUFF_SIZE
      · rw [if_pos hc1, if_pos hc1]
        simp only [ok_bind, pure_eq_ok, endMessage_withCapacity, hp]
      · rw [if_neg hc1, if_neg hc1]
        rfl
    · have hc' : ¬ (OutboundPacketStream.mk MAX_BUFF_SIZE (cstr url) [] []).Size
          ≤ (OutboundPacketStream.mk MAX_BUFF_SIZE (cstr url) [] []).capacity := by
        rw [← hw]; exact hc
      rw [if_neg hc', if_neg (by omega)]
      rfl

/-- Witness of C16: a call with a number and a string returns a message of 20 bytes, the same
over a buffer of 64 bytes and over the buffer of `osc::pack`. -/
theorem pack_respects_buffer_witness :
    (∃ m, ReceivedPacket.message ⟨"/foo", some ['f', 's'], [.word32 1, .str "bar"]⟩ = .message m
        ∧ m.Size ≤ MAX_BUFF_SIZE)
      ∧ pack sampleHost (stackOf [.string "/foo", .number (.int 1), .string "bar"])
        = if (ReceivedMessage.mk "/foo" (some ['f', 's']) [.word32 1, .str "bar"]).Size
              ≤ MAX_BUFF_SIZE
          then .ok (.message ⟨"/foo", some ['f', 's'], [.word32 1, .str "bar"]⟩)
          else .error .outOfBuffer :=
  ⟨(pack_respects_buffer sampleHost
      (stackOf [.string "/foo", .number (.int 1), .string "bar"])).1 _ rfl,
    (pack_respects_buffer sampleHost
      (stackOf [.string "/foo", .number (.int 1), .string "bar"])).2 64 _ rfl⟩

/-! ## String arguments -/

theorem strArgs_append (a b : List ArgData) : strArgs (a ++ b) = strArgs a ++ strArgs b := by
  simp [strArgs, List.filterMap_append]

theorem pack_lua_extends (h : Host) (fuel : Nat) (L : LuaState) (idx : Int)
    (pk pk' : OutboundPacketStream) (hp : pack_lua h fuel L pk idx = .ok pk') :
    ∃ w, pk' = pk.extend w :=
  (faithful_pack_lua h fuel L idx pk pk' hp).1

theorem fold_args_strings (h : Host) (F : Nat) (L : LuaState) :
    ∀ (rest : List LuaValue) (k : Nat),
      (∀ j, j < rest.length → slot L (resolveIndex L ((k + j : Nat) : Int)) = rest[j]?) →
      ∀ pk pk', (List.range' k rest.length).foldlM
          (fun pk i => pack_lua h (F + 1) L pk (i : Nat)) pk = .ok pk' →
        ∃ w, pk' = pk.extend w ∧ (stringsOf rest).Sublist (strArgs (w.map Prod.snd)) := by
  intro rest
  induction rest with
  | nil =>
    intro k _ pk pk' hp
    simp only [List.length_nil, List.range'_zero, List.foldlM_nil, pure_eq_ok] at hp
    injection hp with e
    exact ⟨[], by rw [extend_nil, e], by simp [stringsOf]⟩
  | cons v rest ih =>
    intro k hs pk pk' hp
    simp only [List.length_cons, List.range'_succ, List.foldlM_cons] at hp
    obtain ⟨pk1, h1, hp⟩ := bind_eq_ok _ _ _ hp
    have hslot : slot L (resolveIndex L ((k : Nat) : Int)) = some v := by
      simpa using hs 0 (by simp)
    obtain ⟨w2, e2, sub2⟩ := ih (k + 1)
      (fun j hj => by
        have := hs (j + 1) (by simp; omega)
        rw [show k + (j + 1) = k + 1 + j by omega] at this
        simpa using this) pk1 pk' hp
    have key : ∃ w1, pk1 = pk.extend w1
        ∧ (stringsOf [v]).Sublist (strArgs (w1.map Prod.snd)) := by
      cases v with
      | string s =>
        rw [pack_lua_string h F L pk k s hslot] at h1
        exact ⟨_, put_ok _ _ _ _ h1, by simp [stringsOf, strArgs]⟩
      | nil => obtain ⟨w1, e1⟩ := pack_lua_extends h _ L _ pk pk1 h1; exact ⟨w1, e1, by simp [stringsOf]⟩
      | boolean b => obtain ⟨w1, e1⟩ := pack_lua_extends h _ L _ pk pk1 h1; exact ⟨w1, e1, by simp [stringsOf]⟩
      | number x => obtain ⟨w1, e1⟩ := pack_lua_extends h _ L _ pk pk1 h1; exact ⟨w1, e1, by simp [stringsOf]⟩
      | table t => obtain ⟨w1, e1⟩ := pack_lua_extends h _ L _ pk pk1 h1; exact ⟨w1, e1, by simp [stringsOf]⟩
      | function id => obtain ⟨w1, e1⟩ := pack_lua_extends h _ L _ pk pk1 h1; exact ⟨w1, e1, by simp [stringsOf]⟩
      | userdata id => obtain ⟨w1, e1⟩ := pack_lua_extends h _ L _ pk pk1 h1; exact ⟨w1, e1, by simp [stringsOf]⟩
      | thread id => obtain ⟨w1, e1⟩ := pack_lua_extends h _ L _ pk pk1 h1; exact ⟨w1, e1, by simp [stringsOf]⟩
      | lightuserdata id => obtain ⟨w1, e1⟩ := pack_lua_extends h _ L _ pk pk1 h1; exact ⟨w1, e1, by simp [stringsOf]⟩
    obtain ⟨w1, e1, sub1⟩ := key
    refine ⟨w1 ++ w2, by rw [e2, e1, extend_extend], ?_⟩
    have e : stringsOf (v :: rest) = stringsOf [v] ++ stringsOf rest := by
      simp [stringsOf, List.filterMap_cons]
      cases v <;> simp
    rw [e, List.map_append, strArgs_append]
    exact List.Sublist.append sub1 sub2

/-- C18. The warn-and-skip branch of `pack_string` is never taken. `pack_lua` calls `pack_string`
only for a slot of type string; for such a slot `lua_tolstring` returns a string and the call
writes it with the string tag. Hence in every message that `osc::pack` returns the string payloads
contain the C strings of all string arguments of the call, in the order of the arguments and as
often as they occur: none is dropped. -/
theorem pack_string_never_skips (h : Host) :
    (∀ (fuel : Nat) (L : LuaState) (pk : OutboundPacketStream) (index : Int),
        lua_type L (resolveIndex L index) = .LUA_TSTRING →
        ∃ s, lua_tolstring h L (resolveIndex L index) = some s
          ∧ pack_lua h (fuel + 1) L pk index = pk.putString s)
      ∧ (∀ (url : String) (args : List LuaValue) (m : ReceivedMessage),
          pack h (stackOf (.string url :: args)) = .ok (.message m) →
          (stringsOf args).Sublist (strArgs m.arguments)) := by
  constructor
  · intro fuel L pk index ht
    cases hs : slot L (resolveIndex L index) with
    | none => simp [lua_type, hs] at ht
    | some v =>
      cases v with
      | string s =>
        exact ⟨s, by simp [lua_tolstring, hs], pack_lua_string h fuel L pk index s hs⟩
      | nil => simp [lua_type, hs] at ht
      | boolean b => simp [lua_type, hs] at ht
      | number x => simp [lua_type, hs] at ht
      | table t => simp [lua_type, hs] at ht
      | function id => simp [lua_type, hs] at ht
      | userdata id => simp [lua_type, hs] at ht
      | thread id => simp [lua_type, hs] at ht
      | lightuserdata id => simp [lua_type, hs] at ht
  · intro url args m hp
    rw [pack_unfold] at hp
    obtain ⟨pk0, h0, hp⟩ := bind_eq_ok _ _ _ hp
    obtain ⟨pk1, h1, hp⟩ := bind_eq_ok _ _ _ hp
    injection hp with hp
    have e0 := checked_ok _ _ h0
    obtain ⟨w, e1, sub⟩ := fold_args_strings h MAX_DEPTH (stackOf (.string url :: args)) args 2
      (fun j hj => by
        have := slot_stackOf (.string url :: args) (j + 1) (by simp; omega)
        rw [show 2 + j = j + 1 + 1 by omega]
        simpa using this) pk0 pk1 h1
    unfold OutboundPacketStream.EndMessage at hp
    injection hp with hp
    subst hp
    rw [e1, e0]
    simpa [OutboundPacketStream.extend] using sub

/-- Witness of C18: in the message packed for the arguments ("a", 1, "b") the string payloads
are "a" and "b". -/
theorem pack_string_never_skips_witness :
    (stringsOf [.string "a", .number (.int 1), .string "b"]).Sublist
      (strArgs (ReceivedMessage.mk "/foo" (some ['s', 'f', 's'])
        [.str "a", .word32 1, .str "b"]).arguments) :=
  (pack_string_never_skips sampleHost).2 "/foo" [.string "a", .number (.int 1), .string "b"]
    _ rfl

/-! ## The depth guard of `pack_table` -/

theorem put_ne_tooLarge (pk : OutboundPacketStream) (c : Char) (a : ArgData) :
    pk.put c a ≠ .error .tooLarge := by
  rw [put_eq]
  unfold OutboundPacketStream.checked
  split <;> simp

theorem bind_ne_err {α β : Type} (e : PackError) (a : Except PackError α)
    (k : α → Except PackError β) (ha : a ≠ .error e) (hk : ∀ x, k x ≠ .error e) :
    (a >>= k) ≠ .error e := by
  cases a with
  | error e1 =>
    intro hc
    change (Except.error e1 : Except PackError β) = .error e at hc
    injection hc with he
    exact ha (by rw [he])
  | ok x => exact hk x

theorem foldlM_ne_err {α : Type} (e : PackError)
    (f : OutboundPacketStream → α → Except PackError OutboundPacketStream) :
    ∀ (xs : List α), (∀ x ∈ xs, ∀ pk, f pk x ≠ .error e) →
    ∀ pk, xs.foldlM f pk ≠ .error e := by
  intro xs
  induction xs with
  | nil => intro _ pk; simp
  | cons y ys ih =>
    intro hf pk
    rw [List.foldlM_cons]
    exact bind_ne_err e _ _ (hf y (by simp) pk)
      (fun pk1 => ih (fun x hx => hf x (by simp [hx])) pk1)

/-- The guard of `pack_table` is the only place where this call raises the too-large error: with
an index that is not above `MAX_DEPTH` the error can only come out of the calls of `pack_lua`
for the elements. -/
theorem pack_table_guard_passes (h : Host) (f : Packer) (L : LuaState)
    (pk : OutboundPacketStream) (index : Int) (hidx : index ≤ MAX_DEPTH)
    (hf : ∀ L1 pk1 i, f L1 pk1 i ≠ .error .tooLarge) :
    pack_table h f L pk index ≠ .error .tooLarge := by
  unfold pack_table
  rw [if_neg (by omega)]
  simp only []
  split
  · unfold pack_array
    refine bind_ne_err _ _ _ (put_ne_tooLarge _ _ _) (fun pk1 => ?_)
    refine bind_ne_err _ _ _ ?_ (fun pk2 => put_ne_tooLarge _ _ _)
    exact foldlM_ne_err _ _ _ (fun i _ pk3 => hf _ _ _) pk1
  · unfold pack_hash
    refine bind_ne_err _ _ _ (put_ne_tooLarge _ _ _) (fun pk1 => ?_)
    refine bind_ne_err _ _ _ ?_ (fun pk2 => put_ne_tooLarge _ _ _)
    exact foldlM_ne_err _ _ _
      (fun kv _ pk3 => bind_ne_err _ _ _ (hf _ _ _) (fun pk4 => hf _ _ _)) pk1

theorem nestedSeq_succ (d : Nat) : nestedSeq (d + 1) = seqTable [nestedSeq d] := rfl

theorem nestedSeq_zero : nestedSeq 0 = seqTable [.boolean true] := rfl

/-- A chain of nested arrays whose tables all sit at indices up to `MAX_DEPTH` never meets the
guard. -/
theorem chain_below_guard (h : Host) (hreg : h.RegularLength) : ∀ (d fuel : Nat) (L : LuaState)
    (pk : OutboundPacketStream) (idx : Int),
    slot L (resolveIndex L idx) = some (nestedSeq d) → resolveIndex L idx ≤ MAX_DEPTH →
    (d = 0 ∨ L.length + d ≤ MAX_DEPTH) → pack_lua h fuel L pk idx ≠ .error .tooLarge := by
  intro d
  induction d with
  | zero =>
    intro fuel L pk idx hs hidx hL
    cases fuel with
    | zero => simp [pack_lua]
    | succ f1 =>
      rw [nestedSeq_zero] at hs
      rw [pack_lua_table h f1 L pk idx _ hs,
        pack_table_regular h hreg _ L pk _ [.boolean true] (by decide) (by simp) hs hidx]
      refine bind_ne_err _ _ _ (put_ne_tooLarge _ _ _) (fun pk1 => ?_)
      refine bind_ne_err _ _ _ ?_ (fun pk2 => put_ne_tooLarge _ _ _)
      simp only [List.foldlM_cons, List.foldlM_nil]
      refine bind_ne_err _ _ _ ?_ (fun pk3 => by simp)
      cases f1 with
      | zero => simp [pack_lua]
      | succ f2 =>
        rw [pack_lua_boolean h f2 _ pk1 (-1) true (slot_top _ _)]
        exact put_ne_tooLarge _ _ _
  | succ d ih =>
    intro fuel L pk idx hs hidx hL
    cases fuel with
    | zero => simp [pack_lua]
    | succ f1 =>
      rw [nestedSeq_succ] at hs
      rw [pack_lua_table h f1 L pk idx _ hs,
        pack_table_regular h hreg _ L pk _ [nestedSeq d]
          (by simpa using nestedSeq_isNil d) (by simp) hs hidx]
      refine bind_ne_err _ _ _ (put_ne_tooLarge _ _ _) (fun pk1 => ?_)
      refine bind_ne_err _ _ _ ?_ (fun pk2 => put_ne_tooLarge _ _ _)
      simp only [List.foldlM_cons, List.foldlM_nil]
      refine bind_ne_err _ _ _ ?_ (fun pk3 => by simp)
      have hL' : L.length + (d + 1) ≤ MAX_DEPTH := by
        rcases hL with h0 | h1
        · omega
        · exact h1
      refine ih f1 (nestedSeq d :: L) pk1 (-1) (slot_top _ _) ?_ ?_
      · rw [resolve_top]; push_cast; omega
      · right; simp only [List.length_cons]; omega

/-- The stream with `j` begin-array brackets appended. -/
theorem begin_array_room (pk : OutboundPacketStream) (j : Nat)
    (hroom : (pk.extend (List.replicate (j + 1) (ARRAY_BEGIN_TYPE_TAG, ArgData.none))).Size
      ≤ pk.capacity) :
    pk.BeginArray = .ok (pk.extend [(ARRAY_BEGIN_TYPE_TAG, .none)]) := by
  unfold OutboundPacketStream.BeginArray
  rw [put_eq]
  unfold OutboundPacketStream.checked
  have h1 := size_extend (pk.extend [(ARRAY_BEGIN_TYPE_TAG, .none)])
    (List.replicate j (ARRAY_BEGIN_TYPE_TAG, ArgData.none))
  rw [extend_extend] at h1
  have e : [(ARRAY_BEGIN_TYPE_TAG, ArgData.none)] ++ List.replicate j (ARRAY_BEGIN_TYPE_TAG, ArgData.none)
      = List.replicate (j + 1) (ARRAY_BEGIN_TYPE_TAG, ArgData.none) := by
    simp [List.replicate_succ]
  rw [e] at h1
  rw [if_pos (by rw [capacity_extend]; omega)]

/-- A chain of nested arrays that reaches a stack index above `MAX_DEPTH` meets the guard, when
the buffer has room for the brackets written on the way there. -/
theorem chain_meets_guard (h : Host) (hreg : h.RegularLength) : ∀ (j d fuel : Nat) (L : LuaState)
    (pk : OutboundPacketStream) (idx : Int),
    slot L (resolveIndex L idx) = some (nestedSeq d) →
    MAX_DEPTH ≤ L.length + j → j < d →
    (pk.extend (List.replicate (j + 1) (ARRAY_BEGIN_TYPE_TAG, ArgData.none))).Size ≤ pk.capacity →
    j + 2 ≤ fuel → pack_lua h fuel L pk idx = .error .tooLarge := by
  intro j
  induction j with
  | zero =>
    intro d fuel L pk idx hs hL hd hroom hfuel
    obtain ⟨f2, rfl⟩ : ∃ f2, fuel = f2 + 1 + 1 := ⟨fuel - 2, by omega⟩
    obtain ⟨d1, rfl⟩ : ∃ d1, d = d1 + 1 := ⟨d - 1, by omega⟩
    rw [nestedSeq_succ] at hs
    rw [pack_lua_table h _ L pk idx _ hs]
    by_cases hidx : resolveIndex L idx ≤ MAX_DEPTH
    · rw [pack_table_regular h hreg _ L pk _ [nestedSeq d1]
          (by simpa using nestedSeq_isNil d1) (by simp) hs hidx,
        begin_array_room pk 0 hroom]
      simp only [ok_bind, List.foldlM_cons, List.foldlM_nil]
      have hs1 : slot (nestedSeq d1 :: L) (resolveIndex (nestedSeq d1 :: L) (-1))
          = some (.table (match d1 with
            | 0 => seqEntries [.boolean true]
            | n + 1 => seqEntries [nestedSeq n])) := by
        rw [slot_top]; cases d1 <;> rfl
      rw [pack_lua_table h f2 _ _ (-1) _ hs1,
        pack_table_too_large h _ _ _ _ (by rw [resolve_top]; push_cast; omega)]
      rfl
    · exact pack_table_too_large h _ L pk _ (by omega)
  | succ j ih =>
    intro d fuel L pk idx hs hL hd hroom hfuel
    obtain ⟨f1, rfl⟩ : ∃ f1, fuel = f1 + 1 := ⟨fuel - 1, by omega⟩
    obtain ⟨d1, rfl⟩ : ∃ d1, d = d1 + 1 := ⟨d - 1, by omega⟩
    rw [nestedSeq_succ] at hs
    rw [pack_lua_table h _ L pk idx _ hs]
    by_cases hidx : resolveIndex L idx ≤ MAX_DEPTH
    · rw [pack_table_regular h hreg _ L pk _ [nestedSeq d1]
          (by simpa using nestedSeq_isNil d1) (by simp) hs hidx,
        begin_array_room pk (j + 1) hroom]
      simp only [ok_bind, List.foldlM_cons, List.foldlM_nil]
      rw [ih d1 f1 (nestedSeq d1 :: L) _ (-1) (slot_top _ _)
        (by simp only [List.length_cons]; omega) (by omega)
        (by
          rw [extend_extend, capacity_extend]
          have e : [(ARRAY_BEGIN_TYPE_TAG, ArgData.none)]
              ++ List.replicate (j + 1) (ARRAY_BEGIN_TYPE_TAG, ArgData.none)
              = List.replicate (j + 1 + 1) (ARRAY_BEGIN_TYPE_TAG, ArgData.none) := by
            simp [List.replicate_succ]
          rw [e]; exact hroom)
        (by omega)]
      rfl
    · exact pack_table_too_large h _ L pk _ (by omega)

/-- C17. The guard of `pack_table` tests the stack index. (1) For any index and any `pack_lua`:
with an index above `MAX_DEPTH` the call raises the too-large error at once, and with an index
up to `MAX_DEPTH` the error is not raised by this call, it can only come out of the calls for
the elements. (2) A table argument at the stack position `i` is tested at `i`, whatever it
holds: at a position above `MAX_DEPTH` a flat table is rejected. (3) An element that
`pack_array` has pushed on a stack of `n` values is tested at `n + 1`. (4) So for the chain of
`d + 1` arrays nested in each other, as an argument at a position up to `MAX_DEPTH` on a stack of
`n` values, with room in the buffer for the brackets and enough steps: the too-large error is
raised exactly when `d ≥ 1` and `n + d > MAX_DEPTH`, which for a call with the url and the chain
(`n = 2`) is the nesting depth 9999. -/
theorem depth_guard_tests_stack_index (h : Host) (hreg : h.RegularLength) :
    (∀ (f : Packer) (L : LuaState) (pk : OutboundPacketStream) (index : Int),
        ((MAX_DEPTH : Int) < index → pack_table h f L pk index = .error .tooLarge)
          ∧ (index ≤ MAX_DEPTH → (∀ L1 pk1 i, f L1 pk1 i ≠ .error .tooLarge) →
              pack_table h f L pk index ≠ .error .tooLarge))
      ∧ (∀ (fuel : Nat) (L : LuaState) (pk : OutboundPacketStream) (i : Nat) (t : LuaTable),
          slot L (i : Int) = some (.table t) →
          pack_lua h (fuel + 1) L pk (i : Int) = pack_table h (pack_lua h fuel) L pk (i : Int)
            ∧ (MAX_DEPTH < i → pack_lua h (fuel + 1) L pk (i : Int) = .error .tooLarge))
      ∧ (∀ (fuel : Nat) (L : LuaState) (pk : OutboundPacketStream) (t : LuaTable),
          pack_lua h (fuel + 1) (.table t :: L) pk (-1)
            = pack_table h (pack_lua h fuel) (.table t :: L) pk ((L.length + 1 : Nat) : Int))
      ∧ (∀ (d fuel : Nat) (L : LuaState) (pk : OutboundPacketStream) (i : Nat),
          slot L (i : Int) = some (nestedSeq d) → i ≤ MAX_DEPTH →
          (pk.extend (List.replicate (MAX_DEPTH - L.length + 1)
            (ARRAY_BEGIN_TYPE_TAG, ArgData.none))).Size ≤ pk.capacity →
          MAX_DEPTH - L.length + 2 ≤ fuel →
          (pack_lua h fuel L pk (i : Int) = .error .tooLarge
            ↔ 1 ≤ d ∧ MAX_DEPTH < L.length + d)) := by
  refine ⟨fun f L pk index => ⟨pack_table_too_large h f L pk index,
      pack_table_guard_passes h f L pk index⟩, ?_, ?_, ?_⟩
  · intro fuel L pk i t hs
    have hs' : slot L (resolveIndex L (i : Int)) = some (.table t) := by rwa [resolve_nat]
    have e := pack_lua_table h fuel L pk (i : Int) t hs'
    rw [resolve_nat] at e
    refine ⟨e, fun hi => ?_⟩
    rw [e]
    exact pack_table_too_large h _ L pk _ (by omega)
  · intro fuel L pk t
    have e := pack_lua_table h fuel (.table t :: L) pk (-1) t (slot_top _ _)
    rw [resolve_top] at e
    exact e
  · intro d fuel L pk i hs hi hroom hfuel
    have hs' : slot L (resolveIndex L (i : Int)) = some (nestedSeq d) := by rwa [resolve_nat]
    have hidx : resolveIndex L (i : Int) ≤ MAX_DEPTH := by rw [resolve_nat]; omega
    constructor
    · intro ht
      by_contra hc
      refine chain_below_guard h hreg d fuel L pk (i : Int) hs' hidx ?_ ht
      by_cases hd : d = 0
      · exact Or.inl hd
      · right; omega
    · rintro ⟨hd, hdeep⟩
      exact chain_meets_guard h hreg (MAX_DEPTH - L.length) d fuel L pk (i : Int) hs'
        (by omega) (by omega) hroom hfuel

theorem chain_call_slot (d : Nat) :
    slot (stackOf [.string "/a", nestedSeq d]) ((2 : Nat) : Int) = some (nestedSeq d) := by
  have h1 := slot_stackOf [.string "/a", nestedSeq d] 1 (by simp)
  rw [resolve_nat] at h1
  simpa using h1

theorem brackets_size (n : Nat) :
    ((OutboundPacketStream.mk 20000 "/a" [] []).extend
        (List.replicate n (ARRAY_BEGIN_TYPE_TAG, ArgData.none))).Size = 4 + roundUp4 (n + 2) := by
  have h1 : roundUp4 ("/a".length + 1) = 4 := by decide
  simp [OutboundPacketStream.Size, OutboundPacketStream.extend, ArgData.size, h1]

theorem chain_call_room (d : Nat) :
    ((OutboundPacketStream.mk 20000 "/a" [] []).extend
        (List.replicate (MAX_DEPTH - (stackOf [.string "/a", nestedSeq d]).length + 1)
          (ARRAY_BEGIN_TYPE_TAG, ArgData.none))).Size
      ≤ (OutboundPacketStream.mk 20000 "/a" [] []).capacity := by
  rw [brackets_size]
  have hl : (stackOf [.string "/a", nestedSeq d]).length = 2 := rfl
  rw [hl]
  decide

/-- Witness of C17: in a call with the url and one chain of nested arrays (two values on the
stack) over a buffer of 20000 bytes, the chain of nesting depth 9999 is rejected with the
too-large error and the chain of nesting depth 9998 is not. -/
theorem depth_guard_tests_stack_index_witness :
    pack_lua sampleHost 10000 (stackOf [.string "/a", nestedSeq 9999])
        ⟨20000, "/a", [], []⟩ ((2 : Nat) : Int) = .error .tooLarge
      ∧ pack_lua sampleHost 10000 (stackOf [.string "/a", nestedSeq 9998])
        ⟨20000, "/a", [], []⟩ ((2 : Nat) : Int) ≠ .error .tooLarge :=
  ⟨((depth_guard_tests_stack_index sampleHost sampleHost_regular).2.2.2 9999 10000
      (stackOf [.string "/a", nestedSeq 9999]) ⟨20000, "/a", [], []⟩ 2 (chain_call_slot 9999)
      (by decide) (chain_call_room 9999) (by simp [stackOf, MAX_DEPTH])).2
      ⟨by decide, by simp [stackOf, MAX_DEPTH]⟩,
    fun hc => absurd
      (((depth_guard_tests_stack_index sampleHost sampleHost_regular).2.2.2 9998 10000
        (stackOf [.string "/a", nestedSeq 9998]) ⟨20000, "/a", [], []⟩ 2 (chain_call_slot 9998)
        (by decide) (chain_call_room 9998) (by simp [stackOf, MAX_DEPTH])).1 hc).2
      (by simp [stackOf, MAX_DEPTH])⟩

/-! ## The round trip of maps -/

theorem mapSeqFrom_cons (h : Host) (i : Nat) (k v : LuaValue) (rest : LuaTable)
    (hp : mapSeqFrom h i ((k, v) :: rest) = true) :
    k = intKey i ∧ mapValue h v = true ∧ mapSeqFrom h (i + 1) rest = true := by
  simp only [mapSeqFrom, Bool.and_eq_true] at hp
  exact ⟨keyEq_eq k i hp.1.1, hp.1.2, hp.2⟩

theorem mapEntries_cons (h : Host) (k v : LuaValue) (rest : LuaTable)
    (hp : mapEntries h ((k, v) :: rest) = true) :
    (∃ s, k = .string s ∧ cstr s = s) ∧ (∀ kv ∈ rest, keyEq k kv.1 = false)
      ∧ mapValue h v = true ∧ mapEntries h rest = true := by
  simp only [mapEntries, Bool.and_eq_true, List.all_eq_true, Bool.not_eq_true'] at hp
  obtain ⟨⟨⟨hk, hd⟩, hv⟩, hr⟩ := hp
  refine ⟨?_, hd, hv, hr⟩
  cases k <;> simp_all [isStringKey]

theorem mapSeqFrom_eq (h : Host) : ∀ (t : LuaTable) (i : Nat), mapSeqFrom h i t = true →
    t = seqEntriesFrom i (t.map Prod.snd) := by
  intro t
  induction t with
  | nil => intro i _; rfl
  | cons x rest ih =>
    intro i hp
    obtain ⟨k, v⟩ := x
    obtain ⟨hk, _, hr⟩ := mapSeqFrom_cons h i k v rest hp
    simp only [List.map_cons, seqEntriesFrom, hk]
    rw [← ih (i + 1) hr]

theorem mapSeqFrom_values (h : Host) : ∀ (t : LuaTable) (i : Nat), mapSeqFrom h i t = true →
    ∀ v ∈ t.map Prod.snd, mapValue h v = true := by
  intro t
  induction t with
  | nil => intro i _ v hv; simp at hv
  | cons x rest ih =>
    intro i hp v hv
    obtain ⟨k, v0⟩ := x
    obtain ⟨_, hv0, hr⟩ := mapSeqFrom_cons h i k v0 rest hp
    simp only [List.map_cons, List.mem_cons] at hv
    rcases hv with rfl | hv
    · exact hv0
    · exact ih (i + 1) hr v hv

theorem mapValue_not_nil (h : Host) (v : LuaValue) (hv : mapValue h v = true) :
    v.isNil = false := by
  cases v <;> simp_all [mapValue, LuaValue.isNil]

/-- A table that is a map value is a map or a regular array that is not empty. -/
theorem mapValue_table (h : Host) (t : LuaTable) (hv : mapValue h (.table t) = true) :
    mapEntries h t = true ∨ (∃ x rest, t = x :: rest ∧ mapSeqFrom h 1 t = true) := by
  simp only [mapValue, Bool.or_eq_true, Bool.and_eq_true, Bool.not_eq_true'] at hv
  rcases hv with hm | ⟨hne, hs⟩
  · exact Or.inl hm
  · right
    cases t with
    | nil => simp at hne
    | cons x rest => exact ⟨x, rest, rfl, hs⟩

theorem mapWire_map (h : Host) (t : LuaTable) (hm : mapEntries h t = true) :
    mapWire h (.table t)
      = (HASH_BEGIN_TYPE_TAG, .none) :: (pairsWire h t ++ [(HASH_END_TYPE_TAG, .none)]) := by
  cases t with
  | nil => rw [mapWire, if_neg (by simp [startsWithNumber])]
  | cons x rest =>
    obtain ⟨k, v⟩ := x
    obtain ⟨⟨s, rfl, _⟩, _⟩ := mapEntries_cons h k v rest hm
    rw [mapWire, if_neg (by simp [startsWithNumber])]

theorem mapWire_seq (h : Host) (x : LuaValue × LuaValue) (rest : LuaTable)
    (hs : mapSeqFrom h 1 (x :: rest) = true) :
    mapWire h (.table (x :: rest))
      = (ARRAY_BEGIN_TYPE_TAG, .none) :: (seqWire h (x :: rest) ++ [(ARRAY_END_TYPE_TAG, .none)]) := by
  obtain ⟨k, v⟩ := x
  obtain ⟨rfl, _⟩ := mapSeqFrom_cons h 1 k v rest hs
  rw [mapWire, if_pos (by simp [startsWithNumber, intKey])]

theorem mapWire_head (h : Host) (v : LuaValue) (hv : mapValue h v = true) :
    ∃ c a tail, mapWire h v = (c, a) :: tail ∧ c ≠ NUL ∧ c ≠ ARRAY_END_TYPE_TAG := by
  cases v with
  | nil => simp [mapValue] at hv
  | boolean b =>
    cases b
    · exact ⟨FALSE_TYPE_TAG, .none, [], by simp [mapWire], by decide, by decide⟩
    · exact ⟨TRUE_TYPE_TAG, .none, [], by simp [mapWire], by decide, by decide⟩
  | number x => exact ⟨FLOAT_TYPE_TAG, _, [], by rw [mapWire], by decide, by decide⟩
  | string s => exact ⟨STRING_TYPE_TAG, _, [], by rw [mapWire], by decide, by decide⟩
  | table t =>
    rcases mapValue_table h t hv with hm | ⟨x, rest, rfl, hs⟩
    · exact ⟨HASH_BEGIN_TYPE_TAG, .none, _, mapWire_map h t hm, by decide, by decide⟩
    · exact ⟨ARRAY_BEGIN_TYPE_TAG, .none, _, mapWire_seq h x rest hs, by decide, by decide⟩
  | function id => simp [mapValue] at hv
  | userdata id => simp [mapValue] at hv
  | thread id => simp [mapValue] at hv
  | lightuserdata id => simp [mapValue] at hv

theorem rawput_new (k v : LuaValue) : ∀ (done : LuaTable),
    (∀ kv ∈ done, keyEq kv.1 k = false) → rawput done k v = done ++ [(k, v)] := by
  intro done
  induction done with
  | nil => intro _; rfl
  | cons x rest ih =>
    intro hd
    obtain ⟨k1, v1⟩ := x
    have h1 : keyEq k1 k = false := hd (k1, v1) (by simp)
    simp only [rawput, h1, Bool.false_eq_true, if_false, List.cons_append]
    rw [ih (fun kv hkv => hd kv (by simp [hkv]))]

/-! ### Decoding the wire form of a map value -/

theorem array_loop_map (h : Host) (F : Nat) (IH : ∀ m, m < F → MapValueSpec h m) :
    ∀ (t : LuaTable) (done : List LuaValue) (fuel : Nat), fuel < F → t ≠ [] →
      mapSeqFrom h (done.length + 1) t = true → 2 * (seqWire h t).length + 1 ≤ fuel →
      ∀ (tags : List Char) (args : List ArgData) (pos : Nat) (S : LuaState),
        Holds tags args pos (seqWire h t) →
        tags[pos + (seqWire h t).length]? = some ARRAY_END_TYPE_TAG →
        parse_osc_array_loop h args (S.length + 1) fuel (.table (seqEntriesFrom 1 done) :: S)
            (.ptr tags pos) pos done.length
          = .ok ⟨.ptr tags (pos + (seqWire h t).length),
              .table (seqEntriesFrom 1 (done ++ t.map Prod.snd)) :: S,
              pos + (seqWire h t).length⟩ := by
  intro t
  induction t with
  | nil => intro done fuel _ hne; exact absurd rfl hne
  | cons x rest ih =>
    intro done fuel hF _ hp hfuel tags args pos S hw hend
    obtain ⟨k, v⟩ := x
    obtain ⟨_, hv, hr⟩ := mapSeqFrom_cons h _ k v rest hp
    simp only [seqWire, List.length_append] at hfuel hend hw ⊢
    obtain ⟨hwv, hwr⟩ := (Holds_append tags args _ _ pos).1 hw
    obtain ⟨c, a, tail, hc, hc0, hc1⟩ := mapWire_head h v hv
    have hlen : 1 ≤ (mapWire h v).length := by rw [hc]; simp
    obtain ⟨f1, rfl⟩ : ∃ f1, fuel = f1 + 1 := ⟨fuel - 1, by omega⟩
    have hd : (TagPtr.ptr tags pos).deref = .ok c := by
      apply deref_of_get
      rw [hc] at hwv
      exact hwv.1
    rw [array_loop_step h args f1 _ _ pos (S.length + 1) done.length c hd hc0]
    rw [IH f1 (by omega) v hv (by omega) tags args pos _ hwv]
    simp only [ok_bind]
    rw [lua_rawseti_top, tableSet_seq v (mapValue_not_nil h v hv) done]
    simp only [ok_bind]
    cases rest with
    | nil =>
      simp only [seqWire, List.length_nil, Nat.add_zero] at hend ⊢
      rw [deref_of_get tags _ _ hend]
      simp
    | cons y rest2 =>
      obtain ⟨k2, v2⟩ := y
      obtain ⟨_, hv2, _⟩ := mapSeqFrom_cons h _ k2 v2 rest2 hr
      obtain ⟨c2, a2, tail2, hc2, hc20, hc21⟩ := mapWire_head h v2 hv2
      have hwr2 := hwr
      simp only [seqWire, hc2, List.cons_append, Holds] at hwr2
      rw [deref_of_get tags _ c2 hwr2.1]
      simp only [ok_bind, hc21, if_false]
      have := ih (done ++ [v]) f1 (by omega) (by simp)
        (by simpa using hr) (by omega) tags args (pos + (mapWire h v).length) S hwr
        (by rw [← hend]; congr 1; omega)
      simp only [List.length_append, List.length_singleton] at this
      rw [this]
      simp [Nat.add_assoc]

theorem pairsWire_cons (h : Host) (s : String) (v : LuaValue) (rest : LuaTable) :
    pairsWire h ((.string s, v) :: rest)
      = (STRING_TYPE_TAG, .str (cstr s)) :: (mapWire h v ++ pairsWire h rest) := by
  rw [pairsWire, mapWire]
  rfl

theorem hash_loop_map (h : Host) (F : Nat) (IH : ∀ m, m < F → MapValueSpec h m) :
    ∀ (t : LuaTable) (done : LuaTable) (fuel : Nat), fuel < F → mapEntries h t = true →
      (∀ kv ∈ done, ∀ kv1 ∈ t, keyEq kv.1 kv1.1 = false) →
      2 * (pairsWire h t).length + 1 ≤ fuel →
      ∀ (tags : List Char) (args : List ArgData) (pos : Nat) (S : LuaState),
        Holds tags args pos (pairsWire h t) →
        tags[pos + (pairsWire h t).length]? = some HASH_END_TYPE_TAG →
        parse_osc_hash_loop h args (S.length + 1) fuel (.table done :: S) (.ptr tags pos) pos
          = .ok ⟨.ptr tags (pos + (pairsWire h t).length), .table (done ++ t) :: S,
              pos + (pairsWire h t).length⟩ := by
  intro t
  induction t with
  | nil =>
    intro done fuel _ _ _ hfuel tags args pos S _ hend
    obtain ⟨f1, rfl⟩ : ∃ f1, fuel = f1 + 1 := ⟨fuel - 1, by omega⟩
    simp only [pairsWire, List.length_nil, Nat.add_zero, List.append_nil] at hend ⊢
    exact hash_loop_close h args f1 _ _ pos _ (deref_of_get tags pos _ hend)
  | cons x rest ih =>
    intro done fuel hF hm hdone hfuel tags args pos S hw hend
    obtain ⟨k, v⟩ := x
    obtain ⟨⟨s, rfl, hs⟩, hdist, hv, hr⟩ := mapEntries_cons h k v rest hm
    obtain ⟨f1, rfl⟩ : ∃ f1, fuel = f1 + 1 := ⟨fuel - 1, by omega⟩
    rw [pairsWire_cons] at hw hend hfuel ⊢
    simp only [List.length_cons, List.length_append, Holds] at hw hend hfuel ⊢
    obtain ⟨hk, hka, hrest⟩ := hw
    obtain ⟨hwv, hwr⟩ := (Holds_append tags args _ _ (pos + 1)).1 hrest
    rw [hash_loop_key h args f1 _ _ pos _ (cstr s) (deref_of_get tags pos _ hk) hka]
    simp only [TagPtr.next]
    rw [hs, hs, IH f1 (by omega) v hv (by omega) tags args (pos + 1) _ hwv]
    simp only [ok_bind]
    rw [lua_rawset_top _ _ _ _ (by rfl)]
    simp only [ok_bind]
    have hput : tableSet done (.string s) v = done ++ [(.string s, v)] := by
      simp only [tableSet, mapValue_not_nil h v hv, Bool.false_eq_true, if_false]
      exact rawput_new _ _ done (fun kv hkv => hdone kv hkv (.string s, v) (by simp))
    rw [hput]
    rw [ih (done ++ [(LuaValue.string s, v)]) f1 (by omega) hr
      (fun kv hkv kv1 hkv1 => by
        rcases List.mem_append.1 hkv with h1 | h1
        · exact hdone kv h1 kv1 (by simp [hkv1])
        · simp only [List.mem_singleton] at h1
          subst h1
          exact hdist kv1 hkv1)
      (by omega) tags args _ S hwr (by rw [← hend]; congr 1; omega)]
    rw [show pos + 1 + (mapWire h v).length + (pairsWire h rest).length
      = pos + ((mapWire h v).length + (pairsWire h rest).length + 1) by omega]
    simp only [List.append_assoc, List.singleton_append]

theorem map_value_spec (h : Host) : ∀ fuel : Nat, MapValueSpec h fuel := by
  intro fuel
  induction fuel using Nat.strong_induction_on with
  | _ fuel IH =>
    intro v hv hfuel tags args pos L hw
    obtain ⟨c, a, tail, hc, _, _⟩ := mapWire_head h v hv
    have hlen : 1 ≤ (mapWire h v).length := by rw [hc]; simp
    obtain ⟨f1, rfl⟩ : ∃ f1, fuel = f1 + 1 := ⟨fuel - 1, by omega⟩
    cases v with
    | nil => simp [mapValue] at hv
    | boolean b =>
      cases b
      · simp only [mapWire, Holds] at hw
        rw [pv_false h args f1 L _ pos (deref_of_get tags pos _ hw.1)]
        simp [mapWire, TagPtr.next]
      · simp only [mapWire, Holds] at hw
        rw [pv_true h args f1 L _ pos (deref_of_get tags pos _ hw.1)]
        simp [mapWire, TagPtr.next]
    | number x =>
      simp only [mapWire, Holds] at hw
      simp only [mapValue, decide_eq_true_eq] at hv
      rw [pv_float h args f1 L _ pos _ (deref_of_get tags pos _ hw.1) hw.2.1]
      simp [mapWire, TagPtr.next, hv]
    | string s =>
      simp only [mapWire, Holds] at hw
      simp only [mapValue, decide_eq_true_eq] at hv
      rw [pv_string h args f1 L _ pos _ (deref_of_get tags pos _ hw.1) hw.2.1]
      simp [mapWire, TagPtr.next, hv]
    | table t =>
      rcases mapValue_table h t hv with hm | ⟨x, rest, rfl, hs⟩
      · rw [mapWire_map h t hm] at hw hfuel ⊢
        simp only [Holds] at hw
        simp only [List.length_cons, List.length_append, List.length_nil] at hfuel ⊢
        obtain ⟨f2, rfl⟩ : ∃ f2, f1 = f2 + 1 := ⟨f1 - 1, by omega⟩
        obtain ⟨f3, rfl⟩ : ∃ f3, f2 = f3 + 1 := ⟨f2 - 1, by omega⟩
        obtain ⟨hw1, hw2⟩ := (Holds_append tags args _ _ (pos + 1)).1 hw.2.2
        simp only [Holds] at hw2
        rw [pv_hash h args _ L _ pos (deref_of_get tags pos _ hw.1), hash_unfold]
        simp only [TagPtr.next]
        have := hash_loop_map h (f3 + 1 + 1 + 1) IH t [] (f3 + 1) (by omega) hm
          (fun kv hkv => by simp at hkv) (by omega) tags args (pos + 1) L hw1 hw2.1
        simp only [List.nil_append] at this
        rw [this]
        simp only [Except.map, TagPtr.next]
        rw [show pos + 1 + (pairsWire h t).length + 1
          = pos + ((pairsWire h t).length + (0 + 1) + 1) by omega]
      · rw [mapWire_seq h x rest hs] at hw hfuel ⊢
        simp only [Holds] at hw
        simp only [List.length_cons, List.length_append, List.length_nil] at hfuel ⊢
        obtain ⟨f2, rfl⟩ : ∃ f2, f1 = f2 + 1 := ⟨f1 - 1, by omega⟩
        obtain ⟨f3, rfl⟩ : ∃ f3, f2 = f3 + 1 := ⟨f2 - 1, by omega⟩
        obtain ⟨hw1, hw2⟩ := (Holds_append tags args _ _ (pos + 1)).1 hw.2.2
        simp only [Holds] at hw2
        rw [pv_array h args _ L _ pos (deref_of_get tags pos _ hw.1)]
        simp only [TagPtr.next]
        rw [array_table_ptr]
        have := array_loop_map h (f3 + 1 + 1 + 1) IH (x :: rest) [] (f3 + 1) (by omega) (by simp)
          (by simpa using hs) (by omega) tags args (pos + 1) L hw1 hw2.1
        rw [show seqEntriesFrom 1 ([] : List LuaValue) = [] from rfl] at this
        simp only [List.length_nil, List.nil_append] at this
        rw [← mapSeqFrom_eq h (x :: rest) 1 hs] at this
        rw [this]
        simp only [Except.map, TagPtr.next]
        rw [show pos + 1 + (seqWire h (x :: rest)).length + 1
          = pos + ((seqWire h (x :: rest)).length + (0 + 1) + 1) by omega]
    | function id => simp [mapValue] at hv
    | userdata id => simp [mapValue] at hv
    | thread id => simp [mapValue] at hv
    | lightuserdata id => simp [mapValue] at hv

theorem args_loop_map (h : Host) : ∀ (vs : List LuaValue) (fuel : Nat),
    (∀ v ∈ vs, mapValue h v = true) → 2 * (mapWireList h vs).length + 1 ≤ fuel →
    ∀ (tags : List Char) (args : List ArgData) (pos : Nat) (L : LuaState) (i : Nat),
      Holds tags args pos (mapWireList h vs) → tags.length = pos + (mapWireList h vs).length →
      parse_osc_array_args h args fuel L (.ptr tags pos) pos i
        = .ok (⟨.ptr tags tags.length, vs.reverse ++ L, tags.length⟩, i + vs.length) := by
  intro vs
  induction vs with
  | nil =>
    intro fuel _ hfuel tags args pos L i _ hend
    obtain ⟨f1, rfl⟩ : ∃ f1, fuel = f1 + 1 := ⟨fuel - 1, by omega⟩
    simp only [mapWireList, List.length_nil, Nat.add_zero] at hend
    subst hend
    rw [args_loop_end h args f1 L _ _ i (deref_end tags)]
    simp
  | cons v rest ih =>
    intro fuel hvs hfuel tags args pos L i hw hend
    have hv := hvs v (by simp)
    simp only [mapWireList, List.length_append] at hfuel hend hw
    obtain ⟨hwv, hwr⟩ := (Holds_append tags args _ _ pos).1 hw
    obtain ⟨c, a, tail, hc, hc0, hc1⟩ := mapWire_head h v hv
    have hlen : 1 ≤ (mapWire h v).length := by rw [hc]; simp
    obtain ⟨f1, rfl⟩ : ∃ f1, fuel = f1 + 1 := ⟨fuel - 1, by omega⟩
    have hd : (TagPtr.ptr tags pos).deref = .ok c := by
      apply deref_of_get
      rw [hc] at hwv
      exact hwv.1
    rw [args_loop_step h args f1 _ _ pos i c hd hc0]
    rw [map_value_spec h f1 v hv (by omega) tags args pos _ hwv]
    simp only [ok_bind]
    have hnext : ∃ c3, (TagPtr.ptr tags (pos + (mapWire h v).length)).deref = .ok c3
        ∧ c3 ≠ ARRAY_END_TYPE_TAG := by
      cases rest with
      | nil =>
        simp only [mapWireList, List.length_nil, Nat.add_zero] at hend
        rw [← hend, deref_end]
        exact ⟨_, rfl, by decide⟩
      | cons v2 rest2 =>
        obtain ⟨c2, a2, tail2, hc2, hc20, hc21⟩ := mapWire_head h v2 (hvs v2 (by simp))
        have hwr2 := hwr
        simp only [mapWireList, hc2, List.cons_append, Holds] at hwr2
        rw [deref_of_get tags _ c2 hwr2.1]
        exact ⟨_, rfl, hc21⟩
    obtain ⟨c3, hc3, hne⟩ := hnext
    rw [hc3]
    simp only [ok_bind, hne, if_false]
    rw [ih f1 (fun w hw1 => hvs w (by simp [hw1])) (by omega) tags args _ (v :: L) (i + 1) hwr
      (by omega)]
    simp [Nat.add_assoc, Nat.add_comm 1]

/-! ### What the encoder writes for a map value -/

theorem mapEntries_keys (h : Host) : ∀ t : LuaTable, mapEntries h t = true →
    ∀ kv ∈ t, isStringKey kv.1 = true := by
  intro t
  induction t with
  | nil => intro _ kv hkv; simp at hkv
  | cons x rest ih =>
    intro hm kv hkv
    obtain ⟨k, v⟩ := x
    obtain ⟨⟨s, rfl, hs⟩, _, _, hr⟩ := mapEntries_cons h k v rest hm
    rcases List.mem_cons.1 hkv with rfl | hmem
    · simp [isStringKey, hs]
    · exact ih hr kv hmem

theorem mapEntries_values (h : Host) : ∀ t : LuaTable, mapEntries h t = true →
    ∀ kv ∈ t, mapValue h kv.2 = true := by
  intro t
  induction t with
  | nil => intro _ kv hkv; simp at hkv
  | cons x rest ih =>
    intro hm kv hkv
    obtain ⟨k, v⟩ := x
    obtain ⟨_, _, hv, hr⟩ := mapEntries_cons h k v rest hm
    rcases List.mem_cons.1 hkv with rfl | hmem
    · exact hv
    · exact ih hr kv hmem

/-- Behaviour of `pack_table` on a table whose keys are all strings: the brackets of a hash
around the pairs, each packed as key and value from the top of the stack. -/
theorem pack_table_map (h : Host) (hmap : h.MapLength) (f : Packer) (L : LuaState)
    (pk : OutboundPacketStream) (index : Int) (t : LuaTable)
    (hk : ∀ kv ∈ t, isStringKey kv.1 = true) (hs : slot L index = some (.table t))
    (hidx : index ≤ MAX_DEPTH) :
    pack_table h f L pk index
      = (pk.BeginHash >>= fun pk1 =>
          t.foldlM (fun pk kv =>
            f (kv.2 :: kv.1 :: L) pk (-2) >>= fun pk3 => f (kv.2 :: kv.1 :: L) pk3 (-1)) pk1
            >>= fun pk2 => pk2.EndHash) := by
  have hn : h.getn t = 0 := hmap t hk
  have hnot : ¬ index > (MAX_DEPTH : Int) := by omega
  simp only [pack_table, hnot, if_false, COMPAT_GETN, tableAt, hs, hn, gt_iff_lt,
    Nat.lt_irrefl, pack_hash]

theorem seqWire_eq (h : Host) : ∀ t : LuaTable, seqWire h t = mapWireList h (t.map Prod.snd) := by
  intro t
  induction t with
  | nil => rfl
  | cons x rest ih =>
    obtain ⟨k, v⟩ := x
    simp [seqWire, mapWireList, ih]

theorem fold_extend_map (h : Host)
    (F : OutboundPacketStream → LuaValue → Except PackError OutboundPacketStream) :
    ∀ (vs : List LuaValue),
      (∀ v ∈ vs, ∀ pk pk', F pk v = .ok pk' → pk' = pk.extend (mapWire h v)) →
      ∀ pk pk', vs.foldlM F pk = .ok pk' → pk' = pk.extend (mapWireList h vs) := by
  intro vs
  induction vs with
  | nil =>
    intro _ pk pk' hp
    simp only [List.foldlM_nil, pure_eq_ok] at hp
    injection hp with e
    simp [mapWireList, extend_nil, e]
  | cons v rest ih =>
    intro hF pk pk' hp
    rw [List.foldlM_cons] at hp
    obtain ⟨pk1, hv, hp⟩ := bind_eq_ok _ _ _ hp
    have h1 := hF v (by simp) pk pk1 hv
    have h2 := ih (fun w hw => hF w (by simp [hw])) pk1 pk' hp
    rw [h2, h1, extend_extend]
    rfl

theorem fold_extend_pairs (h : Host)
    (F : OutboundPacketStream → LuaValue × LuaValue → Except PackError OutboundPacketStream) :
    ∀ (t : LuaTable),
      (∀ kv ∈ t, ∀ pk pk', F pk kv = .ok pk' →
        pk' = pk.extend (mapWire h kv.1 ++ mapWire h kv.2)) →
      ∀ pk pk', t.foldlM F pk = .ok pk' → pk' = pk.extend (pairsWire h t) := by
  intro t
  induction t with
  | nil =>
    intro _ pk pk' hp
    simp only [List.foldlM_nil, pure_eq_ok] at hp
    injection hp with e
    simp [pairsWire, extend_nil, e]
  | cons x rest ih =>
    intro hF pk pk' hp
    obtain ⟨k, v⟩ := x
    rw [List.foldlM_cons] at hp
    obtain ⟨pk1, hv, hp⟩ := bind_eq_ok _ _ _ hp
    have h1 := hF (k, v) (by simp) pk pk1 hv
    have h2 := ih (fun w hw => hF w (by simp [hw])) pk1 pk' hp
    rw [h2, h1, extend_extend]
    simp [pairsWire]

theorem pack_lua_map (h : Host) (hreg : h.RegularLength) (hmap : h.MapLength) :
    ∀ (fuel : Nat) (v : LuaValue) (L : LuaState) (pk : OutboundPacketStream) (idx : Int)
      (pk' : OutboundPacketStream),
    mapValue h v = true → slot L (resolveIndex L idx) = some v →
    pack_lua h fuel L pk idx = .ok pk' → pk' = pk.extend (mapWire h v) := by
  intro fuel
  induction fuel with
  | zero => intro v L pk idx pk' _ _ hp; simp [pack_lua] at hp
  | succ fuel ih =>
    intro v L pk idx pk' hv hs hp
    cases v with
    | nil => simp [mapValue] at hv
    | boolean b =>
      rw [pack_lua_boolean h fuel L pk idx b hs] at hp
      rw [put_ok _ _ _ _ hp, mapWire]
    | number x =>
      rw [pack_lua_number h fuel L pk idx x hs] at hp
      rw [put_ok _ _ _ _ hp, mapWire]
    | string s =>
      rw [pack_lua_string h fuel L pk idx s hs] at hp
      rw [put_ok _ _ _ _ hp, mapWire]
    | table t =>
      rw [pack_lua_table h fuel L pk idx t hs] at hp
      have hidx : resolveIndex L idx ≤ MAX_DEPTH := by
        by_contra hc
        have hgt : resolveIndex L idx > (MAX_DEPTH : Int) := by omega
        simp [pack_table, hgt] at hp
      rcases mapValue_table h t hv with hm | ⟨x, rest, rfl, hsq⟩
      · rw [pack_table_map h hmap _ L pk _ t (mapEntries_keys h t hm) hs hidx] at hp
        obtain ⟨pk1, h1, hp⟩ := bind_eq_ok _ _ _ hp
        obtain ⟨pk2, h2, hp⟩ := bind_eq_ok _ _ _ hp
        have e2 := fold_extend_pairs h _ t
          (fun kv hkv pka pkb hpk => by
            obtain ⟨pkc, hk1, hk2⟩ := bind_eq_ok _ _ _ hpk
            have hkey : mapValue h kv.1 = true := by
              have := mapEntries_keys h t hm kv hkv
              cases hk : kv.1 <;> simp_all [isStringKey, mapValue]
            have hval : mapValue h kv.2 = true := mapEntries_values h t hm kv hkv
            have a1 := ih kv.1 (kv.2 :: kv.1 :: L) pka (-2) pkc hkey (slot_below _ _ _) hk1
            have a2 := ih kv.2 (kv.2 :: kv.1 :: L) pkc (-1) pkb hval (slot_top _ _) hk2
            rw [a2, a1, extend_extend]) pk1 pk2 h2
        rw [put_ok _ _ _ _ hp, e2, put_ok _ _ _ _ h1, extend_extend, extend_extend,
          mapWire_map h t hm]
        rfl
      · have hteq := mapSeqFrom_eq h (x :: rest) 1 hsq
        have hvals := mapSeqFrom_values h (x :: rest) 1 hsq
        have hs' : slot L (resolveIndex L idx) = some (seqTable ((x :: rest).map Prod.snd)) := by
          rw [hs, seqTable, seqEntries, ← hteq]
        rw [pack_table_regular h hreg _ L pk _ _
          (fun v hv' => mapValue_not_nil h v (hvals v hv')) (by simp) hs' hidx] at hp
        obtain ⟨pk1, h1, hp⟩ := bind_eq_ok _ _ _ hp
        obtain ⟨pk2, h2, hp⟩ := bind_eq_ok _ _ _ hp
        have e2 := fold_extend_map h (fun pk v => pack_lua h fuel (v :: L) pk (-1)) _
          (fun v hv' pk pk' hpk =>
            ih v (v :: L) pk (-1) pk' (hvals v hv') (slot_top v L) hpk) pk1 pk2 h2
        rw [put_ok _ _ _ _ hp, e2, put_ok _ _ _ _ h1, extend_extend, extend_extend,
          mapWire_seq h x rest hsq, seqWire_eq]
        rfl
    | function id => simp [mapValue] at hv
    | userdata id => simp [mapValue] at hv
    | thread id => simp [mapValue] at hv
    | lightuserdata id => simp [mapValue] at hv

theorem fold_args_map (h : Host) (hreg : h.RegularLength) (hmap : h.MapLength) (F : Nat)
    (L : LuaState) :
    ∀ (rest : List LuaValue) (k : Nat),
      (∀ v ∈ rest, mapValue h v = true) →
      (∀ j, j < rest.length → slot L (resolveIndex L ((k + j : Nat) : Int)) = rest[j]?) →
      ∀ pk pk', (List.range' k rest.length).foldlM (fun pk i => pack_lua h F L pk (i : Nat)) pk
        = .ok pk' → pk' = pk.extend (mapWireList h rest) := by
  intro rest
  induction rest with
  | nil =>
    intro k _ _ pk pk' hp
    simp only [List.length_nil, List.range'_zero, List.foldlM_nil, pure_eq_ok] at hp
    injection hp with e
    simp [mapWireList, extend_nil, e]
  | cons v rest ih =>
    intro k hv hs pk pk' hp
    simp only [List.length_cons, List.range'_succ, List.foldlM_cons] at hp
    obtain ⟨pk1, h1, hp⟩ := bind_eq_ok _ _ _ hp
    have e1 := pack_lua_map h hreg hmap F v L pk k pk1 (hv v (by simp))
      (by simpa using hs 0 (by simp)) h1
    have e2 := ih (k + 1) (fun w hw => hv w (by simp [hw]))
      (fun j hj => by
        have := hs (j + 1) (by simp; omega)
        rw [show k + (j + 1) = k + 1 + j by omega] at this
        simpa using this) pk1 pk' hp
    rw [e2, e1, extend_extend]
    rfl

theorem pack_map_values (h : Host) (hreg : h.RegularLength) (hmap : h.MapLength)
    (address : String) (values : List LuaValue) (hv : ∀ v ∈ values, mapValue h v = true)
    (p : ReceivedPacket) (hp : pack h (stackOf (.string address :: values)) = .ok p) :
    p = .message ⟨cstr address, some ((mapWireList h values).map Prod.fst),
      (mapWireList h values).map Prod.snd⟩ := by
  rw [pack_unfold] at hp
  obtain ⟨pk0, h0, hp⟩ := bind_eq_ok _ _ _ hp
  obtain ⟨pk1, h1, hp⟩ := bind_eq_ok _ _ _ hp
  have e0 := checked_ok _ _ h0
  have e1 := fold_args_map h hreg hmap (MAX_DEPTH + 1) (stackOf (.string address :: values))
    values 2 hv
    (fun j hj => by
      have := slot_stackOf (.string address :: values) (j + 1) (by simp; omega)
      rw [show 2 + j = j + 1 + 1 by omega]
      simpa using this) pk0 pk1 h1
  injection hp with hp
  rw [← hp, e1, e0]
  simp [OutboundPacketStream.EndMessage, OutboundPacketStream.extend]

theorem unpack_map_values (h : Host) (address : String) (values : List LuaValue)
    (ha : cstr address = address) (hv : ∀ v ∈ values, mapValue h v = true) (L : LuaState)
    (fuel : Nat) (hfuel : 2 * (mapWireList h values).length + 1 ≤ fuel) :
    unpack_packet h fuel L (.message ⟨address, some ((mapWireList h values).map Prod.fst),
        (mapWireList h values).map Prod.snd⟩)
      = .ok (values.length + 1, values.reverse ++ .string address :: L) := by
  have hw := Holds_self (mapWireList h values) []
  simp only [List.nil_append, List.length_nil] at hw
  have := args_loop_map h values fuel hv hfuel _ _ 0 (.string address :: L) 0 hw (by simp)
  simp only [unpack_packet, lua_pushstring, ha, ReceivedMessage.TypeTags, parse_osc_array_sz]
  rw [this]
  simp

theorem map_values_roundtrip (h : Host) (hreg : h.RegularLength) (hmap : h.MapLength)
    (address : String) (values : List LuaValue) (ha : cstr address = address)
    (hb : IsBundleBytes address = false)
    (hv : ∀ v ∈ values, mapValue h v = true) : RoundTrips h address values := by
  intro p hp asBundle L
  have e := pack_map_values h hreg hmap address values hv p hp
  rw [ha] at e
  refine ⟨2 * (mapWireList h values).length + 1, fun fuel hfuel => ?_⟩
  refine ⟨values.length + 1, values.reverse ++ .string address :: L, ?_, ?_⟩
  · rw [e, unpack_of_message h asBundle fuel L _ hb]
    exact unpack_map_values h address values ha hv L fuel hfuel
  · have e2 : values.reverse ++ .string address :: L
        = (values.reverse ++ [.string address]) ++ L := by simp
    have e3 : (values.reverse ++ [LuaValue.string address]).length = values.length + 1 := by simp
    simp only [returned, List.length_append, List.length_reverse, List.length_cons]
    rw [if_pos (by omega), e2, List.take_left' e3]
    simp

theorem rawget_string_keys (n : Nat) : ∀ t : LuaTable, (∀ kv ∈ t, isStringKey kv.1 = true) →
    rawget t (intKey n) = .nil := by
  intro t
  induction t with
  | nil => intro _; rfl
  | cons x rest ih =>
    intro hk
    obtain ⟨k, v⟩ := x
    have h1 : isStringKey k = true := hk (k, v) (by simp)
    have h2 : keyEq k (intKey n) = false := by
      cases k <;> simp_all [isStringKey, keyEq, intKey]
    simp only [rawget, h2, Bool.false_eq_true, if_false]
    exact ih (fun kv hkv => hk kv (by simp [hkv]))

theorem sampleHost_map : sampleHost.MapLength := by
  intro t hk
  show firstBorder t = 0
  unfold firstBorder
  have hp : ∀ i, (!(rawget t (intKey (i + 1))).isNil) = false := by
    intro i
    rw [rawget_string_keys (i + 1) t hk]
    rfl
  cases hl : List.range t.length with
  | nil => rfl
  | cons a l => simp [List.takeWhile_cons, hp]

/-- C19, amended. Map round trip: for every address string without a zero byte that does not
begin with the bundle marker `#`, and every map whose keys are strings without a zero byte, each
key once, and whose values are booleans, numbers that the cast to float keeps, strings without a
zero byte, regular arrays of such values that are not empty, or such maps (nested to any depth),
on a host whose length operator returns `n` for a regular array of `n` values and 0 for a table
whose keys are all strings: if `osc::pack` returns a packet for the address and the map, then
`osc::unpack` on the bytes of that packet, given enough steps and room on the Lua stack, reports
and leaves on the stack the address followed by one table with exactly the pairs of the map, in
the order in which the encoder walked them, whatever that order is. -/
theorem pack_unpack_map_roundtrip (h : Host) (hreg : h.RegularLength) (hmap : h.MapLength)
    (address : String) (t : LuaTable) (ha : cstr address = address)
    (hb : IsBundleBytes address = false)
    (hm : mapEntries h t = true) : RoundTrips h address [.table t] :=
  map_values_roundtrip h hreg hmap address [.table t] ha hb
    (fun v hv => by
      simp only [List.mem_singleton] at hv
      subst hv
      simp [mapValue, hm])

/-- Witness of C19: a map with a boolean, an array that holds a number and an empty map, and a
nested map round trips on the sample host, and `osc::pack` does return a packet for it. -/
theorem pack_unpack_map_roundtrip_witness :
    RoundTrips sampleHost "/foo"
        [.table [(.string "a", .boolean true),
          (.string "b", seqTable [.number (.int 1), .table []]),
          (.string "c", .table [(.string "x", .string "y")])]]
      ∧ ∃ p, pack sampleHost (stackOf [.string "/foo",
          .table [(.string "a", .boolean true),
            (.string "b", seqTable [.number (.int 1), .table []]),
            (.string "c", .table [(.string "x", .string "y")])]]) = .ok p :=
  ⟨pack_unpack_map_roundtrip sampleHost sampleHost_regular sampleHost_map "/foo" _ (by decide)
      (by decide) (by decide),
    ⟨_, rfl⟩⟩

/-- C19 as stated fails twice on the sample host. For a key with a zero byte: the map with the
single pair `"a\0b" ↦ true` is written with the key cut at the zero byte and comes back as the
map with the pair `"a" ↦ true`. And for the address `#bundle`: the packet written for it and the
map `"a" ↦ true` begins with the bundle marker, `osc::unpack` takes its bytes for a bundle and,
whatever it finds in them, fails or returns one value, never the address followed by the map. -/
theorem map_key_with_zero_byte_is_cut :
    ¬ RoundTrips sampleHost "/a" [.table [(.string "a\x00b", .boolean true)]]
      ∧ ¬ RoundTrips sampleHost "#bundle" [.table [(.string "a", .boolean true)]] := by
  constructor
  · intro hrt
    have hpk : pack sampleHost
        (stackOf [.string "/a", .table [(.string "a\x00b", .boolean true)]])
        = .ok (.message ⟨"/a",
            some [HASH_BEGIN_TYPE_TAG, STRING_TYPE_TAG, TRUE_TYPE_TAG, HASH_END_TYPE_TAG],
            [.none, .str "a", .none, .none]⟩) := rfl
    obtain ⟨N, hN⟩ := hrt _ hpk (fun _ => .ok []) []
    obtain ⟨n, L', h1, h2⟩ := hN (N + 8) (by omega)
    have e : unpack sampleHost (fun _ => .ok []) (N + 8) []
        (.message ⟨"/a",
          some [HASH_BEGIN_TYPE_TAG, STRING_TYPE_TAG, TRUE_TYPE_TAG, HASH_END_TYPE_TAG],
          [.none, .str "a", .none, .none]⟩)
        = .ok (2, [.table [(.string "a", .boolean true)], .string "/a"]) := rfl
    rw [e] at h1
    injection h1 with h1
    injection h1 with hn hL
    subst hn hL
    simp [returned] at h2
  · intro hrt
    have hpk : pack sampleHost
        (stackOf [.string "#bundle", .table [(.string "a", .boolean true)]])
        = .ok (.message ⟨"#bundle",
            some [HASH_BEGIN_TYPE_TAG, STRING_TYPE_TAG, TRUE_TYPE_TAG, HASH_END_TYPE_TAG],
            [.none, .str "a", .none, .none]⟩) := rfl
    obtain ⟨N, hN⟩ := hrt _ hpk (fun _ => .ok []) []
    obtain ⟨n, L', h1, h2⟩ := hN N (Nat.le_refl N)
    have hn := unpack_marked_count sampleHost _ N []
      ⟨"#bundle", some [HASH_BEGIN_TYPE_TAG, STRING_TYPE_TAG, TRUE_TYPE_TAG, HASH_END_TYPE_TAG],
        [.none, .str "a", .none, .none]⟩ rfl n L' h1
    have hl := returned_length n L' _ h2
    rw [hn] at hl
    simp at hl

/-! ## What stops the walk of the encoder -/

theorem outcome_put (c : Char) (a : ArgData) :
    Outcome (fun pk => pk.put c a) [(c, a)] Option.none := by
  refine ⟨fun e he => (by cases he), fun pk _ => ?_⟩
  show pk.put c a = _
  rw [put_eq]
  rfl

theorem outcome_error (e : PackError) (he : e ∈ stopErrors) :
    Outcome (fun _ => .error e) [] (some e) := by
  refine ⟨fun e1 h1 => by injection h1 with h1; rw [← h1]; exact he, fun pk hfit => ?_⟩
  rw [extend_nil, if_pos hfit]

theorem outcome_bind_stop (f g : OutboundPacketStream → Except PackError OutboundPacketStream)
    (w : List (Char × ArgData)) (e : PackError) (hf : Outcome f w (some e)) :
    Outcome (fun pk => f pk >>= g) w (some e) := by
  refine ⟨hf.1, fun pk hfit => ?_⟩
  show (f pk >>= g) = _
  rw [hf.2 pk hfit]
  by_cases hc : (pk.extend w).Size ≤ pk.capacity
  · rw [if_pos hc]; rfl
  · rw [if_neg hc]; rfl

theorem outcome_bind (f g : OutboundPacketStream → Except PackError OutboundPacketStream)
    (w1 w2 : List (Char × ArgData)) (r : Option PackError) (hf : Outcome f w1 Option.none)
    (hg : Outcome g w2 r) : Outcome (fun pk => f pk >>= g) (w1 ++ w2) r := by
  refine ⟨hg.1, fun pk hfit => ?_⟩
  show (f pk >>= g) = _
  rw [hf.2 pk hfit]
  have hmono : (pk.extend w1).Size ≤ (pk.extend (w1 ++ w2)).Size := by
    rw [← extend_extend]; exact size_extend _ _
  by_cases hc : (pk.extend w1).Size ≤ pk.capacity
  · rw [if_pos hc]
    simp only [ok_bind]
    rw [hg.2 (pk.extend w1) hc, extend_extend]
    rfl
  · rw [if_neg hc, if_neg (by omega)]
    rfl

theorem has_outcome_bind (f g : OutboundPacketStream → Except PackError OutboundPacketStream)
    (hf : ∃ w r, Outcome f w r) (hg : ∃ w r, Outcome g w r) :
    ∃ w r, Outcome (fun pk => f pk >>= g) w r := by
  obtain ⟨w1, r1, h1⟩ := hf
  obtain ⟨w2, r2, h2⟩ := hg
  cases r1 with
  | none => exact ⟨w1 ++ w2, r2, outcome_bind f g w1 w2 r2 h1 h2⟩
  | some e => exact ⟨w1, some e, outcome_bind_stop f g w1 e h1⟩

theorem has_outcome_pure : ∃ w r, Outcome (fun pk => pure pk) w r := by
  refine ⟨[], Option.none, fun e he => (by cases he), fun pk hfit => ?_⟩
  rw [extend_nil, if_pos hfit]
  rfl

theorem has_outcome_fold {α : Type}
    (F : OutboundPacketStream → α → Except PackError OutboundPacketStream) :
    ∀ xs : List α, (∀ x ∈ xs, ∃ w r, Outcome (fun pk => F pk x) w r) →
      ∃ w r, Outcome (fun pk => xs.foldlM F pk) w r := by
  intro xs
  induction xs with
  | nil => intro _; exact has_outcome_pure
  | cons x xs ih =>
    intro hx
    obtain ⟨w, r, ho⟩ := has_outcome_bind (fun pk => F pk x) (fun pk => xs.foldlM F pk)
      (hx x (by simp)) (ih (fun y hy => hx y (by simp [hy])))
    refine ⟨w, r, ho.1, fun pk hfit => ?_⟩
    show (x :: xs).foldlM F pk = _
    rw [List.foldlM_cons]
    exact ho.2 pk hfit

theorem tableAt_slot (L : LuaState) (idx : Int) (t : LuaTable)
    (hs : slot L idx = some (.table t)) : tableAt L idx = t := by
  simp [tableAt, hs]

/-- Every call of `pack_lua` on a slot that holds a value writes a fixed list of tags and
payloads and then returns or raises a fixed error, whatever the stream it is given; the buffer
decides only whether the buffer error comes first. -/
theorem pack_lua_outcome (h : Host) : ∀ (fuel : Nat) (L : LuaState) (idx : Int) (v : LuaValue),
    slot L (resolveIndex L idx) = some v →
    ∃ w r, Outcome (fun pk => pack_lua h fuel L pk idx) w r := by
  intro fuel
  induction fuel with
  | zero => intro L idx v _; exact ⟨_, _, outcome_error _ (by simp [stopErrors])⟩
  | succ fuel ih =>
    intro L idx v hs
    cases v with
    | nil =>
      rw [funext (fun pk => pack_lua_nil h fuel L pk idx hs)]
      exact ⟨_, _, outcome_put _ _⟩
    | boolean b =>
      rw [funext (fun pk => pack_lua_boolean h fuel L pk idx b hs)]
      exact ⟨_, _, outcome_put _ _⟩
    | number x =>
      rw [funext (fun pk => pack_lua_number h fuel L pk idx x hs)]
      exact ⟨_, _, outcome_put _ _⟩
    | string s =>
      rw [funext (fun pk => pack_lua_string h fuel L pk idx s hs)]
      exact ⟨_, _, outcome_put _ _⟩
    | table t =>
      rw [funext (fun pk => pack_lua_table h fuel L pk idx t hs)]
      unfold pack_table
      split
      · exact ⟨_, _, outcome_error _ (by simp [stopErrors])⟩
      · simp only []
        split
        · unfold pack_array
          refine has_outcome_bind _ _ ⟨_, _, outcome_put _ _⟩
            (has_outcome_bind _ _ ?_ ⟨_, _, outcome_put _ _⟩)
          exact has_outcome_fold _ _ (fun i _ => ih _ _ _ (slot_top _ _))
        · unfold pack_hash
          refine has_outcome_bind _ _ ⟨_, _, outcome_put _ _⟩
            (has_outcome_bind _ _ ?_ ⟨_, _, outcome_put _ _⟩)
          exact has_outcome_fold _ _ (fun kv _ =>
            has_outcome_bind _ _ (ih _ _ _ (slot_below _ _ _)) (ih _ _ _ (slot_top _ _)))
    | function id =>
      rw [funext (fun pk => pack_lua_function h fuel L pk idx id hs)]
      exact ⟨_, _, outcome_error _ (by simp [stopErrors])⟩
    | userdata id =>
      rw [funext (fun pk => pack_lua_userdata h fuel L pk idx id hs)]
      exact ⟨_, _, outcome_error _ (by simp [stopErrors])⟩
    | thread id =>
      rw [funext (fun pk => pack_lua_thread h fuel L pk idx id hs)]
      exact ⟨_, _, outcome_error _ (by simp [stopErrors])⟩
    | lightuserdata id =>
      rw [funext (fun pk => pack_lua_lightuserdata h fuel L pk idx id hs)]
      exact ⟨_, _, outcome_error _ (by simp [stopErrors])⟩

theorem packInto_unfold (h : Host) (C : Nat) (address : String) (values : List LuaValue) :
    packInto h C (stackOf (.string address :: values))
      = (OutboundPacketStream.BeginMessage C address >>= fun pk0 =>
          (List.range' 2 values.length).foldlM
            (fun pk i => pack_lua h (MAX_DEPTH + 1) (stackOf (.string address :: values)) pk (i : Nat))
            pk0 >>= fun pk1 => .ok pk1.EndMessage) := by
  have hs : slot (stackOf (.string address :: values)) 1 = some (.string address) := by
    have := slot_stackOf (.string address :: values) 0 (by simp)
    simpa [resolve_nat] using this
  have hl : (stackOf (.string address :: values)).length - 1 = values.length := by
    simp [stackOf]
  simp only [packInto, luaL_checkstring, lua_tolstring, hs, lua_gettop, hl]
  rfl

theorem slot_argument (url : String) (args : List LuaValue) (i : Nat) (h2 : 2 ≤ i)
    (hi : i < 2 + args.length) :
    ∃ v, v ∈ args ∧ slot (stackOf (.string url :: args))
      (resolveIndex (stackOf (.string url :: args)) ((i : Nat) : Int)) = some v := by
  obtain ⟨j, rfl⟩ : ∃ j, i = j + 2 := ⟨i - 2, by omega⟩
  have hj : j < args.length := by omega
  have h1 := slot_stackOf (.string url :: args) (j + 1) (by simp; omega)
  rw [show j + 1 + 1 = j + 2 by omega] at h1
  refine ⟨args[j], List.getElem_mem hj, ?_⟩
  rw [h1]
  simp [List.getElem?_eq_getElem hj]

/-- The call `osc::pack` as a whole: the walk of the arguments writes a fixed list of tags and
payloads and then ends or raises a fixed error; over a buffer of `C` bytes the call raises the
buffer error if the message with all of them takes more than `C` bytes. -/
theorem packInto_outcome (h : Host) (url : String) (args : List LuaValue) :
    ∃ (w : List (Char × ArgData)) (r : Option PackError),
      (∀ e, r = some e → e ∈ stopErrors)
        ∧ ∀ C, packInto h C (stackOf (.string url :: args))
          = if ((OutboundPacketStream.mk 0 (cstr url) [] []).extend w).Size ≤ C then
              (match r with
                | Option.none =>
                  .ok (.message ⟨cstr url, some (w.map Prod.fst), w.map Prod.snd⟩)
                | some e => .error e)
            else .error .outOfBuffer := by
  obtain ⟨w, r, hkind, hrun⟩ := has_outcome_fold
    (fun pk (i : Nat) => pack_lua h (MAX_DEPTH + 1) (stackOf (.string url :: args)) pk (i : Nat))
    (List.range' 2 args.length) (fun i hi => by
      simp only [List.mem_range'_1] at hi
      obtain ⟨v, _, hs⟩ := slot_argument url args i hi.1 hi.2
      exact pack_lua_outcome h _ _ _ v hs)
  refine ⟨w, r, hkind, fun C => ?_⟩
  rw [packInto_unfold]
  have hsz : ∀ w1, ((OutboundPacketStream.mk C (cstr url) [] []).extend w1).Size
      = ((OutboundPacketStream.mk 0 (cstr url) [] []).extend w1).Size := fun _ => rfl
  have hmono := size_extend (OutboundPacketStream.mk C (cstr url) [] []) w
  rw [hsz w] at hmono
  unfold OutboundPacketStream.BeginMessage OutboundPacketStream.checked
  by_cases hc : (OutboundPacketStream.mk C (cstr url) [] []).Size
      ≤ (OutboundPacketStream.mk C (cstr url) [] []).capacity
  · rw [if_pos hc]
    simp only [ok_bind]
    have hr0 := hrun _ hc
    beta_reduce at hr0
    rw [hr0, hsz w]
    have hcap : (OutboundPacketStream.mk C (cstr url) [] []).capacity = C := rfl
    rw [hcap]
    by_cases hc2 : ((OutboundPacketStream.mk 0 (cstr url) [] []).extend w).Size ≤ C
    · rw [if_pos hc2, if_pos hc2]
      cases r with
      | none =>
        simp only [ok_bind]
        simp [OutboundPacketStream.EndMessage, OutboundPacketStream.extend]
      | some e => rfl
    · rw [if_neg hc2, if_neg hc2]
      rfl
  · have hcap : (OutboundPacketStream.mk C (cstr url) [] []).capacity = C := rfl
    rw [hcap] at hc
    rw [if_neg (by rw [hcap]; exact hc), if_neg (by omega)]
    rfl

/-! ## The error of an unsupported value -/

theorem put_ne_stop (pk : OutboundPacketStream) (c : Char) (a : ArgData) (e0 : PackError)
    (h0 : e0 ≠ .outOfBuffer) : pk.put c a ≠ .error e0 := by
  rw [put_eq]
  unfold OutboundPacketStream.checked
  split
  · simp
  · intro hc
    injection hc with hc
    exact h0 hc.symm

theorem stackNeed_mem : ∀ (t : LuaTable) (kv : LuaValue × LuaValue), kv ∈ t →
    stackNeed kv.1 ≤ stackNeedPairs t ∧ stackNeed kv.2 ≤ stackNeedPairs t := by
  intro t
  induction t with
  | nil => intro kv hkv; simp at hkv
  | cons x rest ih =>
    intro kv hkv
    obtain ⟨k, v⟩ := x
    simp only [stackNeedPairs]
    rcases List.mem_cons.1 hkv with rfl | hm
    · simp only []
      omega
    · have := ih kv hm
      omega

theorem stackNeed_rawget : ∀ (t : LuaTable) (k : LuaValue),
    stackNeed (rawget t k) ≤ stackNeedPairs t := by
  intro t
  induction t with
  | nil => intro k; simp [rawget, stackNeed]
  | cons x rest ih =>
    intro k
    obtain ⟨k1, v1⟩ := x
    simp only [rawget, stackNeedPairs]
    split
    · omega
    · have := ih k
      omega

/-- The depth guard of `pack_table` does not fire in the walk of a value when the stack has
room below `MAX_DEPTH` for the slots the walk takes. -/
theorem pack_lua_ne_tooLarge (h : Host) : ∀ (fuel : Nat) (L : LuaState)
    (pk : OutboundPacketStream) (idx : Int) (v : LuaValue),
    slot L (resolveIndex L idx) = some v → L.length + stackNeed v ≤ MAX_DEPTH →
    pack_lua h fuel L pk idx ≠ .error .tooLarge := by
  intro fuel
  induction fuel with
  | zero => intro L pk idx v _ _; simp [pack_lua]
  | succ fuel ih =>
    intro L pk idx v hs hb
    cases v with
    | nil => rw [pack_lua_nil h _ L pk idx hs]; exact put_ne_stop _ _ _ _ (by simp)
    | boolean b => rw [pack_lua_boolean h _ L pk idx b hs]; exact put_ne_stop _ _ _ _ (by simp)
    | number x => rw [pack_lua_number h _ L pk idx x hs]; exact put_ne_stop _ _ _ _ (by simp)
    | string s => rw [pack_lua_string h _ L pk idx s hs]; exact put_ne_stop _ _ _ _ (by simp)
    | table t =>
      rw [pack_lua_table h _ L pk idx t hs]
      obtain ⟨hlo, hhi⟩ := slot_bounds L _ _ hs
      have ht := tableAt_slot L _ t hs
      simp only [stackNeed] at hb
      unfold pack_table
      split
      · rename_i hgt
        exfalso
        omega
      · dsimp only
        split
        · unfold pack_array
          refine bind_ne_err _ _ _ (put_ne_stop _ _ _ _ (by simp)) (fun pk1 => ?_)
          refine bind_ne_err _ _ _ ?_ (fun pk2 => put_ne_stop _ _ _ _ (by simp))
          apply foldlM_ne_err
          intro i _ pk3
          refine ih _ pk3 (-1) _ (slot_top _ _) ?_
          have := stackNeed_rawget t (intKey i)
          show List.length (rawget (tableAt L (resolveIndex L idx)) (intKey i) :: L)
            + stackNeed (rawget (tableAt L (resolveIndex L idx)) (intKey i)) ≤ MAX_DEPTH
          rw [ht, List.length_cons]
          omega
        · unfold pack_hash
          refine bind_ne_err _ _ _ (put_ne_stop _ _ _ _ (by simp)) (fun pk1 => ?_)
          refine bind_ne_err _ _ _ ?_ (fun pk2 => put_ne_stop _ _ _ _ (by simp))
          apply foldlM_ne_err
          intro kv hkv pk3
          rw [ht] at hkv
          have := stackNeed_mem t kv hkv
          refine bind_ne_err _ _ _ ?_ (fun pk4 => ?_)
          · refine ih _ pk3 (-2) kv.1 (slot_below _ _ _) ?_
            simp only [List.length_cons]
            omega
          · refine ih _ pk4 (-1) kv.2 (slot_top _ _) ?_
            simp only [List.length_cons]
            omega
    | function id => rw [pack_lua_function h _ L pk idx id hs]; simp
    | userdata id => rw [pack_lua_userdata h _ L pk idx id hs]; simp
    | thread id => rw [pack_lua_thread h _ L pk idx id hs]; simp
    | lightuserdata id => rw [pack_lua_lightuserdata h _ L pk idx id hs]; simp

theorem beginMessage_ne_stop (C : Nat) (url : String) (e0 : PackError) (h0 : e0 ≠ .outOfBuffer) :
    OutboundPacketStream.BeginMessage C url ≠ .error e0 := by
  unfold OutboundPacketStream.BeginMessage OutboundPacketStream.checked
  split
  · simp
  · intro hc
    injection hc with hc
    exact h0 hc.symm

theorem packInto_ne_tooLarge (h : Host) (C : Nat) (url : String) (args : List LuaValue)
    (hb : ∀ v ∈ args, args.length + 1 + stackNeed v ≤ MAX_DEPTH) :
    packInto h C (stackOf (.string url :: args)) ≠ .error .tooLarge := by
  rw [packInto_unfold]
  refine bind_ne_err _ _ _ (beginMessage_ne_stop _ _ _ (by simp)) (fun pk0 => ?_)
  refine bind_ne_err _ _ _ ?_ (fun pk1 => by simp)
  apply foldlM_ne_err
  intro i hi pk
  simp only [List.mem_range'_1] at hi
  obtain ⟨v, hv, hs⟩ := slot_argument url args i hi.1 hi.2
  refine pack_lua_ne_tooLarge h _ _ pk _ v hs ?_
  have := hb v hv
  simp only [stackOf, List.length_reverse, List.length_cons]
  omega

theorem packInto_ne_fuel (h : Host) (C : Nat) (url : String) (args : List LuaValue) :
    packInto h C (stackOf (.string url :: args)) ≠ .error .outOfFuel := by
  rw [packInto_unfold]
  refine bind_ne_err _ _ _ (beginMessage_ne_stop _ _ _ (by simp)) (fun pk0 => ?_)
  refine bind_ne_err _ _ _ ?_ (fun pk1 => by simp)
  apply foldlM_ne_fuel
  intro i hi pk
  apply pack_lua_ne_fuel
  rw [resolve_nat]
  simp only [List.mem_range'_1] at hi
  simp only [MAX_DEPTH]
  omega

theorem packInto_fails_at (h : Host) (C : Nat) (url : String) (args : List LuaValue)
    (v : LuaValue) (hmem : v ∈ args)
    (hfail : ∀ (i : Nat) (pk : OutboundPacketStream), 2 ≤ i →
      slot (stackOf (.string url :: args)) (resolveIndex (stackOf (.string url :: args)) (i : Nat))
        = some v →
      ∃ e, pack_lua h (MAX_DEPTH + 1) (stackOf (.string url :: args)) pk (i : Nat) = .error e) :
    ∃ e, packInto h C (stackOf (.string url :: args)) = .error e := by
  rw [packInto_unfold]
  refine bind_fails _ _ (fun pk0 => error_bind_fails _ _ ?_)
  obtain ⟨j, hj, hjv⟩ := List.getElem_of_mem hmem
  have hslot := slot_stackOf (.string url :: args) (j + 1) (by simp; omega)
  have hget : (LuaValue.string url :: args)[j + 1]? = some v := by
    simp [List.getElem?_eq_getElem hj, hjv]
  rw [hget] at hslot
  refine foldlM_fails _ (j + 2) _ (by simp [List.mem_range'_1]; omega) (fun pk => ?_) pk0
  exact hfail (j + 2) pk (by omega) hslot

theorem pack_lua_reaches (h : Host) : ∀ (fuel depth : Nat) (v : LuaValue)
    (L : LuaState) (pk : OutboundPacketStream) (idx : Int),
    reachesUnsupported h depth v = true → slot L (resolveIndex L idx) = some v →
    ∃ e, pack_lua h fuel L pk idx = .error e := by
  intro fuel
  induction fuel with
  | zero => intro depth v L pk idx _ _; exact ⟨_, rfl⟩
  | succ fuel ih =>
    intro depth v L pk idx hv hs
    cases v with
    | nil => cases depth <;> simp [reachesUnsupported] at hv
    | boolean b => cases depth <;> simp [reachesUnsupported] at hv
    | number x => cases depth <;> simp [reachesUnsupported] at hv
    | string s => cases depth <;> simp [reachesUnsupported] at hv
    | function id => exact ⟨_, pack_lua_function h fuel L pk idx id hs⟩
    | userdata id => exact ⟨_, pack_lua_userdata h fuel L pk idx id hs⟩
    | thread id => exact ⟨_, pack_lua_thread h fuel L pk idx id hs⟩
    | lightuserdata id => exact ⟨_, pack_lua_lightuserdata h fuel L pk idx id hs⟩
    | table t =>
      cases depth with
      | zero => simp [reachesUnsupported] at hv
      | succ depth =>
        rw [pack_lua_table h fuel L pk idx t hs]
        have ht := tableAt_slot L _ t hs
        by_cases hgt : (MAX_DEPTH : Int) < resolveIndex L idx
        · exact ⟨_, pack_table_too_large h _ L pk _ hgt⟩
        · simp only [reachesUnsupported] at hv
          by_cases hn : h.getn t > 0
          · rw [if_pos hn] at hv
            obtain ⟨i, hi, hbad⟩ := List.any_eq_true.1 hv
            have e : pack_table h (pack_lua h fuel) L pk (resolveIndex L idx)
                = pack_array (pack_lua h fuel) L pk (resolveIndex L idx) (h.getn t) := by
              simp [pack_table, hgt, COMPAT_GETN, ht, hn]
            rw [e]
            unfold pack_array
            refine bind_fails _ _ (fun pk1 => error_bind_fails _ _ ?_)
            refine foldlM_fails _ i _ hi (fun pk2 => ?_) pk1
            refine ih depth _ _ pk2 (-1) ?_ (slot_top _ _)
            rw [ht]
            exact hbad
          · rw [if_neg hn] at hv
            obtain ⟨kv, hkv, hbad⟩ := List.any_eq_true.1 hv
            have e : pack_table h (pack_lua h fuel) L pk (resolveIndex L idx)
                = pack_hash (pack_lua h fuel) L pk (resolveIndex L idx) := by
              simp [pack_table, hgt, COMPAT_GETN, ht, hn]
            rw [e]
            unfold pack_hash
            refine bind_fails _ _ (fun pk1 => error_bind_fails _ _ ?_)
            rw [ht]
            refine foldlM_fails _ kv t hkv (fun pk2 => ?_) pk1
            simp only [Bool.or_eq_true] at hbad
            rcases hbad with hk | hv'
            · exact error_bind_fails _ _
                (ih depth kv.1 (kv.2 :: kv.1 :: L) pk2 (-2) hk (slot_below kv.2 kv.1 L))
            · exact bind_fails _ _
                (fun pk3 => ih depth kv.2 (kv.2 :: kv.1 :: L) pk3 (-1) hv' (slot_top kv.2 (kv.1 :: L)))

/-- C6, amended. For every url and argument list in which the walk of the encoder visits a
value of an unsupported kind (function, userdata, thread, light userdata), be it an argument
itself or nested to any depth inside sequences (tables of length `n > 0`, which are walked at
the indices 1 to `n`) and maps (tables of length 0, of which every key and value is walked), and
with room on the Lua stack for the slots the walk pushes: `osc::pack` fails and returns no
packet, so that the value is never silently omitted. The walk of the arguments is stopped by an
error `e` after it has written a message of `S` bytes: `e` is the cannot-pack error, naming the
type `function`, `userdata` or `thread`, or the too-large error of `pack_table`, and it is not
the latter when the values on the stack and the slots the walk takes for any argument (two for
each level of tables) stay within `MAX_DEPTH`. The call fails with `e` when the `S` bytes fit
the buffer and with the buffer error when they do not, for the buffer of `osc::pack` and for a
buffer of any other size `C`. -/
theorem pack_unsupported_fails (h : Host) (url : String)
    (args : List LuaValue) (hv : ∃ v ∈ args, ∃ depth, reachesUnsupported h depth v = true) :
    ∃ (e : PackError) (S : Nat),
      (e = .cannotPack "function" ∨ e = .cannotPack "userdata" ∨ e = .cannotPack "thread"
          ∨ e = .tooLarge)
        ∧ ((∀ v ∈ args, args.length + 1 + stackNeed v ≤ MAX_DEPTH) → e ≠ .tooLarge)
        ∧ (∀ C, packInto h C (stackOf (.string url :: args))
            = if S ≤ C then .error e else .error .outOfBuffer)
        ∧ pack h (stackOf (.string url :: args))
            = if S ≤ MAX_BUFF_SIZE then .error e else .error .outOfBuffer := by
  obtain ⟨v, hmem, depth, hbad⟩ := hv
  have hfail : ∀ C, ∃ e, packInto h C (stackOf (.string url :: args)) = .error e :=
    fun C => packInto_fails_at h C url args v hmem
      (fun i pk _ hs => pack_lua_reaches h _ depth v _ pk _ hbad hs)
  obtain ⟨w, r, hkind, hrun⟩ := packInto_outcome h url args
  have hS := hrun ((OutboundPacketStream.mk 0 (cstr url) [] []).extend w).Size
  rw [if_pos (Nat.le_refl _)] at hS
  cases r with
  | none =>
    obtain ⟨e, he⟩ := hfail ((OutboundPacketStream.mk 0 (cstr url) [] []).extend w).Size
    rw [he] at hS
    cases hS
  | some e =>
    have hS' : packInto h ((OutboundPacketStream.mk 0 (cstr url) [] []).extend w).Size
        (stackOf (.string url :: args)) = .error e := hS
    have hne := packInto_ne_fuel h
      ((OutboundPacketStream.mk 0 (cstr url) [] []).extend w).Size url args
    rw [hS'] at hne
    have hk := hkind e rfl
    refine ⟨e, _, ?_, fun hb => ?_, fun C => hrun C, hrun MAX_BUFF_SIZE⟩
    · simp only [stopErrors, List.mem_cons, List.mem_singleton, List.not_mem_nil, or_false] at hk
      rcases hk with hk | hk | hk | hk | hk
      · exact absurd (by rw [hk]) hne
      · exact Or.inr (Or.inr (Or.inr hk))
      · exact Or.inl hk
      · exact Or.inr (Or.inl hk)
      · exact Or.inr (Or.inr (Or.inl hk))
    · have hnt := packInto_ne_tooLarge h
        ((OutboundPacketStream.mk 0 (cstr url) [] []).extend w).Size url args hb
      rw [hS'] at hnt
      intro hc
      exact hnt (by rw [hc])

/-- Witness of C6: a function nested in an array that is the value of a map entry; the call
fails with the cannot-pack error that names the type `function`. -/
theorem pack_unsupported_fails_witness :
    (∃ (e : PackError) (S : Nat),
      (e = .cannotPack "function" ∨ e = .cannotPack "userdata" ∨ e = .cannotPack "thread"
          ∨ e = .tooLarge)
        ∧ ((∀ v ∈ [LuaValue.number (.int 1),
              .table [(.string "k", seqTable [.boolean true, .function 0])]],
            [LuaValue.number (.int 1),
              .table [(.string "k", seqTable [.boolean true, .function 0])]].length + 1
              + stackNeed v ≤ MAX_DEPTH) → e ≠ .tooLarge)
        ∧ (∀ C, packInto sampleHost C (stackOf (.string "/foo" :: [.number (.int 1),
              .table [(.string "k", seqTable [.boolean true, .function 0])]]))
            = if S ≤ C then .error e else .error .outOfBuffer)
        ∧ pack sampleHost (stackOf (.string "/foo" :: [.number (.int 1),
              .table [(.string "k", seqTable [.boolean true, .function 0])]]))
            = if S ≤ MAX_BUFF_SIZE then .error e else .error .outOfBuffer)
      ∧ pack sampleHost (stackOf (.string "/foo" :: [.number (.int 1),
            .table [(.string "k", seqTable [.boolean true, .function 0])]]))
          = .error (.cannotPack "function") :=
  ⟨pack_unsupported_fails sampleHost "/foo"
      [.number (.int 1), .table [(.string "k", seqTable [.boolean true, .function 0])]]
      ⟨.table [(.string "k", seqTable [.boolean true, .function 0])], by simp, 2, by decide⟩,
    rfl⟩

theorem cstr_replicate (n : Nat) (c : Char) (hc : c ≠ NUL) :
    cstr (String.mk (List.replicate n c)) = String.mk (List.replicate n c) := by
  have hp : (c != NUL) = true := by simpa using hc
  simp [cstr, List.takeWhile_replicate, hp]

theorem length_replicate_string (n : Nat) (c : Char) :
    (String.mk (List.replicate n c)).length = n := by
  simp [String.length]

theorem long_string_fills_buffer (fuel : Nat) (L : LuaState) (idx : Int) (s : String)
    (hs : slot L (resolveIndex L idx) = some (.string s)) (hlen : 8188 ≤ (cstr s).length) :
    pack_lua sampleHost (fuel + 1) L ⟨MAX_BUFF_SIZE, "/a", [], []⟩ idx = .error .outOfBuffer := by
  rw [pack_lua_string sampleHost fuel L _ idx _ hs]
  unfold OutboundPacketStream.putString
  rw [put_eq]
  unfold OutboundPacketStream.checked
  rw [if_neg]
  have h1 : roundUp4 ("/a".length + 1) = 4 := by decide
  simp only [OutboundPacketStream.Size, OutboundPacketStream.extend, ArgData.size, h1,
    MAX_BUFF_SIZE, List.map_cons, List.map_nil, List.nil_append, List.length_cons,
    List.length_nil, List.sum_cons, List.sum_nil]
  unfold roundUp4
  omega

/-- The mixed table and the table with a hole: the function they hold is not among what the
walk of the encoder visits, at any depth, on the sample host. -/
theorem omitted_value_is_not_visited :
    (∀ depth, reachesUnsupported sampleHost depth
        (.table [(intKey 1, .boolean true), (.string "f", .function 0)]) = false)
      ∧ ∀ depth, reachesUnsupported sampleHost depth
        (.table [(intKey 1, .boolean true), (intKey 3, .function 0)]) = false := by
  constructor <;> intro depth <;> cases depth with
  | zero => rfl
  | succ d => cases d <;> rfl

/-- C6 as stated fails in three ways. A table of length 1 that holds true at index 1 and a
function under the key `f`, or at index 3, is written as the array `[T]`: `pack_array` walks
the indices 1 to 1 only, the call returns a packet, and the function is silently omitted. In a
call with 10000 values on the stack (the url, an array whose only element is an array holding a
function, and 9998 nils) the inner array is pushed at stack index 10001, `pack_table` raises its
too-large error there and the function is never reached. In a call with a string of 8192
characters in front of a function the stream raises the buffer error on the string. The last
two calls fail, but not with the cannot-pack error. -/
theorem unsupported_value_omitted_or_behind_other_error :
    pack sampleHost (stackOf [.string "/a",
        .table [(intKey 1, .boolean true), (.string "f", .function 0)]])
        = .ok (.message ⟨"/a", some ['[', 'T', ']'], [.none, .none, .none]⟩)
      ∧ pack sampleHost (stackOf [.string "/a",
          .table [(intKey 1, .boolean true), (intKey 3, .function 0)]])
        = .ok (.message ⟨"/a", some ['[', 'T', ']'], [.none, .none, .none]⟩)
      ∧ (reachesUnsupported sampleHost 2 (seqTable [seqTable [.function 0]]) = true
        ∧ pack sampleHost (stackOf (.string "/a" :: seqTable [seqTable [.function 0]]
            :: List.replicate 9998 .nil)) = .error .tooLarge)
      ∧ pack sampleHost (stackOf [.string "/a", .string (String.mk (List.replicate 8192 'a')),
          .function 0]) = .error .outOfBuffer := by
  refine ⟨rfl, rfl, ⟨by decide, ?_⟩, ?_⟩
  · have hb : OutboundPacketStream.BeginMessage MAX_BUFF_SIZE "/a"
        = .ok ⟨MAX_BUFF_SIZE, "/a", [], []⟩ := rfl
    rw [pack_unfold, hb]
    simp only [ok_bind]
    rw [show MAX_DEPTH + 1 = 9999 + 1 + 1 from rfl,
      depth_guard_before_function sampleHost sampleHost_regular 9999 _
        (List.length_replicate _ _)]
    rfl
  · have hb : OutboundPacketStream.BeginMessage MAX_BUFF_SIZE "/a"
        = .ok ⟨MAX_BUFF_SIZE, "/a", [], []⟩ := rfl
    rw [pack_unfold, hb]
    simp only [ok_bind, List.length_cons, List.length_nil, List.range'_succ, List.range'_zero,
      List.foldlM_cons, List.foldlM_nil]
    rw [long_string_fills_buffer MAX_DEPTH _ _ (String.mk (List.replicate 8192 'a'))
      (slot_stackOf [.string "/a", .string (String.mk (List.replicate 8192 'a')),
        .function 0] 1 (by decide))
      (by rw [cstr_replicate 8192 'a' (by decide), length_replicate_string]; omega)]
    rfl

/-! ## The depth guard and the nesting depth -/

end Osc
